import Mathlib

/-!
Verification of the `contour_sorting` repository (files `basic_geometry.py`,
`interval_tree.py`, `contour_sorting.py`) against its natural-language
specification.  The Python sources are shallowly embedded over exact
rationals; transcendental float-library calls (`math.sqrt`, `math.cos`,
`math.sin`, `math.atan2`, `math.pi`) are abstracted into a `FloatModel`
record, so theorems either hold for every model (pure control-flow facts)
or pin the model values actually used at the concrete inputs involved.
-/

/-- Exact-rational model of the float math library used by the Python code:
`math.pi`, `math.sqrt`, `math.cos`, `math.sin` and `math.atan2`. -/
structure FloatModel where
  pi : ℚ
  sqrtq : ℚ → ℚ
  cosq : ℚ → ℚ
  sinq : ℚ → ℚ
  atan2q : ℚ → ℚ → ℚ

/-- Python float modulo `x % y` for positive `y`: `x - y * floor (x / y)`. -/
def qfmod (x y : ℚ) : ℚ := x - y * (⌊x / y⌋ : ℤ)

/-- 2D points / vectors, as pairs of rationals. -/
abbrev Pt := ℚ × ℚ

def vadd (a b : Pt) : Pt := (a.1 + b.1, a.2 + b.2)

def vsub (a b : Pt) : Pt := (a.1 - b.1, a.2 - b.2)

def smul (t : ℚ) (a : Pt) : Pt := (t * a.1, t * a.2)

/-- `np.dot` on 2D vectors. -/
def dot2 (a b : Pt) : ℚ := a.1 * b.1 + a.2 * b.2

/-- `np.cross` on 2D vectors (scalar z component). -/
def cross2 (a b : Pt) : ℚ := a.1 * b.2 - a.2 * b.1

/-- `np.linalg.norm` on a 2D vector: the library square root of `x² + y²`. -/
def norm_model (M : FloatModel) (a : Pt) : ℚ := M.sqrtq (a.1 ^ 2 + a.2 ^ 2)

/-- The `1e-6` tolerance of `basic_geometry.py`. -/
def eps6 : ℚ := 1 / 1000000

/-- The `SubContour.EPS = 1e-5` tolerance of `contour_sorting.py`. -/
def eps5 : ℚ := 1 / 100000

/-- `basic_geometry.clamp_angle`: `angle % (2*pi)`. -/
def clamp_angle (M : FloatModel) (angle : ℚ) : ℚ := qfmod angle (2 * M.pi)

/-- The two raise sites of `basic_geometry.IntersectError`: an intersection
exactly at a segment endpoint (spec name `AmbiguousIntersection`), and a ray
tangent to an arc (spec name `TangentIntersection`). -/
inductive IntersectErr where
  | ambiguous
  | tangent
deriving DecidableEq

/-- Line 84–85 of `basic_geometry.py`: the collinearity measure
`|(s.y - e.y)*(s.x - o.x) - (s.y - o.y)*(s.x - e.x)|` of the three points. -/
def collinear_measure (start_pt end_pt ray_origin_pt : Pt) : ℚ :=
  |(start_pt.2 - end_pt.2) * (start_pt.1 - ray_origin_pt.1) -
    (start_pt.2 - ray_origin_pt.2) * (start_pt.1 - end_pt.1)|

/-- Line 76: normalized ray direction `r = dir / np.linalg.norm(dir)`. -/
def seg_r (M : FloatModel) (ray_direction_vector : Pt) : Pt :=
  (ray_direction_vector.1 / norm_model M ray_direction_vector,
   ray_direction_vector.2 / norm_model M ray_direction_vector)

/-- Line 73: segment direction `s = end_pt - start_pt` (not normalized). -/
def seg_s (start_pt end_pt : Pt) : Pt := vsub end_pt start_pt

/-- Lines 94–95: `(atan2(v.y, v.x) + 2*pi) % (2*pi)`. -/
def pos_angle (M : FloatModel) (v : Pt) : ℚ :=
  qfmod (M.atan2q v.2 v.1 + 2 * M.pi) (2 * M.pi)

/-- Line 101: segment parameter `t1 = cross(q - p, r) / cross(r, s)`. -/
def seg_t1 (M : FloatModel) (start_pt end_pt ray_origin_pt ray_direction_vector : Pt) : ℚ :=
  cross2 (vsub start_pt ray_origin_pt) (seg_r M ray_direction_vector) /
    cross2 (seg_r M ray_direction_vector) (seg_s start_pt end_pt)

/-- Line 102: ray parameter `t2 = cross(q - p, s) / cross(r, s)`. -/
def seg_t2 (M : FloatModel) (start_pt end_pt ray_origin_pt ray_direction_vector : Pt) : ℚ :=
  cross2 (vsub start_pt ray_origin_pt) (seg_s start_pt end_pt) /
    cross2 (seg_r M ray_direction_vector) (seg_s start_pt end_pt)

/-- Line 104/109: the computed intersection point `q + t1*s`. -/
def seg_hit (M : FloatModel) (start_pt end_pt ray_origin_pt ray_direction_vector : Pt) : Pt :=
  vadd start_pt (smul (seg_t1 M start_pt end_pt ray_origin_pt ray_direction_vector)
    (seg_s start_pt end_pt))

/-- Lines 109–110: the computed intersection point lies within `1e-6`
(library norm) of one of the two segment endpoints. -/
def seg_hits_vertex (M : FloatModel) (start_pt end_pt ray_origin_pt ray_direction_vector : Pt) :
    Prop :=
  |norm_model M (vsub (seg_hit M start_pt end_pt ray_origin_pt ray_direction_vector) start_pt)|
      < eps6 ∨
  |norm_model M (vsub (seg_hit M start_pt end_pt ray_origin_pt ray_direction_vector) end_pt)|
      < eps6

instance (M : FloatModel) (a b c d : Pt) : Decidable (seg_hits_vertex M a b c d) := by
  unfold seg_hits_vertex; infer_instance

/-- `basic_geometry.intersect_segment_with_ray`, lines 63–113.  Returns the
0/1 intersection count, or the `IntersectError` raised at line 111.
The extra `cross(r, s) = 0` branch models numpy float semantics: dividing by
an exactly-zero cross product yields `inf`/`nan` (no exception), and the
range constraints of line 107 are then false, so the function returns 0. -/
def intersect_segment_with_ray (M : FloatModel)
    (start_pt end_pt ray_origin_pt ray_direction_vector : Pt) : Except IntersectErr ℕ :=
  if collinear_measure start_pt end_pt ray_origin_pt < eps6 then .ok 0
  else if |pos_angle M (seg_r M ray_direction_vector) - pos_angle M (seg_s start_pt end_pt)|
      < eps6 then .ok 0
  else if cross2 (seg_r M ray_direction_vector) (seg_s start_pt end_pt) = 0 then .ok 0
  else if 0 ≤ seg_t1 M start_pt end_pt ray_origin_pt ray_direction_vector ∧
      seg_t1 M start_pt end_pt ray_origin_pt ray_direction_vector ≤ 1 ∧
      0 ≤ seg_t2 M start_pt end_pt ray_origin_pt ray_direction_vector then
    if seg_hits_vertex M start_pt end_pt ray_origin_pt ray_direction_vector then
      .error .ambiguous
    else .ok 1
  else .ok 0

/-- Lines 121–122: `dotperp(a, b) = np.dot(a, [b.y, -b.x])`. -/
def dotperp (a b : Pt) : ℚ := dot2 a (b.2, -b.1)

/-- Line 128: `delta = ray_origin - center`. -/
def arc_delta (center_pt ray_origin_pt : Pt) : Pt := vsub ray_origin_pt center_pt

/-- Lines 129–130: the quadratic discriminant
`dot(dir, delta)² - norm(dir)² * (norm(delta)² - radius²)`. -/
def arc_d (M : FloatModel) (center_pt : Pt) (radius : ℚ) (ray_origin_pt ray_direction_vector : Pt) :
    ℚ :=
  (dot2 ray_direction_vector (arc_delta center_pt ray_origin_pt)) ^ 2 -
    (norm_model M ray_direction_vector) ^ 2 *
      ((norm_model M (arc_delta center_pt ray_origin_pt)) ^ 2 - radius ^ 2)

/-- Lines 133–134: the point of the arc circle at the start angle. -/
def arc_a_pt (M : FloatModel) (center_pt : Pt) (radius start_angle_rad : ℚ) : Pt :=
  (center_pt.1 + radius * M.cosq start_angle_rad, center_pt.2 + radius * M.sinq start_angle_rad)

/-- Lines 135–136: the point of the arc circle at the end angle. -/
def arc_b_pt (M : FloatModel) (center_pt : Pt) (radius end_angle_rad : ℚ) : Pt :=
  (center_pt.1 + radius * M.cosq end_angle_rad, center_pt.2 + radius * M.sinq end_angle_rad)

/-- Line 143: the larger quadratic root `t1 = (-dot(dir,delta) + sqrt d) / norm(dir)²`. -/
def arc_t1 (M : FloatModel) (center_pt : Pt) (radius : ℚ) (ray_origin_pt ray_direction_vector : Pt) :
    ℚ :=
  (-(dot2 ray_direction_vector (arc_delta center_pt ray_origin_pt)) +
      M.sqrtq (arc_d M center_pt radius ray_origin_pt ray_direction_vector)) /
    (norm_model M ray_direction_vector) ^ 2

/-- Line 144: the smaller quadratic root `t2`. -/
def arc_t2 (M : FloatModel) (center_pt : Pt) (radius : ℚ) (ray_origin_pt ray_direction_vector : Pt) :
    ℚ :=
  (-(dot2 ray_direction_vector (arc_delta center_pt ray_origin_pt)) -
      M.sqrtq (arc_d M center_pt radius ray_origin_pt ray_direction_vector)) /
    (norm_model M ray_direction_vector) ^ 2

/-- Lines 147–158: a candidate ray parameter is counted when it is
nonnegative and the candidate point passes the perpendicular-projection
containment test against the chord from the start-angle point to the
end-angle point. -/
def arc_counts (M : FloatModel) (center_pt : Pt) (radius start_angle_rad end_angle_rad : ℚ)
    (ray_origin_pt ray_direction_vector : Pt) (t : ℚ) : Bool :=
  decide (0 ≤ t) &&
    decide (0 ≤ dotperp
      (vsub (vadd ray_origin_pt (smul t ray_direction_vector))
        (arc_a_pt M center_pt radius start_angle_rad))
      (vsub (arc_b_pt M center_pt radius end_angle_rad)
        (arc_a_pt M center_pt radius start_angle_rad)))

/-- `basic_geometry.intersect_arc_with_ray`, lines 116–160. -/
def intersect_arc_with_ray (M : FloatModel) (center_pt : Pt)
    (radius start_angle_rad end_angle_rad : ℚ) (ray_origin_pt ray_direction_vector : Pt) :
    Except IntersectErr ℕ :=
  if arc_d M center_pt radius ray_origin_pt ray_direction_vector < 0 then .ok 0
  else if arc_d M center_pt radius ray_origin_pt ray_direction_vector = 0 then .error .tangent
  else .ok
    ((if arc_counts M center_pt radius start_angle_rad end_angle_rad ray_origin_pt
        ray_direction_vector (arc_t1 M center_pt radius ray_origin_pt ray_direction_vector)
      then 1 else 0) +
     (if arc_counts M center_pt radius start_angle_rad end_angle_rad ray_origin_pt
        ray_direction_vector (arc_t2 M center_pt radius ray_origin_pt ray_direction_vector)
      then 1 else 0))

/-- The DXF entity kinds dispatched on by the repository: `LINE`, `ARC`
(angles in degrees, as stored by `ezdxf`), `CIRCLE`, and any other
`dxftype` (represented by a tag). -/
inductive Entity where
  | line (p q : Pt)
  | arc (center : Pt) (radius start_angle end_angle : ℚ)
  | circle (center : Pt) (radius : ℚ)
  | other (tag : ℕ)
deriving DecidableEq

/-- The per-entity dispatch of `point_in_contour` (lines 25–49): lines use
the segment primitive, arcs convert degrees to radians, circles use the arc
primitive over `[0, 2*pi]`, and entities of any other kind fall through all
branches and contribute nothing. -/
def entity_ray_hits (M : FloatModel) (pt ray_dir : Pt) : Entity → Except IntersectErr ℕ
  | .line p q => intersect_segment_with_ray M p q pt ray_dir
  | .arc c r sa ea =>
      intersect_arc_with_ray M c r (sa * M.pi / 180) (ea * M.pi / 180) pt ray_dir
  | .circle c r => intersect_arc_with_ray M c r 0 (2 * M.pi) pt ray_dir
  | .other _ => .ok 0

/-- One trial of `point_in_contour`: the total intersection count over all
entities of the contour for a fixed ray direction, stopping at the first
`IntersectError` (lines 20–54). -/
def trial_hits (M : FloatModel) (pt ray_dir : Pt) (contour : List Entity) :
    Except IntersectErr ℕ :=
  contour.foldlM (fun acc e => do pure (acc + (← entity_ray_hits M pt ray_dir e))) 0

/-- `basic_geometry.point_in_contour`, lines 12–61.  The unbounded
`while True:` loop draws a fresh random direction each iteration; the draws
are modeled as an explicit stream of direction vectors `(cos θ, sin θ)`.
A trial that raises an `IntersectError` is discarded (`continue`); an
error-free trial immediately returns the parity answer of line 59.  `none`
means the modeled stream was exhausted with every trial discarded — the
Python code would keep looping. -/
def point_in_contour (M : FloatModel) (pt : Pt) (contour : List Entity) :
    List Pt → Option Bool
  | [] => none
  | d :: ds =>
    match trial_hits M pt d contour with
    | .error _ => point_in_contour M pt contour ds
    | .ok n => some (decide (0 < n) && decide (n % 2 = 1))

/-- A rational stand-in for `math.pi`. -/
def piq : ℚ := 314159 / 100000

/-- A concrete square-root stand-in agreeing with the real square root on
the perfect squares exercised by the concrete inputs in this file. -/
def sqrt_table : ℚ → ℚ := fun x =>
  if x = 0 then 0
  else if x = 1 then 1
  else if x = 1 / 4 then 1 / 2
  else if x = 4 then 2
  else if x = 25 then 5
  else 1

/-- A concrete `atan2` stand-in, exact (up to the rational `piq`) on the
axis-aligned vectors exercised by the concrete inputs in this file. -/
def atan2_table : ℚ → ℚ → ℚ := fun y x =>
  if y = 0 ∧ 0 < x then 0
  else if y = 0 ∧ x < 0 then piq
  else if x = 0 ∧ 0 < y then piq / 2
  else if x = 0 ∧ y < 0 then -(piq / 2)
  else 0

/-- A concrete float model used to instantiate model-generic theorems. -/
def M0 : FloatModel :=
  ⟨piq, sqrt_table, fun x => if x = 0 then 1 else 0, fun _ => 0, atan2_table⟩

/-!
## `interval_tree.py`

Intervals are dictionary keys `(lo, hi)`; the dictionary values ("items")
are modeled as rationals, since `build` sorts `right_sorted_contents` by
them (`key=lambda interval_pair: interval_pair[1]` extracts the dict value,
so the items must be orderable in Python).  The dict preserves insertion
order, so it is modeled as a list of (interval, item) pairs.
-/

/-- An interval, i.e. a `(lo, hi)` dictionary key of `interval_tree.py`. -/
abbrev IKey := ℚ × ℚ

/-- An (interval, item) pair stored in the tree. -/
abbrev IPair := IKey × ℚ

/-- Python tuple comparison of interval keys (lexicographic), the sort key
of `left_sorted_contents.sort(key=lambda interval_pair: interval_pair[0])`. -/
def ikey_le (a b : IPair) : Prop :=
  a.1.1 < b.1.1 ∨ (a.1.1 = b.1.1 ∧ a.1.2 ≤ b.1.2)

instance : DecidableRel ikey_le := fun a b => by unfold ikey_le; infer_instance

instance : IsTotal IPair ikey_le := by
  constructor; intro a b
  unfold ikey_le
  rcases lt_trichotomy a.1.1 b.1.1 with h | h | h
  · exact Or.inl (Or.inl h)
  · rcases le_total a.1.2 b.1.2 with h2 | h2
    · exact Or.inl (Or.inr ⟨h, h2⟩)
    · exact Or.inr (Or.inr ⟨h.symm, h2⟩)
  · exact Or.inr (Or.inl h)

instance : IsTrans IPair ikey_le := by
  constructor; intro a b c hab hbc
  unfold ikey_le at *
  rcases hab with h1 | ⟨h1, h1b⟩ <;> rcases hbc with h2 | ⟨h2, h2b⟩
  · exact Or.inl (h1.trans h2)
  · exact Or.inl (h2 ▸ h1)
  · exact Or.inl (h1 ▸ h2)
  · exact Or.inr ⟨h1.trans h2, h1b.trans h2b⟩

/-- The sort relation of
`right_sorted_contents.sort(key=lambda interval_pair: interval_pair[1], reverse=True)`:
descending by ITEM.  (Note the Python key extracts the dictionary value,
not the interval's upper endpoint.) -/
def item_ge (a b : IPair) : Prop := b.2 ≤ a.2

instance : DecidableRel item_ge := fun a b => by unfold item_ge; infer_instance

instance : IsTotal IPair item_ge := by
  constructor; intro a b; exact (le_total b.2 a.2).imp id id

instance : IsTrans IPair item_ge := by
  constructor; intro a b c hab hbc; exact le_trans hbc hab

/-- The three buckets of `IntervalTree.build`. -/
inductive IBucket where
  | straddle
  | lower
  | upper
deriving DecidableEq

/-- The classification performed by `build`: line 22 (straddle: strictly
contains the midpoint), line 37 (`midpoint - hi > 0`), line 40
(`lo - midpoint > 0`); an interval matching none of the three conditions is
left unclassified and triggers the line 47 `RuntimeError`. -/
def it_classify (mid : ℚ) (iv : IKey) : Option IBucket :=
  if iv.1 < mid ∧ mid < iv.2 then some .straddle
  else if 0 < mid - iv.2 then some .lower
  else if 0 < iv.1 - mid then some .upper
  else none

/-- A built interval tree node; `nil` stands for an absent child
(`left_child`/`right_child = None`). -/
inductive ITree where
  | nil
  | node (midpoint : ℚ) (left_sorted right_sorted : List IPair) (lc rc : ITree)
deriving DecidableEq

/-- Failure modes of the modeled `build`: the line 47
`RuntimeError("This shouldn't happen.")`, or recursion-depth (fuel)
exhaustion, which models Python's `RecursionError`. -/
inductive BuildErr where
  | unclassified
  | depth
deriving DecidableEq

/-- Line 18: `midpoint = (upper_bound - lower_bound)/2.0 + lower_bound`. -/
def it_mid (lb ub : ℚ) : ℚ := (ub - lb) / 2 + lb

/-- Line 22 of `build`: the pairs strictly straddling the midpoint. -/
def it_straddle (mid : ℚ) (ivs : List IPair) : List IPair :=
  ivs.filter fun p => decide (it_classify mid p.1 = some .straddle)

/-- Line 28: the non-straddling pairs (`remaining_intervals`), in order. -/
def it_rest (mid : ℚ) (ivs : List IPair) : List IPair :=
  ivs.filter fun p => !decide (it_classify mid p.1 = some .straddle)

/-- Line 37–38: the remaining pairs entirely below the midpoint. -/
def it_lower (mid : ℚ) (ivs : List IPair) : List IPair :=
  (it_rest mid ivs).filter fun p => decide (it_classify mid p.1 = some .lower)

/-- Line 40–41: the remaining pairs entirely above the midpoint. -/
def it_upper (mid : ℚ) (ivs : List IPair) : List IPair :=
  (it_rest mid ivs).filter fun p => decide (it_classify mid p.1 = some .upper)

/-- The unclassified pairs that trigger the line 47 `RuntimeError`. -/
def it_leftover (mid : ℚ) (ivs : List IPair) : List IPair :=
  (it_rest mid ivs).filter fun p => decide (it_classify mid p.1 = none)

/-- `IntervalTree.build`, lines 17–55, with explicit recursion fuel (Python
recursion is bounded by the interpreter's recursion limit, and `build`
recurses without structural decrease, e.g. on intervals outside the given
bounds).  Buckets are computed through `it_classify`; Python's stable
`list.sort` is modeled by the stable `List.insertionSort`. -/
def it_build : ℕ → ℚ → ℚ → List IPair → Except BuildErr ITree
  | 0, _, _, _ => .error .depth
  | f + 1, lb, ub, ivs =>
    let mid := it_mid lb ub
    if (it_leftover mid ivs).length ≠ 0 then .error .unclassified
    else
      match (if (it_lower mid ivs).length ≠ 0 then it_build f lb mid (it_lower mid ivs)
              else .ok .nil),
            (if (it_upper mid ivs).length ≠ 0 then it_build f mid ub (it_upper mid ivs)
              else .ok .nil) with
      | .ok lc, .ok rc =>
          .ok (.node mid (List.insertionSort ikey_le (it_straddle mid ivs))
            (List.insertionSort item_ge (it_straddle mid ivs)) lc rc)
      | .error e, _ => .error e
      | .ok _, .error e => .error e

/-- `IntervalTree.query`, lines 57–76: scan the relevant sorted straddle
list, breaking at the first entry failing the tolerance-relaxed endpoint
test, then recurse into the relevant child. -/
def it_query (y : ℚ) : ITree → List IPair
  | .nil => []
  | .node mid ls rs lc rc =>
    if y < mid then
      (ls.takeWhile fun p => decide (p.1.1 ≤ y) || decide (|p.1.1 - y| < eps5)) ++ it_query y lc
    else
      (rs.takeWhile fun p => decide (y ≤ p.1.2) || decide (|p.1.2 - y| < eps5)) ++ it_query y rc

/-- All (interval, item) pairs stored in a tree. -/
def it_elems : ITree → List IPair
  | .nil => []
  | .node _ ls _ lc rc => ls ++ it_elems lc ++ it_elems rc

/-- Structural invariant established by `it_build`, sufficient for query
soundness: straddle lists really straddle the node midpoint, the two
sorted lists hold the same pairs, the left list is ordered by lower
endpoint, and the children are bounded by the midpoint. -/
inductive ITBase : ITree → Prop
  | nil : ITBase .nil
  | node {mid : ℚ} {ls rs : List IPair} {lc rc : ITree}
      (hstrad : ∀ p ∈ ls, p.1.1 < mid ∧ mid < p.1.2)
      (hperm : rs.Perm ls)
      (hlsort : ls.Pairwise fun a b => a.1.1 ≤ b.1.1)
      (hlow : ∀ p ∈ it_elems lc, p.1.2 < mid)
      (hup : ∀ p ∈ it_elems rc, mid < p.1.1)
      (hlc : ITBase lc) (hrc : ITBase rc) : ITBase (.node mid ls rs lc rc)

/-- The extra invariant needed for query completeness: every right
(item-descending) list is also descending by upper endpoint.  `it_build`
only guarantees this when the item order agrees with the upper-endpoint
order, since the Python code sorts this list by item. -/
inductive ITGood : ITree → Prop
  | nil : ITGood .nil
  | node {mid : ℚ} {ls rs : List IPair} {lc rc : ITree}
      (hrsort : rs.Pairwise fun a b => b.1.2 ≤ a.1.2)
      (hlc : ITGood lc) (hrc : ITGood rc) : ITGood (.node mid ls rs lc rc)

/-- The item order of the stored pairs is compatible with the order of the
upper endpoints (e.g. when the item is the interval's upper endpoint
itself).  Under this hypothesis the buggy sort key of
`right_sorted_contents` is harmless. -/
def item_hi_coupled (ivs : List IPair) : Prop :=
  ∀ p ∈ ivs, ∀ q ∈ ivs, q.2 ≤ p.2 → q.1.2 ≤ p.1.2

/-- In a list whose order relation is compatible with a predicate (anything
related-before an element satisfying the predicate also satisfies it),
every member satisfying the predicate survives `takeWhile`. -/
theorem mem_takeWhile_of_pairwise {γ : Type} {R : γ → γ → Prop} {pred : γ → Bool}
    {l : List γ} (hp : l.Pairwise R)
    (hmono : ∀ a b : γ, R a b → pred b = true → pred a = true) :
    ∀ x ∈ l, pred x = true → x ∈ l.takeWhile pred := by
  induction l with
  | nil => intro x hx; cases hx
  | cons h t ih =>
    intro x hx hpx
    rcases List.mem_cons.mp hx with rfl | hxt
    · rw [List.takeWhile_cons, hpx]
      exact List.mem_cons_self x _
    · have hh : pred h = true :=
        hmono h x ((List.pairwise_cons.mp hp).1 x hxt) hpx
      rw [List.takeWhile_cons, hh]
      exact List.mem_cons.mpr (Or.inr (ih (List.pairwise_cons.mp hp).2 x hxt hpx))

/-- Query soundness over the base invariant: every returned pair is stored
in the tree and its interval contains the query point up to the `1e-5`
slack of lines 62 and 70 (the exact-containment claim fails, see the
counterexample). -/
theorem it_query_sound {t : ITree} (ht : ITBase t) (y : ℚ) :
    ∀ p ∈ it_query y t, p ∈ it_elems t ∧ p.1.1 < y + eps5 ∧ y - eps5 < p.1.2 := by
  induction ht with
  | nil => intro p hp; cases hp
  | node hstrad hperm hlsort hlow hup hlc hrc ihl ihr =>
    intro p hp
    rw [it_query] at hp
    split at hp
    · rename_i hy
      rcases List.mem_append.mp hp with hin | hin
      · have hmem : p ∈ _ := (List.takeWhile_sublist _).mem hin
        have hpred := List.mem_takeWhile_imp hin
        have hs := hstrad p hmem
        refine ⟨List.mem_append.mpr (Or.inl (List.mem_append.mpr (Or.inl hmem))), ?_, ?_⟩
        · rcases Bool.or_eq_true_iff.mp hpred with h | h
          · have := of_decide_eq_true h
            have he : (0 : ℚ) < eps5 := by norm_num [eps5]
            linarith
          · have := of_decide_eq_true h
            have := abs_lt.mp this
            linarith [this.1]
        · have he : (0 : ℚ) < eps5 := by norm_num [eps5]
          linarith [hs.2]
      · rcases ihl p hin with ⟨hm, h1, h2⟩
        exact ⟨List.mem_append.mpr (Or.inl (List.mem_append.mpr (Or.inr hm))), h1, h2⟩
    · rename_i hy
      rcases List.mem_append.mp hp with hin | hin
      · have hmem : p ∈ _ := (List.takeWhile_sublist _).mem hin
        have hpred := List.mem_takeWhile_imp hin
        have hmem2 : p ∈ _ := hperm.mem_iff.mp hmem
        have hs := hstrad p hmem2
        refine ⟨List.mem_append.mpr (Or.inl (List.mem_append.mpr (Or.inl hmem2))), ?_, ?_⟩
        · have he : (0 : ℚ) < eps5 := by norm_num [eps5]
          have := le_of_not_lt hy
          linarith [hs.1]
        · rcases Bool.or_eq_true_iff.mp hpred with h | h
          · have := of_decide_eq_true h
            have he : (0 : ℚ) < eps5 := by norm_num [eps5]
            linarith
          · have := of_decide_eq_true h
            have := abs_lt.mp this
            linarith [this.2]
      · rcases ihr p hin with ⟨hm, h1, h2⟩
        exact ⟨List.mem_append.mpr (Or.inr hm), h1, h2⟩

/-- Query completeness over both invariants: every stored pair whose
interval contains the query point is returned. -/
theorem it_query_complete {t : ITree} (ht : ITBase t) (y : ℚ) :
    ITGood t → ∀ p ∈ it_elems t, p.1.1 ≤ y → y ≤ p.1.2 → p ∈ it_query y t := by
  induction ht with
  | nil => intro _ p hp; cases hp
  | @node mid ls rs lc rc hstrad hperm hlsort hlow hup hlc hrc ihl ihr =>
    intro hg p hp hlo hhi
    rcases hg with _ | ⟨hrsort, hglc, hgrc⟩
    rw [it_query]
    rcases List.mem_append.mp hp with hp2 | hin
    · rcases List.mem_append.mp hp2 with hin | hin
      · by_cases hy : y < mid
        · rw [if_pos hy]
          refine List.mem_append.mpr (Or.inl ?_)
          refine mem_takeWhile_of_pairwise hlsort ?_ p hin ?_
          · intro a b hab hb
            rcases Bool.or_eq_true_iff.mp hb with h | h
            · have hby := of_decide_eq_true h
              by_cases hay : a.1.1 ≤ y
              · exact Bool.or_eq_true_iff.mpr (Or.inl (decide_eq_true hay))
              · refine Bool.or_eq_true_iff.mpr (Or.inr (decide_eq_true ?_))
                have he : (0 : ℚ) < eps5 := by norm_num [eps5]
                rw [abs_lt]
                constructor <;> linarith [lt_of_not_le hay]
            · have hby := abs_lt.mp (of_decide_eq_true h)
              by_cases hay : a.1.1 ≤ y
              · exact Bool.or_eq_true_iff.mpr (Or.inl (decide_eq_true hay))
              · refine Bool.or_eq_true_iff.mpr (Or.inr (decide_eq_true ?_))
                rw [abs_lt]
                constructor <;> linarith [lt_of_not_le hay, hby.2]
          · exact Bool.or_eq_true_iff.mpr (Or.inl (decide_eq_true hlo))
        · rw [if_neg hy]
          refine List.mem_append.mpr (Or.inl ?_)
          have hinr : p ∈ rs := hperm.mem_iff.mpr hin
          refine mem_takeWhile_of_pairwise hrsort ?_ p hinr ?_
          · intro a b hab hb
            rcases Bool.or_eq_true_iff.mp hb with h | h
            · have hby := of_decide_eq_true h
              by_cases hay : y ≤ a.1.2
              · exact Bool.or_eq_true_iff.mpr (Or.inl (decide_eq_true hay))
              · refine Bool.or_eq_true_iff.mpr (Or.inr (decide_eq_true ?_))
                have he : (0 : ℚ) < eps5 := by norm_num [eps5]
                rw [abs_lt]
                constructor <;> linarith [lt_of_not_le hay]
            · have hby := abs_lt.mp (of_decide_eq_true h)
              by_cases hay : y ≤ a.1.2
              · exact Bool.or_eq_true_iff.mpr (Or.inl (decide_eq_true hay))
              · refine Bool.or_eq_true_iff.mpr (Or.inr (decide_eq_true ?_))
                rw [abs_lt]
                constructor <;> linarith [lt_of_not_le hay, hby.1]
          · exact Bool.or_eq_true_iff.mpr (Or.inl (decide_eq_true hhi))
      · have hbound := hlow p hin
        have hy : y < mid := lt_of_le_of_lt hhi hbound
        rw [if_pos hy]
        exact List.mem_append.mpr (Or.inr (ihl hglc p hin hlo hhi))
    · have hbound := hup p hin
      have hy : ¬ (y < mid) := not_lt.mpr (le_trans (le_of_lt hbound) hlo)
      rw [if_neg hy]
      exact List.mem_append.mpr (Or.inr (ihr hgrc p hin hlo hhi))


theorem it_classify_straddle {mid : ℚ} {iv : IKey}
    (h : it_classify mid iv = some .straddle) : iv.1 < mid ∧ mid < iv.2 := by
  unfold it_classify at h
  split_ifs at h <;> simp_all

theorem it_classify_lower {mid : ℚ} {iv : IKey}
    (h : it_classify mid iv = some .lower) : iv.2 < mid := by
  unfold it_classify at h
  split_ifs at h <;> simp_all

theorem it_classify_upper {mid : ℚ} {iv : IKey}
    (h : it_classify mid iv = some .upper) : mid < iv.1 := by
  unfold it_classify at h
  split_ifs at h <;> simp_all

/-- With no leftover, the lower and upper buckets partition the
non-straddling pairs. -/
theorem it_lower_upper_perm {mid : ℚ} {ivs : List IPair}
    (h : it_leftover mid ivs = []) :
    (it_lower mid ivs ++ it_upper mid ivs).Perm (it_rest mid ivs) := by
  have h4 : (it_rest mid ivs).filter
      (fun p => !decide (it_classify mid p.1 = some .lower)) = it_upper mid ivs := by
    refine List.filter_congr ?_
    intro x hx
    have hns : ¬ (it_classify mid x.1 = some .straddle) := by
      have := List.of_mem_filter hx
      simpa using this
    have hnn : ¬ (it_classify mid x.1 = none) := by
      intro hcon
      have hmem : x ∈ it_leftover mid ivs :=
        List.mem_filter.mpr ⟨hx, decide_eq_true hcon⟩
      rw [h] at hmem
      cases hmem
    rcases hb : it_classify mid x.1 with _ | b
    · exact absurd hb hnn
    · cases b
      · exact absurd hb hns
      · simp
      · simp
  have h5 : (it_lower mid ivs ++ (it_rest mid ivs).filter
      (fun p => !decide (it_classify mid p.1 = some .lower))).Perm (it_rest mid ivs) :=
    List.filter_append_perm _ _
  rw [h4] at h5
  exact h5

theorem mem_it_straddle {mid : ℚ} {ivs : List IPair} {p : IPair} :
    p ∈ it_straddle mid ivs ↔ p ∈ ivs ∧ it_classify mid p.1 = some .straddle := by
  unfold it_straddle
  simp [List.mem_filter]

theorem mem_it_rest {mid : ℚ} {ivs : List IPair} {p : IPair} :
    p ∈ it_rest mid ivs ↔ p ∈ ivs ∧ ¬ it_classify mid p.1 = some .straddle := by
  unfold it_rest
  simp [List.mem_filter]

theorem mem_it_lower {mid : ℚ} {ivs : List IPair} {p : IPair} :
    p ∈ it_lower mid ivs ↔ p ∈ it_rest mid ivs ∧ it_classify mid p.1 = some .lower := by
  unfold it_lower
  simp [List.mem_filter]

theorem mem_it_upper {mid : ℚ} {ivs : List IPair} {p : IPair} :
    p ∈ it_upper mid ivs ↔ p ∈ it_rest mid ivs ∧ it_classify mid p.1 = some .upper := by
  unfold it_upper
  simp [List.mem_filter]

/-- `it_build` establishes the base invariant, and the built tree stores
exactly the input pairs (as a permutation). -/
theorem it_build_base : ∀ (f : ℕ) (lb ub : ℚ) (ivs : List IPair) (t : ITree),
    it_build f lb ub ivs = .ok t → ITBase t ∧ (it_elems t).Perm ivs := by
  intro f
  induction f with
  | zero => intro lb ub ivs t h; simp [it_build] at h
  | succ f ih =>
    intro lb ub ivs t h
    rw [it_build] at h
    split at h
    · simp at h
    · rename_i hleft
      have hleft2 : it_leftover (it_mid lb ub) ivs = [] :=
        List.length_eq_zero.mp (not_ne_iff.mp hleft)
      split at h
      · rename_i lc rc hlc hrc
        rcases Except.ok.inj h with rfl
        have hlcbase : ITBase lc ∧ (it_elems lc).Perm (it_lower (it_mid lb ub) ivs) := by
          split at hlc
          · exact ih _ _ _ _ hlc
          · rcases Except.ok.inj hlc with rfl
            rename_i hlen
            refine ⟨ITBase.nil, ?_⟩
            have hempty : it_lower (it_mid lb ub) ivs = [] :=
              List.length_eq_zero.mp (not_ne_iff.mp hlen)
            rw [hempty]
            exact List.Perm.refl _
        have hrcbase : ITBase rc ∧ (it_elems rc).Perm (it_upper (it_mid lb ub) ivs) := by
          split at hrc
          · exact ih _ _ _ _ hrc
          · rcases Except.ok.inj hrc with rfl
            rename_i hlen
            refine ⟨ITBase.nil, ?_⟩
            have hempty : it_upper (it_mid lb ub) ivs = [] :=
              List.length_eq_zero.mp (not_ne_iff.mp hlen)
            rw [hempty]
            exact List.Perm.refl _
        constructor
        · refine ITBase.node ?_ ?_ ?_ ?_ ?_ hlcbase.1 hrcbase.1
          · intro p hp
            have hp2 : p ∈ it_straddle (it_mid lb ub) ivs :=
              (List.perm_insertionSort ikey_le _).mem_iff.mp hp
            exact it_classify_straddle (mem_it_straddle.mp hp2).2
          · exact (List.perm_insertionSort item_ge _).trans
              (List.perm_insertionSort ikey_le _).symm
          · exact (List.sorted_insertionSort ikey_le _).imp (fun hab => by
              rcases hab with h1 | ⟨h1, _⟩
              · exact le_of_lt h1
              · exact le_of_eq h1)
          · intro p hp
            have hp2 := hlcbase.2.mem_iff.mp hp
            exact it_classify_lower (mem_it_lower.mp hp2).2
          · intro p hp
            have hp2 := hrcbase.2.mem_iff.mp hp
            exact it_classify_upper (mem_it_upper.mp hp2).2
        · simp only [it_elems]
          have q1 : ((List.insertionSort ikey_le (it_straddle (it_mid lb ub) ivs) ++
              it_elems lc) ++ it_elems rc).Perm
              ((it_straddle (it_mid lb ub) ivs ++ it_lower (it_mid lb ub) ivs) ++
                it_upper (it_mid lb ub) ivs) :=
            List.Perm.append (List.Perm.append (List.perm_insertionSort _ _) hlcbase.2)
              hrcbase.2
          have q2 : ((it_straddle (it_mid lb ub) ivs ++ it_lower (it_mid lb ub) ivs) ++
              it_upper (it_mid lb ub) ivs).Perm
              (it_straddle (it_mid lb ub) ivs ++ it_rest (it_mid lb ub) ivs) := by
            rw [List.append_assoc]
            exact List.Perm.append_left _ (it_lower_upper_perm hleft2)
          have q3 : (it_straddle (it_mid lb ub) ivs ++ it_rest (it_mid lb ub) ivs).Perm ivs :=
            List.filter_append_perm _ _
          exact (q1.trans q2).trans q3
      · exact Except.noConfusion h
      · exact Except.noConfusion h

instance {ε α : Type} [DecidableEq ε] [DecidableEq α] : DecidableEq (Except ε α) := by
  intro a b
  cases a <;> cases b
  case error.error e1 e2 =>
    rcases decEq e1 e2 with h | h
    · exact isFalse (by intro hc; cases hc; exact h rfl)
    · exact isTrue (by rw [h])
  case ok.ok a1 a2 =>
    rcases decEq a1 a2 with h | h
    · exact isFalse (by intro hc; cases hc; exact h rfl)
    · exact isTrue (by rw [h])
  case error.ok e1 a2 => exact isFalse (by intro hc; cases hc)
  case ok.error a1 e2 => exact isFalse (by intro hc; cases hc)

/-- `it_build` establishes the completeness invariant provided the item
order of the input pairs is compatible with their upper-endpoint order
(the Python code sorts `right_sorted_contents` by item). -/
theorem it_build_good : ∀ (f : ℕ) (lb ub : ℚ) (ivs : List IPair) (t : ITree),
    it_build f lb ub ivs = .ok t → item_hi_coupled ivs → ITGood t := by
  intro f
  induction f with
  | zero => intro lb ub ivs t h; simp [it_build] at h
  | succ f ih =>
    intro lb ub ivs t h hcoup
    rw [it_build] at h
    split at h
    · simp at h
    · split at h
      · rename_i lc rc hlc hrc
        rcases Except.ok.inj h with rfl
        have hgl : ITGood lc := by
          split at hlc
          · refine ih _ _ _ _ hlc ?_
            intro p hp q hq hle
            exact hcoup p (mem_it_rest.mp (mem_it_lower.mp hp).1).1
              q (mem_it_rest.mp (mem_it_lower.mp hq).1).1 hle
          · rcases Except.ok.inj hlc with rfl
            exact ITGood.nil
        have hgr : ITGood rc := by
          split at hrc
          · refine ih _ _ _ _ hrc ?_
            intro p hp q hq hle
            exact hcoup p (mem_it_rest.mp (mem_it_upper.mp hp).1).1
              q (mem_it_rest.mp (mem_it_upper.mp hq).1).1 hle
          · rcases Except.ok.inj hrc with rfl
            exact ITGood.nil
        refine ITGood.node ?_ hgl hgr
        have hs : (List.insertionSort item_ge (it_straddle (it_mid lb ub) ivs)).Pairwise
            item_ge := List.sorted_insertionSort item_ge _
        have hs2 := List.Pairwise.and_mem.mp hs
        refine hs2.imp ?_
        intro a b hab
        rcases hab with ⟨ha, hb, hr⟩
        have ha2 : a ∈ ivs :=
          (mem_it_straddle.mp ((List.perm_insertionSort item_ge _).mem_iff.mp ha)).1
        have hb2 : b ∈ ivs :=
          (mem_it_straddle.mp ((List.perm_insertionSort item_ge _).mem_iff.mp hb)).1
        exact hcoup a ha2 b hb2 hr
      · exact Except.noConfusion h
      · exact Except.noConfusion h

/-- C8 (amended): for every interval set accepted by `IntervalTree.build`
whose item order is compatible with the upper-endpoint order, `query(y)`
returns every stored interval `[lo, hi]` with `lo ≤ y ≤ hi`, and every
returned interval is stored and satisfies `lo < y + 1e-5` and
`hi > y - 1e-5` (the query deliberately relaxes the endpoint comparisons by
the `1e-5` tolerance, so near-miss intervals can also be returned; and the
right scan is ordered by item, so without the compatibility hypothesis a
containing interval can be missed — see the counterexample). -/
theorem claim_C8_interval_tree_query_exact (fuel : ℕ) (lb ub : ℚ) (ivs : List IPair)
    (t : ITree) (y : ℚ) (hb : it_build fuel lb ub ivs = .ok t)
    (hcoup : item_hi_coupled ivs) :
    (∀ p ∈ ivs, p.1.1 ≤ y → y ≤ p.1.2 → p ∈ it_query y t) ∧
    (∀ p ∈ it_query y t, p ∈ ivs ∧ p.1.1 < y + eps5 ∧ y - eps5 < p.1.2) := by
  obtain ⟨hbase, hperm⟩ := it_build_base fuel lb ub ivs t hb
  have hgood := it_build_good fuel lb ub ivs t hb hcoup
  constructor
  · intro p hp hlo hhi
    exact it_query_complete hbase y hgood p (hperm.mem_iff.mpr hp) hlo hhi
  · intro p hp
    rcases it_query_sound hbase y p hp with ⟨hm, h1, h2⟩
    exact ⟨hperm.mem_iff.mp hm, h1, h2⟩

instance (ivs : List IPair) : Decidable (item_hi_coupled ivs) := by
  unfold item_hi_coupled; infer_instance

/-- Witness: on the interval set `{(0.5, 1.5)}` over bounds `[0, 2]`, the
query at `y = 1` returns the stored interval. -/
theorem claim_C8_interval_tree_query_exact_witness :
    (((1 / 2 : ℚ), (3 / 2 : ℚ)), (0 : ℚ)) ∈
      it_query 1 (.node 1 [(((1 : ℚ) / 2, (3 : ℚ) / 2), 0)]
        [(((1 : ℚ) / 2, (3 : ℚ) / 2), 0)] .nil .nil) :=
  (claim_C8_interval_tree_query_exact 1 0 2 [((1 / 2, 3 / 2), 0)]
      (.node 1 [((1 / 2, 3 / 2), 0)] [((1 / 2, 3 / 2), 0)] .nil .nil) 1
      (by with_unfolding_all decide) (by with_unfolding_all decide)).1
    (((1 / 2 : ℚ), (3 / 2 : ℚ)), (0 : ℚ)) (by simp) (by norm_num) (by norm_num)

/-- Counterexample to C8 as stated.  First conjunct: on `{(0.5, 1.5)}`, the
query at `y = 0.499999` returns the interval although `y < lo` (the `1e-5`
tolerance of `query`).  Second conjunct: on
`{(1.5, 2.5) ↦ 2, (1, 3.5) ↦ 1}` over `[0, 4]`, the query at `y = 3`
returns nothing although the stored interval `(1, 3.5)` contains `3`: the
right scan is sorted by descending item, puts `(1.5, 2.5)` first, and the
scan breaks on it before reaching `(1, 3.5)`. -/
theorem claim_C8_counterexample :
    ((it_build 1 0 2 [((1 / 2, 3 / 2), 0)]).map (it_query (499999 / 1000000)) =
        .ok [((1 / 2, 3 / 2), 0)] ∧ ¬ ((1 / 2 : ℚ) ≤ 499999 / 1000000)) ∧
    ((it_build 1 0 4 [((3 / 2, 5 / 2), 2), ((1, 7 / 2), 1)]).map (it_query 3) = .ok [] ∧
      (1 : ℚ) ≤ 3 ∧ (3 : ℚ) ≤ 7 / 2) := by
  refine ⟨⟨by with_unfolding_all decide, by norm_num⟩,
    ⟨by with_unfolding_all decide, by norm_num, by norm_num⟩⟩

/-- C10: `build`'s classification is total exactly on intervals avoiding
the node midpoint: a (well-formed, `lo ≤ hi`) interval is bucketed iff
neither endpoint equals the computed midpoint; and on input `{(1, 2)}` over
bounds `[0, 2]` (midpoint `1 = lo`), `build` raises
`RuntimeError("This shouldn't happen.")`. -/
theorem claim_C10_build_classification :
    (∀ (mid : ℚ) (iv : IKey), iv.1 ≤ iv.2 →
      (it_classify mid iv ≠ none ↔ (iv.1 ≠ mid ∧ iv.2 ≠ mid))) ∧
    it_build 1 0 2 [((1, 2), 37)] = .error .unclassified := by
  constructor
  · intro mid iv hle
    constructor
    · intro hs
      constructor
      · intro heq
        apply hs
        unfold it_classify
        split_ifs with c1 c2 c3
        · exfalso; rw [heq] at c1; exact lt_irrefl mid c1.1
        · exfalso; rw [heq] at hle; linarith
        · exfalso; rw [heq] at c3; linarith
        · rfl
      · intro heq
        apply hs
        unfold it_classify
        split_ifs with c1 c2 c3
        · exfalso; rw [heq] at c1; exact lt_irrefl mid c1.2
        · exfalso; rw [heq] at c2; linarith
        · exfalso; rw [heq] at hle; linarith
        · rfl
    · rintro ⟨h1, h2⟩ hcon
      unfold it_classify at hcon
      split_ifs at hcon with c1 c2 c3
      have hhi : mid ≤ iv.2 := by linarith [not_lt.mp c2]
      have hlo : iv.1 ≤ mid := by linarith [not_lt.mp c3]
      exact c1 ⟨lt_of_le_of_ne hlo h1, lt_of_le_of_ne hhi (Ne.symm h2)⟩
  · with_unfolding_all decide

/-- Witness for the universally quantified part of C10: with midpoint `0`,
the interval `(1, 2)` is classified (it lies strictly above). -/
theorem claim_C10_build_classification_witness :
    it_classify 0 ((1 : ℚ), 2) ≠ none ∧
      it_build 1 0 2 [(((1 : ℚ), 2), 37)] = .error .unclassified :=
  ⟨(claim_C10_build_classification.1 0 (1, 2) (by norm_num)).mpr (by norm_num),
    claim_C10_build_classification.2⟩

/-!
## Claims about `basic_geometry.py`
-/

/-- Unfolding step of `point_in_contour` for an error-free trial. -/
theorem point_in_contour_cons_ok {M : FloatModel} {pt : Pt} {contour : List Entity}
    {d : Pt} {ds : List Pt} {n : ℕ} (h : trial_hits M pt d contour = .ok n) :
    point_in_contour M pt contour (d :: ds) =
      some (decide (0 < n) && decide (n % 2 = 1)) := by
  simp only [point_in_contour]
  rw [h]

/-- Unfolding step of `point_in_contour` for a discarded trial. -/
theorem point_in_contour_cons_error {M : FloatModel} {pt : Pt} {contour : List Entity}
    {d : Pt} {ds : List Pt} {e : IntersectErr} (h : trial_hits M pt d contour = .error e) :
    point_in_contour M pt contour (d :: ds) = point_in_contour M pt contour ds := by
  simp only [point_in_contour]
  rw [h]

/-- C5: `intersect_segment_with_ray` returns 0 (without raising) whenever
the three defining points are collinear within `1e-6` (the code's measure),
and likewise when the collinearity test fails but the normalized positive
angles of the ray and segment directions differ by less than `1e-6`
(parallel-but-disjoint).  In both branches the function returns before the
`cross(r, s)` division of the general case. -/
theorem claim_C5_segment_ray_degenerate :
    (∀ (M : FloatModel) (sp ep orig dv : Pt),
      collinear_measure sp ep orig < eps6 →
      intersect_segment_with_ray M sp ep orig dv = .ok 0) ∧
    (∀ (M : FloatModel) (sp ep orig dv : Pt),
      ¬ collinear_measure sp ep orig < eps6 →
      |pos_angle M (seg_r M dv) - pos_angle M (seg_s sp ep)| < eps6 →
      intersect_segment_with_ray M sp ep orig dv = .ok 0) := by
  constructor
  · intro M sp ep orig dv h
    unfold intersect_segment_with_ray
    rw [if_pos h]
  · intro M sp ep orig dv h1 h2
    unfold intersect_segment_with_ray
    rw [if_neg h1, if_pos h2]

/-- Witness: a collinear instance (horizontal segment, collinear ray
origin) and a parallel-but-disjoint instance (horizontal segment above a
horizontal ray), both returning 0 under the concrete model `M0`. -/
theorem claim_C5_segment_ray_degenerate_witness :
    intersect_segment_with_ray M0 (0, 0) (1, 0) (2, 0) (1, 0) = .ok 0 ∧
    intersect_segment_with_ray M0 (0, 1) (1, 1) (0, 0) (1, 0) = .ok 0 :=
  ⟨claim_C5_segment_ray_degenerate.1 M0 (0, 0) (1, 0) (2, 0) (1, 0)
      (by with_unfolding_all decide),
   claim_C5_segment_ray_degenerate.2 M0 (0, 1) (1, 1) (0, 0) (1, 0)
      (by with_unfolding_all decide) (by with_unfolding_all decide)⟩

/-- C4: in the general case of `intersect_segment_with_ray` (the three
degenerate guards passed) with the line-107 range constraints satisfied —
i.e. for an actual segment/ray intersection — the function fails with the
`AmbiguousIntersection` error exactly when the computed intersection point
lies within `1e-6` of one of the two segment endpoints.  In particular,
for the segment `[(0,1), (0,-1)]` and the ray from `(-1,-1)` in direction
`(1,0)`, it raises (the ray hits the endpoint `(0,-1)` exactly): this holds
for every float model that is exact on the square roots of `0`, `1`, `4`
and whose `atan2` does not make the ray and segment directions
(perpendicular in exact arithmetic) pass the parallel guard. -/
theorem claim_C4_segment_ray_endpoint_hit :
    (∀ (M : FloatModel) (sp ep orig dv : Pt),
      ¬ collinear_measure sp ep orig < eps6 →
      ¬ |pos_angle M (seg_r M dv) - pos_angle M (seg_s sp ep)| < eps6 →
      ¬ cross2 (seg_r M dv) (seg_s sp ep) = 0 →
      0 ≤ seg_t1 M sp ep orig dv → seg_t1 M sp ep orig dv ≤ 1 →
      0 ≤ seg_t2 M sp ep orig dv →
      (intersect_segment_with_ray M sp ep orig dv = .error .ambiguous ↔
        seg_hits_vertex M sp ep orig dv)) ∧
    (∀ M : FloatModel, M.sqrtq 0 = 0 → M.sqrtq 1 = 1 → M.sqrtq 4 = 2 →
      ¬ |pos_angle M (seg_r M (1, 0)) - pos_angle M (seg_s (0, 1) (0, -1))| < eps6 →
      intersect_segment_with_ray M (0, 1) (0, -1) (-1, -1) (1, 0) = .error .ambiguous) := by
  constructor
  · intro M sp ep orig dv h1 h2 h3 h4a h4b h4c
    unfold intersect_segment_with_ray
    rw [if_neg h1, if_neg h2, if_neg h3, if_pos ⟨h4a, h4b, h4c⟩]
    by_cases h5 : seg_hits_vertex M sp ep orig dv
    · rw [if_pos h5]
      simp [h5]
    · rw [if_neg h5]
      constructor
      · intro hcon
        exact Except.noConfusion hcon
      · intro hcon
        exact absurd hcon h5
  · intro M hs0 hs1 hs4 hpar
    have hr : seg_r M (1, 0) = (1, 0) := by
      unfold seg_r norm_model
      norm_num [hs1]
    have hcross : cross2 (seg_r M (1, 0)) (seg_s (0, 1) (0, -1)) = -2 := by
      rw [hr]
      unfold cross2 seg_s vsub
      norm_num
    have ht1 : seg_t1 M (0, 1) (0, -1) (-1, -1) (1, 0) = 1 := by
      unfold seg_t1
      rw [hr]
      unfold cross2 seg_s vsub
      norm_num
    have ht2 : seg_t2 M (0, 1) (0, -1) (-1, -1) (1, 0) = 1 := by
      unfold seg_t2
      rw [hr]
      unfold cross2 seg_s vsub
      norm_num
    have hhit : seg_hit M (0, 1) (0, -1) (-1, -1) (1, 0) = (0, -1) := by
      unfold seg_hit
      rw [ht1]
      unfold vadd smul seg_s vsub
      norm_num
    have hvert : seg_hits_vertex M (0, 1) (0, -1) (-1, -1) (1, 0) := by
      unfold seg_hits_vertex
      rw [hhit]
      right
      unfold vsub norm_model
      norm_num [hs0, eps6]
    unfold intersect_segment_with_ray
    rw [if_neg (by unfold collinear_measure; norm_num [eps6]), if_neg hpar,
      if_neg (by rw [hcross]; norm_num),
      if_pos ⟨by rw [ht1]; norm_num, by rw [ht1], by rw [ht2]; norm_num⟩, if_pos hvert]

/-- Witness: the concrete endpoint-hit instance under the model `M0`
(whose square-root table is exact on 0, 1 and 4, and whose `atan2` stand-in
separates the two axis directions involved). -/
theorem claim_C4_segment_ray_endpoint_hit_witness :
    intersect_segment_with_ray M0 (0, 1) (0, -1) (-1, -1) (1, 0) = .error .ambiguous :=
  claim_C4_segment_ray_endpoint_hit.2 M0 (by with_unfolding_all decide)
    (by with_unfolding_all decide) (by with_unfolding_all decide)
    (by with_unfolding_all decide)

/-- C6: `intersect_arc_with_ray` returns 0 on a negative discriminant,
fails with `TangentIntersection` on an exactly-zero discriminant, and
otherwise returns the count (at most 2) of the two quadratic-root
candidates that survive discarding negative ray parameters and the
perpendicular-projection containment test against the arc's chord. -/
theorem claim_C6_arc_ray_discriminant :
    (∀ (M : FloatModel) (c : Pt) (radius sa ea : ℚ) (orig dv : Pt),
      arc_d M c radius orig dv < 0 →
      intersect_arc_with_ray M c radius sa ea orig dv = .ok 0) ∧
    (∀ (M : FloatModel) (c : Pt) (radius sa ea : ℚ) (orig dv : Pt),
      arc_d M c radius orig dv = 0 →
      intersect_arc_with_ray M c radius sa ea orig dv = .error .tangent) ∧
    (∀ (M : FloatModel) (c : Pt) (radius sa ea : ℚ) (orig dv : Pt),
      0 < arc_d M c radius orig dv →
      ∃ n : ℕ, intersect_arc_with_ray M c radius sa ea orig dv = .ok n ∧ n ≤ 2 ∧
        n = (if arc_counts M c radius sa ea orig dv (arc_t1 M c radius orig dv) then 1 else 0)
          + (if arc_counts M c radius sa ea orig dv (arc_t2 M c radius orig dv)
              then 1 else 0)) := by
  refine ⟨?_, ?_, ?_⟩
  · intro M c radius sa ea orig dv h
    unfold intersect_arc_with_ray
    rw [if_pos h]
  · intro M c radius sa ea orig dv h
    unfold intersect_arc_with_ray
    rw [if_neg (by rw [h]; exact lt_irrefl 0), if_pos h]
  · intro M c radius sa ea orig dv h
    unfold intersect_arc_with_ray
    rw [if_neg (by intro hcon; linarith), if_neg (by intro hcon; linarith)]
    refine ⟨_, rfl, ?_, rfl⟩
    split_ifs <;> norm_num

/-- Witness: under `M0`, a ray far from a unit circle (negative
discriminant, returns 0); a ray from a point on the circle perpendicular
to the radius (zero discriminant, raises); and a ray from the circle's
center (positive discriminant, two real roots). -/
theorem claim_C6_arc_ray_discriminant_witness :
    intersect_arc_with_ray M0 (0, 0) 1 0 0 (5, 0) (0, 1) = .ok 0 ∧
    intersect_arc_with_ray M0 (0, 0) 1 0 0 (0, 1) (-1, 0) = .error .tangent ∧
    (∃ n : ℕ, intersect_arc_with_ray M0 (0, 0) 1 0 0 (0, 0) (1, 0) = .ok n ∧ n ≤ 2 ∧
      n = (if arc_counts M0 (0, 0) 1 0 0 (0, 0) (1, 0) (arc_t1 M0 (0, 0) 1 (0, 0) (1, 0))
            then 1 else 0)
        + (if arc_counts M0 (0, 0) 1 0 0 (0, 0) (1, 0) (arc_t2 M0 (0, 0) 1 (0, 0) (1, 0))
            then 1 else 0)) :=
  ⟨claim_C6_arc_ray_discriminant.1 M0 (0, 0) 1 0 0 (5, 0) (0, 1)
      (by with_unfolding_all decide),
   claim_C6_arc_ray_discriminant.2.1 M0 (0, 0) 1 0 0 (0, 1) (-1, 0)
      (by with_unfolding_all decide),
   claim_C6_arc_ray_discriminant.2.2 M0 (0, 0) 1 0 0 (0, 0) (1, 0)
      (by with_unfolding_all decide)⟩

/-- C7: for a trial of `point_in_contour` in which no entity raises an
intersection error, the function answers immediately, and answers `true`
iff the total intersection count over all entities of the contour is
positive and odd; a trial in which some entity raises
`AmbiguousIntersection` or `TangentIntersection` contributes no answer and
the next random direction is drawn. -/
theorem claim_C7_point_in_contour_parity :
    (∀ (M : FloatModel) (pt : Pt) (contour : List Entity) (d : Pt) (ds : List Pt) (n : ℕ),
      trial_hits M pt d contour = .ok n →
      (point_in_contour M pt contour (d :: ds) = some true ↔ (0 < n ∧ n % 2 = 1))) ∧
    (∀ (M : FloatModel) (pt : Pt) (contour : List Entity) (d : Pt) (ds : List Pt)
      (e : IntersectErr),
      trial_hits M pt d contour = .error e →
      point_in_contour M pt contour (d :: ds) = point_in_contour M pt contour ds) := by
  constructor
  · intro M pt contour d ds n h
    rw [point_in_contour_cons_ok h]
    constructor
    · intro hsome
      rcases Option.some.inj hsome |> Bool.and_eq_true_iff.mp with ⟨h1, h2⟩
      exact ⟨of_decide_eq_true h1, of_decide_eq_true h2⟩
    · intro hn
      rw [decide_eq_true hn.1, decide_eq_true hn.2]
      rfl
  · intro M pt contour d ds e h
    exact point_in_contour_cons_error h

/-- The four unit-square edges, in cyclic order. -/
def unit_square : List Entity :=
  [.line (0, 0) (1, 0), .line (1, 0) (1, 1), .line (1, 1) (0, 1), .line (0, 1) (0, 0)]

/-- Witness: under `M0`, the ray from the unit square's center in direction
`(1, 0)` makes an error-free trial with exactly one crossing, so the point
is reported inside; and the trial for the segment `[(0,1), (0,-1)]` from
`(-1,-1)` raises, so that direction is discarded in favor of the next. -/
theorem claim_C7_point_in_contour_parity_witness :
    point_in_contour M0 (1 / 2, 1 / 2) unit_square [(1, 0)] = some true ∧
    point_in_contour M0 (-1, -1) [.line (0, 1) (0, -1)] [(1, 0)] =
      point_in_contour M0 (-1, -1) [.line (0, 1) (0, -1)] [] :=
  ⟨(claim_C7_point_in_contour_parity.1 M0 (1 / 2, 1 / 2) unit_square (1, 0) [] 1
      (by with_unfolding_all decide)).mpr (by norm_num),
   claim_C7_point_in_contour_parity.2 M0 (-1, -1) [.line (0, 1) (0, -1)] (1, 0) []
      .ambiguous (by with_unfolding_all decide)⟩

/-- C3 (code defect): the retry loop of `point_in_contour` has no attempt
cap and no failure outcome.  Whenever the random stream keeps producing a
direction whose trial raises (here: the ray from `(-1,-1)` through the
endpoint `(0,-1)` of the single segment), the loop never produces an
answer, for every number of iterations — the Python `while True:` loop
runs forever instead of failing with a `GeometryError` after a bounded
number of attempts. -/
theorem claim_C3_point_in_contour_unbounded_retry :
    ∀ n : ℕ, point_in_contour M0 (-1, -1) [.line (0, 1) (0, -1)]
      (List.replicate n (1, 0)) = none := by
  intro n
  induction n with
  | zero => rfl
  | succ k ih =>
    have herr : trial_hits M0 (-1, -1) (1, 0) [.line (0, 1) (0, -1)] = .error .ambiguous := by
      with_unfolding_all decide
    rw [List.replicate_succ, point_in_contour_cons_error herr]
    exact ih

/-!
## `contour_sorting.py`

The stitcher is embedded monadically over `Except`: Python exceptions
(`RuntimeError` raise sites, `TypeError` from arithmetic on `None`,
`IndexError` on empty-list subscripts) become error values.  Entities are
embedded by value; `ezdxf` stores arc angles in degrees, converted with
`math.pi / 180` exactly where the source does.
-/

/-- The exception outcomes reachable in the embedded `contour_sorting`
code: the `RuntimeError` raise sites of `start_x`/`start_y` (line 81/89),
`push_front` (line 124), `push_back` (line 171) and `flip_entity`
(line 250), a `TypeError` from arithmetic on a `None` endpoint (`end_x`
falls through for non-LINE/ARC entities and returns `None`), and an
`IndexError` from subscripting an empty segment list. -/
inductive PyErr where
  | noStartFinish
  | closedPrepend
  | closedAppend
  | flipType
  | typeErr
  | indexErr
deriving DecidableEq

/-- `SubContour` (lines 34–223): the ordered entity list plus the cached
bounding extents, initialized to `±math.inf` (modeled by `WithTop`/
`WithBot`). -/
structure SubContour where
  segments : List Entity
  x_min : WithTop ℚ
  x_max : WithBot ℚ
  y_min : WithTop ℚ
  y_max : WithBot ℚ
deriving DecidableEq

/-- A freshly constructed `SubContour()`. -/
def scEmpty : SubContour := ⟨[], ⊤, ⊥, ⊤, ⊥⟩

/-- `SubContour.start_x` (lines 74–81): defined for LINE and ARC heads,
`RuntimeError` otherwise. -/
def sc_start_x (M : FloatModel) (sc : SubContour) : Except PyErr ℚ :=
  match sc.segments.head? with
  | none => .error .indexErr
  | some (.line p _) => .ok p.1
  | some (.arc c radius sa _) => .ok (radius * M.cosq (sa * M.pi / 180) + c.1)
  | some _ => .error .noStartFinish

/-- `SubContour.start_y` (lines 82–89). -/
def sc_start_y (M : FloatModel) (sc : SubContour) : Except PyErr ℚ :=
  match sc.segments.head? with
  | none => .error .indexErr
  | some (.line p _) => .ok p.2
  | some (.arc c radius sa _) => .ok (radius * M.sinq (sa * M.pi / 180) + c.2)
  | some _ => .error .noStartFinish

/-- `SubContour.end_x` (lines 91–97): no raise branch — the Python
property falls through and returns `None` for non-LINE/ARC tails. -/
def sc_end_x (M : FloatModel) (sc : SubContour) : Except PyErr (Option ℚ) :=
  match sc.segments.getLast? with
  | none => .error .indexErr
  | some (.line _ q) => .ok (some q.1)
  | some (.arc c radius _ ea) => .ok (some (radius * M.cosq (ea * M.pi / 180) + c.1))
  | some _ => .ok none

/-- `SubContour.end_y` (lines 99–105). -/
def sc_end_y (M : FloatModel) (sc : SubContour) : Except PyErr (Option ℚ) :=
  match sc.segments.getLast? with
  | none => .error .indexErr
  | some (.line _ q) => .ok (some q.2)
  | some (.arc c radius _ ea) => .ok (some (radius * M.sinq (ea * M.pi / 180) + c.2))
  | some _ => .ok none

/-- Arithmetic on a Python `None` operand raises `TypeError`. -/
def reqSome : Option ℚ → Except PyErr ℚ
  | none => .error .typeErr
  | some v => .ok v

/-- The line 219 test `segments[0].dxftype() == "CIRCLE"`. -/
def head_is_circle : Option Entity → Bool
  | some (.circle _ _) => true
  | _ => false

/-- `SubContour.is_closed` (lines 215–223): `False` when empty, `True` for
a leading CIRCLE, otherwise endpoint coincidence within `EPS = 1e-5` (with
Python's left-to-right evaluation and `and` short-circuit). -/
def sc_is_closed (M : FloatModel) (sc : SubContour) : Except PyErr Bool :=
  if sc.segments.length = 0 then .ok false
  else if head_is_circle sc.segments.head? then .ok true
  else do
    let sx ← sc_start_x M sc
    let ex ← reqSome (← sc_end_x M sc)
    if |sx - ex| < eps5 then do
      let sy ← sc_start_y M sc
      let ey ← reqSome (← sc_end_y M sc)
      pure (decide (|sy - ey| < eps5))
    else pure false

/-- `SubContour.front` (lines 107–109). -/
def sc_front (M : FloatModel) (sc : SubContour) : Except PyErr (ℚ × ℚ) := do
  let sx ← sc_start_x M sc
  let sy ← sc_start_y M sc
  pure (sx, sy)

/-- `SubContour.back` (lines 111–113); the coordinates may be `None`. -/
def sc_back (M : FloatModel) (sc : SubContour) : Except PyErr (Option ℚ × Option ℚ) := do
  let ex ← sc_end_x M sc
  let ey ← sc_end_y M sc
  pure (ex, ey)

/-- `SubContour.match_front` (lines 115–116). -/
def sc_match_front (M : FloatModel) (sc : SubContour) (ox oy : Option ℚ) :
    Except PyErr Bool := do
  let sx ← sc_start_x M sc
  let x ← reqSome ox
  if |sx - x| < eps5 then do
    let sy ← sc_start_y M sc
    let y ← reqSome oy
    pure (decide (|sy - y| < eps5))
  else pure false

/-- `SubContour.match_back` (lines 118–119). -/
def sc_match_back (M : FloatModel) (sc : SubContour) (ox oy : Option ℚ) :
    Except PyErr Bool := do
  let ex ← reqSome (← sc_end_x M sc)
  let x ← reqSome ox
  if |ex - x| < eps5 then do
    let ey ← reqSome (← sc_end_y M sc)
    let y ← reqSome oy
    pure (decide (|ey - y| < eps5))
  else pure false

/-- `SubContour.push_back` (lines 168–213): refuse when closed, append,
then update the cached extents according to the entity kind (entities of
unknown kind match no branch and leave the extents untouched). -/
def sc_push_back (M : FloatModel) (sc0 : SubContour) (entity : Entity) :
    Except PyErr SubContour := do
  let closed ← sc_is_closed M sc0
  if closed then .error .closedAppend
  else
    let sc := { sc0 with segments := sc0.segments ++ [entity] }
    match entity with
    | .circle c radius =>
        let nxmin : WithTop ℚ := (c.1 - radius : ℚ)
        let nxmax : WithBot ℚ := (c.1 + radius : ℚ)
        let nymin : WithTop ℚ := (c.2 - radius : ℚ)
        let nymax : WithBot ℚ := (c.2 + radius : ℚ)
        pure { sc with x_min := nxmin, x_max := nxmax, y_min := nymin, y_max := nymax }
    | .line _ _ => do
        let ex ← reqSome (← sc_end_x M sc)
        let ey ← reqSome (← sc_end_y M sc)
        let nxmin : WithTop ℚ := if (ex : WithTop ℚ) < sc.x_min then (ex : WithTop ℚ) else sc.x_min
        let nxmax : WithBot ℚ := if (ex : WithBot ℚ) > sc.x_max then (ex : WithBot ℚ) else sc.x_max
        let nymin : WithTop ℚ := if (ey : WithTop ℚ) < sc.y_min then (ey : WithTop ℚ) else sc.y_min
        let nymax : WithBot ℚ := if (ey : WithBot ℚ) > sc.y_max then (ey : WithBot ℚ) else sc.y_max
        pure { sc with x_min := nxmin, x_max := nxmax, y_min := nymin, y_max := nymax }
    | .arc c radius sa ea => do
        let start_angle := clamp_angle M (sa * M.pi / 180)
        let end_angle := clamp_angle M (ea * M.pi / 180)
        let ex ← reqSome (← sc_end_x M sc)
        let ey ← reqSome (← sc_end_y M sc)
        let yv1 := radius * M.sinq (90 * M.pi / 180) + c.2
        let yMax1 := if start_angle < 90 ∧ (90 : ℚ) < end_angle then max ey yv1 else ey
        let yMin1 := if start_angle < 90 ∧ (90 : ℚ) < end_angle then min ey yv1 else ey
        let yv2 := radius * M.sinq (270 * M.pi / 180) + c.2
        let yMax2 := if start_angle < 270 ∧ (270 : ℚ) < end_angle then max yMax1 yv2 else yMax1
        let yMin2 := if start_angle < 270 ∧ (270 : ℚ) < end_angle then min yMin1 yv2 else yMin1
        let xv1 := radius * M.cosq (0 * M.pi / 180) + c.1
        let xMax1 := if start_angle < 0 ∧ (0 : ℚ) < end_angle then max ex xv1 else ex
        let xMin1 := if start_angle < 0 ∧ (0 : ℚ) < end_angle then min ex xv1 else ex
        let xv2 := radius * M.cosq (180 * M.pi / 180) + c.1
        let xMax2 := if start_angle < 180 ∧ (180 : ℚ) < end_angle then max xMax1 xv2 else xMax1
        let xMin2 := if start_angle < 180 ∧ (180 : ℚ) < end_angle then min xMin1 xv2 else xMin1
        let nymax : WithBot ℚ := max (yMax2 : WithBot ℚ) sc.y_max
        let nymin : WithTop ℚ := min (yMin2 : WithTop ℚ) sc.y_min
        let nxmax : WithBot ℚ := max (xMax2 : WithBot ℚ) sc.x_max
        let nxmin : WithTop ℚ := min (xMin2 : WithTop ℚ) sc.x_min
        pure { sc with x_min := nxmin, x_max := nxmax, y_min := nymin, y_max := nymax }
    | .other _ => pure sc

/-- `SubContour.push_front` (lines 121–166), symmetric to `push_back`
using the front endpoint. -/
def sc_push_front (M : FloatModel) (sc0 : SubContour) (entity : Entity) :
    Except PyErr SubContour := do
  let closed ← sc_is_closed M sc0
  if closed then .error .closedPrepend
  else
    let sc := { sc0 with segments := entity :: sc0.segments }
    match entity with
    | .circle c radius =>
        let nxmin : WithTop ℚ := (c.1 - radius : ℚ)
        let nxmax : WithBot ℚ := (c.1 + radius : ℚ)
        let nymin : WithTop ℚ := (c.2 - radius : ℚ)
        let nymax : WithBot ℚ := (c.2 + radius : ℚ)
        pure { sc with x_min := nxmin, x_max := nxmax, y_min := nymin, y_max := nymax }
    | .line _ _ => do
        let sx ← sc_start_x M sc
        let sy ← sc_start_y M sc
        let nxmin : WithTop ℚ := if (sx : WithTop ℚ) < sc.x_min then (sx : WithTop ℚ) else sc.x_min
        let nxmax : WithBot ℚ := if (sx : WithBot ℚ) > sc.x_max then (sx : WithBot ℚ) else sc.x_max
        let nymin : WithTop ℚ := if (sy : WithTop ℚ) < sc.y_min then (sy : WithTop ℚ) else sc.y_min
        let nymax : WithBot ℚ := if (sy : WithBot ℚ) > sc.y_max then (sy : WithBot ℚ) else sc.y_max
        pure { sc with x_min := nxmin, x_max := nxmax, y_min := nymin, y_max := nymax }
    | .arc c radius sa ea => do
        let start_angle := clamp_angle M (sa * M.pi / 180)
        let end_angle := clamp_angle M (ea * M.pi / 180)
        let sx ← sc_start_x M sc
        let sy ← sc_start_y M sc
        let yv1 := radius * M.sinq (90 * M.pi / 180) + c.2
        let yMax1 := if start_angle < 90 ∧ (90 : ℚ) < end_angle then max sy yv1 else sy
        let yMin1 := if start_angle < 90 ∧ (90 : ℚ) < end_angle then min sy yv1 else sy
        let yv2 := radius * M.sinq (270 * M.pi / 180) + c.2
        let yMax2 := if start_angle < 270 ∧ (270 : ℚ) < end_angle then max yMax1 yv2 else yMax1
        let yMin2 := if start_angle < 270 ∧ (270 : ℚ) < end_angle then min yMin1 yv2 else yMin1
        let xv1 := radius * M.cosq (0 * M.pi / 180) + c.1
        let xMax1 := if start_angle < 0 ∧ (0 : ℚ) < end_angle then max sx xv1 else sx
        let xMin1 := if start_angle < 0 ∧ (0 : ℚ) < end_angle then min sx xv1 else sx
        let xv2 := radius * M.cosq (180 * M.pi / 180) + c.1
        let xMax2 := if start_angle < 180 ∧ (180 : ℚ) < end_angle then max xMax1 xv2 else xMax1
        let xMin2 := if start_angle < 180 ∧ (180 : ℚ) < end_angle then min xMin1 xv2 else xMin1
        let nymax : WithBot ℚ := max (yMax2 : WithBot ℚ) sc.y_max
        let nymin : WithTop ℚ := min (yMin2 : WithTop ℚ) sc.y_min
        let nxmax : WithBot ℚ := max (xMax2 : WithBot ℚ) sc.x_max
        let nxmin : WithTop ℚ := min (xMin2 : WithTop ℚ) sc.x_min
        pure { sc with x_min := nxmin, x_max := nxmax, y_min := nymin, y_max := nymax }
    | .other _ => pure sc

/-- `flip_entity` (lines 237–250).  The Python function swaps the fields
of the passed entity in place and returns `None`; the embedding returns
the new state of that entity (see `flip_entity_store` and C9 for the
in-place aspect). -/
def flip_entity : Entity → Except PyErr Entity
  | .line p q => .ok (.line q p)
  | .arc c radius sa ea => .ok (.arc c radius ea sa)
  | _ => .error .flipType

/-- Python object identity, modeled as a store of entities addressed by
index.  `flip_entity` mutates the stored entity: every reference holding
this index observes the swapped fields afterwards. -/
def flip_entity_store (store : List Entity) (i : ℕ) : Except PyErr (List Entity) :=
  match store.get? i with
  | none => .error .indexErr
  | some e => do
      let e2 ← flip_entity e
      .ok (store.set i e2)

/-- `SubContour.merge_back` (lines 54–61). -/
def sc_merge_back (M : FloatModel) (self other : SubContour) (reverse_order : Bool) :
    Except PyErr SubContour :=
  if !reverse_order then
    other.segments.foldlM (fun acc e => sc_push_back M acc e) self
  else
    other.segments.reverse.foldlM (fun acc e => do
      let e2 ← flip_entity e
      sc_push_back M acc e2) self

/-- `SubContour.merge_front` (lines 63–72). -/
def sc_merge_front (M : FloatModel) (self other : SubContour) (reverse_order : Bool) :
    Except PyErr SubContour :=
  if !reverse_order then
    other.segments.reverse.foldlM (fun acc e => sc_push_front M acc e) self
  else
    other.segments.foldlM (fun acc e => do
      let e2 ← flip_entity e
      sc_push_front M acc e2) self

/-- Outcome of one pass of the `for index, sub_contour in
enumerate(sub_contours)` loop of `create_contours` (lines 278–322) for a
new single-entity sub-contour: no sub-contour matched; a merge closed the
contour (which is removed from the open list and exported); or a merge
elongated the sub-contour in place, possibly followed by one chain-stitch
with a later sub-contour. -/
inductive ScanOut where
  | noMatch
  | closedC (rest : List SubContour) (c : SubContour)
  | elong (pre : List SubContour) (e : SubContour) (post : List SubContour)

/-- The four elongation cases of lines 281–292, tried in source order with
Python's evaluation order (`new.back` is evaluated for case 1, `new.front`
for cases 2–3). -/
def try_elongate (M : FloatModel) (sc new : SubContour) :
    Except PyErr (Option SubContour) := do
  let b ← sc_back M new
  if ← sc_match_front M sc b.1 b.2 then some <$> sc_merge_front M sc new false
  else
    let f ← sc_front M new
    if ← sc_match_front M sc (some f.1) (some f.2) then some <$> sc_merge_front M sc new true
    else if ← sc_match_back M sc (some f.1) (some f.2) then some <$> sc_merge_back M sc new false
    else if ← sc_match_back M sc b.1 b.2 then some <$> sc_merge_back M sc new true
    else pure none

/-- The four chain-stitch cases of lines 304–322, tried in source order. -/
def try_stitch (M : FloatModel) (elong sub : SubContour) :
    Except PyErr (Option SubContour) := do
  let f ← sc_front M sub
  if ← sc_match_front M elong (some f.1) (some f.2) then some <$> sc_merge_front M elong sub true
  else
    let b ← sc_back M sub
    if ← sc_match_front M elong b.1 b.2 then some <$> sc_merge_front M elong sub false
    else if ← sc_match_back M elong (some f.1) (some f.2) then some <$> sc_merge_back M elong sub false
    else if ← sc_match_back M elong b.1 b.2 then some <$> sc_merge_back M elong sub true
    else pure none

/-- The chain-stitch scan over the sub-contours after the elongation
index: the first successful stitch deletes that sub-contour and breaks. -/
def chain_scan (M : FloatModel) : SubContour → List SubContour →
    Except PyErr (SubContour × List SubContour)
  | e, [] => pure (e, [])
  | e, sub :: rest => do
    match ← try_stitch M e sub with
    | some e2 => pure (e2, rest)
    | none => do
        let r ← chain_scan M e rest
        pure (r.1, sub :: r.2)

/-- One pass of the scan loop of `create_contours` for a new single-entity
sub-contour over the current open sub-contours. -/
def scan_subs (M : FloatModel) (new : SubContour) : List SubContour →
    Except PyErr ScanOut
  | [] => pure .noMatch
  | sc :: rest => do
    match ← try_elongate M sc new with
    | some merged => do
        let closed ← sc_is_closed M merged
        if closed then pure (.closedC rest merged)
        else do
          let r ← chain_scan M merged rest
          pure (.elong [] r.1 r.2)
    | none => do
        match ← scan_subs M new rest with
        | .noMatch => pure .noMatch
        | .closedC rest2 c => pure (.closedC (sc :: rest2) c)
        | .elong pre e post => pure (.elong (sc :: pre) e post)

/-- The entity loop of `create_contours` (lines 253–332), carrying the
completed-contours and open-sub-contours lists.  A CIRCLE is exported at
once as its own closed contour; an entity of unknown kind is logged (line
271) but then falls through and is packed into a sub-contour exactly like
a LINE or ARC. -/
def create_contours_go (M : FloatModel) : List Entity → List SubContour →
    List SubContour → Except PyErr (List SubContour)
  | [], contours, _subs => pure contours
  | e :: rest, contours, subs =>
    match e with
    | .circle _ _ => do
        let nsc ← sc_push_back M scEmpty e
        create_contours_go M rest (contours ++ [nsc]) subs
    | _ => do
        let nsc ← sc_push_back M scEmpty e
        match ← scan_subs M nsc subs with
        | .noMatch => create_contours_go M rest contours (subs ++ [nsc])
        | .closedC subs2 c => create_contours_go M rest (contours ++ [c]) subs2
        | .elong pre e2 post => create_contours_go M rest contours (pre ++ e2 :: post)

/-- `create_contours` (lines 253–332). -/
def create_contours (M : FloatModel) (entities : List Entity) :
    Except PyErr (List SubContour) :=
  create_contours_go M entities [] []

/-- C2 (code defect): an entity of unrecognized kind is logged but NOT
skipped.  First conjunct: the new entity (whatever its kind) is packed into
a single-entity `SubContour` (line 274–275).  Second conjunct: on the input
`[unknown, Line((0,0),(1,0))]` the pipeline then aborts — the scan calls
`match_front` on the unknown-headed sub-contour, whose `start_x` raises
`RuntimeError("Contour has no defined start or finish.")` — instead of
continuing without error. -/
theorem claim_C2_unknown_entity_not_skipped (M : FloatModel) :
    sc_push_back M scEmpty (.other 0) = .ok ⟨[.other 0], ⊤, ⊥, ⊤, ⊥⟩ ∧
    create_contours M [.other 0, .line (0, 0) (1, 0)] = .error .noStartFinish := by
  constructor
  · with_unfolding_all rfl
  · with_unfolding_all rfl

/-- C9 (code defect): `flip_entity` flips in place.  In the object-store
model, flipping the stored line rewrites the entity under its original
index — any holder of a reference to it (e.g. an already-closed Contour)
now reads the swapped endpoints, which differ from the original value. -/
theorem claim_C9_flip_entity_mutates :
    flip_entity_store [.line (0, 0) (1, 1)] 0 = .ok [.line (1, 1) (0, 0)] ∧
    Entity.line (1, 1) (0, 0) ≠ Entity.line (0, 0) (1, 1) ∧
    flip_entity (.line (0, 0) (1, 1)) = .ok (.line (1, 1) (0, 0)) := by
  refine ⟨by with_unfolding_all rfl, by with_unfolding_all decide, by with_unfolding_all rfl⟩

/-- An input-level flip of a LINE entity (the polygon edge handed over in
reversed orientation). -/
def flip_line : Entity → Entity
  | .line p q => .line q p
  | e => e

/-- All ways of optionally flipping each entity of a list. -/
def with_flips : List Entity → List (List Entity)
  | [] => [[]]
  | e :: rest => (with_flips rest).flatMap (fun l => [e :: l, flip_line e :: l])

/-- Every scrambled ordering of the four unit-square edges with every
per-entity flip assignment: `4! * 2^4 = 384` inputs. -/
def square_inputs : List (List Entity) :=
  unit_square.permutations.flatMap with_flips

/-- A LINE entity, forgetting its orientation (endpoints in lexicographic
order); stitching may flip entities, so output entity sets are compared up
to orientation. -/
def undirected : Entity → Option (Pt × Pt)
  | .line p q => if p.1 < q.1 ∨ (p.1 = q.1 ∧ p.2 ≤ q.2) then some (p, q) else some (q, p)
  | _ => none

/-- The C1 success condition for one input: `create_contours` succeeds with
exactly one contour, which is closed, has four segments, and consists of
the four unit-square edges up to orientation. -/
def one_closed_square (M : FloatModel) (ents : List Entity) : Bool :=
  match create_contours M ents with
  | .ok [c] =>
      decide (sc_is_closed M c = .ok true) && decide (c.segments.length = 4) &&
        decide ((c.segments.map undirected).Perm (unit_square.map undirected))
  | _ => false

set_option maxHeartbeats 40000000 in
set_option maxRecDepth 100000 in
/-- The square instance of C1: for every one of the 384 scrambled orderings
with flips of the four unit-square edges, and for every float model (no
model function is ever consulted on LINE-only input), `create_contours`
yields exactly one closed Contour consisting of all four entities. -/
theorem square_all_orders (M : FloatModel) :
    square_inputs.all (one_closed_square M) = true := by
  with_unfolding_all rfl

/-!
## C1, general part: order-tolerance of `create_contours` on well-formed
simple closed polygons given as Line entities

A polygon with `n` vertices is a map `v : ZMod n → Pt`; its directed edge
`x` runs from `v x` to `v (x+1)`.  Well-formedness for stitching means the
vertices are pairwise separated beyond the `EPS = 1e-5` endpoint-matching
tolerance, so coordinate matching coincides with vertex identity.  The
development shows that presenting the `n` edges in ANY order, each
optionally flipped, yields exactly one closed contour holding all edges.
-/

/-- Two points match within the `EPS = 1e-5` tolerance used by
`match_front`/`match_back`/`is_closed` (both coordinates). -/
def nearPt (a b : Pt) : Prop := |a.1 - b.1| < eps5 ∧ |a.2 - b.2| < eps5

instance (a b : Pt) : Decidable (nearPt a b) := by unfold nearPt; infer_instance

/-- The last element of `a :: l` (total form). -/
def vlast {α : Type} : α → List α → α
  | a, [] => a
  | _, b :: r => vlast b r

theorem vlast_append {α : Type} (c : α) : ∀ (l : List α) (a : α), vlast a (l ++ [c]) = c := by
  intro l
  induction l with
  | nil => intro a; rfl
  | cons b r ih => intro a; exact ih b

theorem vlast_cons₂ {α : Type} (a b : α) (r : List α) : vlast a (b :: r) = vlast b r := rfl

theorem vlast_mem {α : Type} : ∀ (l : List α) (a : α), vlast a l ∈ a :: l := by
  intro l
  induction l with
  | nil => intro a; exact List.mem_cons_self _ _
  | cons b r ih =>
    intro a
    rcases List.mem_cons.mp (ih b) with h | h
    · rw [vlast_cons₂, h]
      exact List.mem_cons.mpr (Or.inr (List.mem_cons_self _ _))
    · exact List.mem_cons.mpr (Or.inr (List.mem_cons.mpr (Or.inr h)))

section Polygon

variable (n : ℕ) (v : ZMod n → Pt)

/-- The polygon's directed edge `x`, optionally handed over flipped. -/
def edge_of (x : ZMod n) (f : Bool) : Entity :=
  if f then .line (v (x + 1)) (v x) else .line (v x) (v (x + 1))

/-- The LINE entities of a vertex path `[a₀, a₁, …, a_m]`:
`[Line(v a₀, v a₁), …, Line(v a_(m-1), v a_m)]`. -/
def path_segs : List (ZMod n) → List Entity
  | a :: b :: rest => .line (v a) (v b) :: path_segs (b :: rest)
  | _ => []

/-- The ascending vertex run `[i, i+1, …, i+ℓ]` (as residues). -/
def run_up (i : ZMod n) (ℓ : ℕ) : List (ZMod n) :=
  (List.range (ℓ + 1)).map fun (k : ℕ) => i + ((k : ℕ) : ZMod n)

/-- The vertex list of a chain covering the `ℓ` edges `i, …, i+ℓ-1`,
traversed ascending (`d = true`) or descending. -/
def chain_verts (i : ZMod n) (ℓ : ℕ) (d : Bool) : List (ZMod n) :=
  if d then run_up n i ℓ else (run_up n i ℓ).reverse

/-- The entity list of a chain. -/
def chain_segs (i : ZMod n) (ℓ : ℕ) (d : Bool) : List Entity :=
  path_segs n v (chain_verts n i ℓ d)

/-- The set of edge indices covered by a chain. -/
def arcSet (i : ZMod n) (ℓ : ℕ) : Finset (ZMod n) :=
  (Finset.range ℓ).image fun (k : ℕ) => i + ((k : ℕ) : ZMod n)

end Polygon

theorem run_up_zero {n : ℕ} (i : ZMod n) : run_up n i 0 = [i] := by
  simp [run_up, List.range_succ]

theorem run_up_succ {n : ℕ} (i : ZMod n) (ℓ : ℕ) :
    run_up n i (ℓ + 1) = run_up n i ℓ ++ [i + ((ℓ + 1 : ℕ) : ZMod n)] := by
  unfold run_up
  rw [List.range_succ, List.map_append]
  rfl

theorem run_up_cons {n : ℕ} (i : ZMod n) (ℓ : ℕ) :
    run_up n i (ℓ + 1) = i :: run_up n (i + 1) ℓ := by
  unfold run_up
  rw [List.range_succ_eq_map, List.map_cons, List.map_map]
  congr 1
  · simp
  · refine List.map_congr_left ?_
    intro k _
    simp only [Function.comp_apply]
    push_cast
    ring

theorem run_up_length {n : ℕ} (i : ZMod n) (ℓ : ℕ) : (run_up n i ℓ).length = ℓ + 1 := by
  simp [run_up]

theorem run_up_ne_nil {n : ℕ} (i : ZMod n) (ℓ : ℕ) : run_up n i ℓ ≠ [] := by
  intro h
  have := run_up_length i ℓ
  rw [h] at this
  simp at this

theorem run_up_head {n : ℕ} (i : ZMod n) (ℓ : ℕ) :
    ∃ r, run_up n i ℓ = i :: r := by
  cases ℓ with
  | zero => exact ⟨[], run_up_zero i⟩
  | succ m => exact ⟨run_up n (i + 1) m, run_up_cons i m⟩

theorem run_up_vlast {n : ℕ} : ∀ (ℓ : ℕ) (i : ZMod n) (a : ZMod n) (r : List (ZMod n)),
    run_up n i ℓ = a :: r → vlast a r = i + (ℓ : ℕ) := by
  intro ℓ
  induction ℓ with
  | zero =>
    intro i a r h
    rw [run_up_zero] at h
    rcases List.cons.inj h with ⟨rfl, rfl⟩
    simp [vlast]
  | succ m ih =>
    intro i a r h
    rw [run_up_succ] at h
    rcases run_up_head i m with ⟨r0, hr0⟩
    rw [hr0] at h
    rcases List.cons.inj h with ⟨rfl, hr⟩
    rw [← hr, List.append_eq, vlast_append]

theorem path_segs_cons₂ {n : ℕ} (v : ZMod n → Pt) (a b : ZMod n) (rest : List (ZMod n)) :
    path_segs n v (a :: b :: rest) = .line (v a) (v b) :: path_segs n v (b :: rest) := rfl

theorem path_segs_snoc {n : ℕ} (v : ZMod n → Pt) :
    ∀ (r : List (ZMod n)) (a c : ZMod n),
    path_segs n v ((a :: r) ++ [c]) =
      path_segs n v (a :: r) ++ [.line (v (vlast a r)) (v c)] := by
  intro r
  induction r with
  | nil => intro a c; rfl
  | cons b r2 ih =>
    intro a c
    rw [List.cons_append, List.cons_append, path_segs_cons₂, vlast_cons₂]
    rw [← List.cons_append, ih b c, path_segs_cons₂]
    rfl

theorem path_segs_link {n : ℕ} (v : ZMod n → Pt) :
    ∀ (t2 : List (ZMod n)) (a : ZMod n) (r1 : List (ZMod n)),
    path_segs n v (a :: r1 ++ t2) =
      path_segs n v (a :: r1) ++ path_segs n v (vlast a r1 :: t2) := by
  intro t2
  induction t2 with
  | nil => intro a r1; simp [path_segs]
  | cons c t2x ih =>
    intro a r1
    have h1 : a :: r1 ++ c :: t2x = (a :: (r1 ++ [c])) ++ t2x := by simp
    rw [h1, ih a (r1 ++ [c])]
    have h2 : a :: (r1 ++ [c]) = (a :: r1) ++ [c] := by simp
    rw [h2, path_segs_snoc, vlast_append c r1 a]
    rw [path_segs_cons₂]
    simp

theorem reverse_cons_struct {α : Type} (l : List α) (a : α) :
    ∃ h t, (a :: l).reverse = h :: t ∧ vlast h t = a := by
  rcases hl : l.reverse with _ | ⟨x, xs⟩
  · exact ⟨a, [], by simp [hl], rfl⟩
  · refine ⟨x, xs ++ [a], by simp [hl], vlast_append a xs x⟩

theorem path_segs_reverse {n : ℕ} (v : ZMod n → Pt) :
    ∀ (r : List (ZMod n)) (a : ZMod n),
    path_segs n v ((a :: r).reverse) = ((path_segs n v (a :: r)).reverse).map flip_line := by
  intro r
  induction r with
  | nil => intro a; rfl
  | cons b r2 ih =>
    intro a
    have h1 : (a :: b :: r2).reverse = (b :: r2).reverse ++ [a] := by simp
    rcases reverse_cons_struct r2 b with ⟨h, t, hht, hvl⟩
    rw [h1, hht, path_segs_snoc, ← hht, ih b, hvl, path_segs_cons₂]
    simp [flip_line]

theorem path_segs_lines {n : ℕ} (v : ZMod n → Pt) :
    ∀ (vs : List (ZMod n)) (e : Entity), e ∈ path_segs n v vs → ∃ p q, e = .line p q := by
  intro vs
  induction vs with
  | nil => intro e he; cases he
  | cons a r ih =>
    intro e he
    match r with
    | [] => cases he
    | b :: r2 =>
      rw [path_segs_cons₂] at he
      rcases List.mem_cons.mp he with rfl | he2
      · exact ⟨_, _, rfl⟩
      · exact ih e he2

theorem getLast?_cons_cons {α : Type} (a b : α) (l : List α) :
    (a :: b :: l).getLast? = (b :: l).getLast? := rfl

theorem path_segs_getLast {n : ℕ} (v : ZMod n → Pt) :
    ∀ (r : List (ZMod n)) (a b : ZMod n),
    ∃ w, (path_segs n v (a :: b :: r)).getLast? = some (.line (v w) (v (vlast b r))) := by
  intro r
  induction r with
  | nil => intro a b; exact ⟨a, rfl⟩
  | cons c r2 ih =>
    intro a b
    rcases ih b c with ⟨w, hw⟩
    refine ⟨w, ?_⟩
    rw [path_segs_cons₂]
    have hne : path_segs n v (b :: c :: r2) ≠ [] := by
      rw [path_segs_cons₂]
      simp
    rcases hx : path_segs n v (b :: c :: r2) with _ | ⟨e, es⟩
    · exact absurd hx hne
    · rw [getLast?_cons_cons, ← hx, hw, vlast_cons₂]

theorem except_bind_ok {ε α β : Type} (a : α) (f : α → Except ε β) :
    (Except.ok a : Except ε α) >>= f = f a := rfl

theorem except_bind_error {ε α β : Type} (e : ε) (f : α → Except ε β) :
    (Except.error e : Except ε α) >>= f = .error e := rfl

theorem sc_start_x_of_head {M : FloatModel} {sc : SubContour} {p q : Pt}
    (h : sc.segments.head? = some (.line p q)) : sc_start_x M sc = .ok p.1 := by
  unfold sc_start_x
  rw [h]

theorem sc_start_y_of_head {M : FloatModel} {sc : SubContour} {p q : Pt}
    (h : sc.segments.head? = some (.line p q)) : sc_start_y M sc = .ok p.2 := by
  unfold sc_start_y
  rw [h]

theorem sc_end_x_of_getLast {M : FloatModel} {sc : SubContour} {p q : Pt}
    (h : sc.segments.getLast? = some (.line p q)) : sc_end_x M sc = .ok (some q.1) := by
  unfold sc_end_x
  rw [h]

theorem sc_end_y_of_getLast {M : FloatModel} {sc : SubContour} {p q : Pt}
    (h : sc.segments.getLast? = some (.line p q)) : sc_end_y M sc = .ok (some q.2) := by
  unfold sc_end_y
  rw [h]

theorem sc_is_closed_of_lines {M : FloatModel} {sc : SubContour} {p q p2 q2 : Pt}
    (hh : sc.segments.head? = some (.line p q))
    (hl : sc.segments.getLast? = some (.line p2 q2)) :
    sc_is_closed M sc = .ok (decide (nearPt p q2)) := by
  have hne : sc.segments.length ≠ 0 := by
    rcases hseg : sc.segments with _ | ⟨e, es⟩
    · rw [hseg] at hh; cases hh
    · simp
  unfold sc_is_closed
  rw [if_neg hne, if_neg (by rw [hh]; simp [head_is_circle])]
  rw [sc_start_x_of_head hh, except_bind_ok, sc_end_x_of_getLast hl, except_bind_ok]
  show (reqSome (some q2.1) >>= _) = _
  rw [show reqSome (some q2.1) = .ok q2.1 from rfl, except_bind_ok]
  by_cases hx : |p.1 - q2.1| < eps5
  · rw [if_pos hx, sc_start_y_of_head hh, except_bind_ok, sc_end_y_of_getLast hl,
      except_bind_ok]
    show (reqSome (some q2.2) >>= _) = _
    rw [show reqSome (some q2.2) = .ok q2.2 from rfl, except_bind_ok]
    by_cases hy : |p.2 - q2.2| < eps5
    · simp [nearPt, hx, hy]
      rfl
    · simp [nearPt, hx, hy]
      rfl
  · rw [if_neg hx]
    simp [nearPt, hx]
    rfl

theorem sc_match_front_of_head {M : FloatModel} {sc : SubContour} {p q : Pt} (z : Pt)
    (hh : sc.segments.head? = some (.line p q)) :
    sc_match_front M sc (some z.1) (some z.2) = .ok (decide (nearPt p z)) := by
  unfold sc_match_front
  rw [sc_start_x_of_head hh, except_bind_ok]
  show (reqSome (some z.1) >>= _) = _
  rw [show reqSome (some z.1) = .ok z.1 from rfl, except_bind_ok]
  by_cases hx : |p.1 - z.1| < eps5
  · rw [if_pos hx, sc_start_y_of_head hh, except_bind_ok]
    show (reqSome (some z.2) >>= _) = _
    rw [show reqSome (some z.2) = .ok z.2 from rfl, except_bind_ok]
    by_cases hy : |p.2 - z.2| < eps5
    · simp [nearPt, hx, hy]
      rfl
    · simp [nearPt, hx, hy]
      rfl
  · rw [if_neg hx]
    simp [nearPt, hx]
    rfl

theorem sc_match_back_of_getLast {M : FloatModel} {sc : SubContour} {p q : Pt} (z : Pt)
    (hl : sc.segments.getLast? = some (.line p q)) :
    sc_match_back M sc (some z.1) (some z.2) = .ok (decide (nearPt q z)) := by
  unfold sc_match_back
  rw [sc_end_x_of_getLast hl, except_bind_ok]
  show (reqSome (some q.1) >>= _) = _
  rw [show reqSome (some q.1) = .ok q.1 from rfl, except_bind_ok]
  show (reqSome (some z.1) >>= _) = _
  rw [show reqSome (some z.1) = .ok z.1 from rfl, except_bind_ok]
  by_cases hx : |q.1 - z.1| < eps5
  · rw [if_pos hx, sc_end_y_of_getLast hl, except_bind_ok]
    show (reqSome (some q.2) >>= _) = _
    rw [show reqSome (some q.2) = .ok q.2 from rfl, except_bind_ok]
    show (reqSome (some z.2) >>= _) = _
    rw [show reqSome (some z.2) = .ok z.2 from rfl, except_bind_ok]
    by_cases hy : |q.2 - z.2| < eps5
    · simp [nearPt, hx, hy]
      rfl
    · simp [nearPt, hx, hy]
      rfl
  · rw [if_neg hx]
    simp [nearPt, hx]
    rfl

theorem sc_front_of_head {M : FloatModel} {sc : SubContour} {p q : Pt}
    (hh : sc.segments.head? = some (.line p q)) : sc_front M sc = .ok p := by
  unfold sc_front
  rw [sc_start_x_of_head hh, except_bind_ok, sc_start_y_of_head hh, except_bind_ok]
  rfl

theorem sc_back_of_getLast {M : FloatModel} {sc : SubContour} {p q : Pt}
    (hl : sc.segments.getLast? = some (.line p q)) :
    sc_back M sc = .ok (some q.1, some q.2) := by
  unfold sc_back
  rw [sc_end_x_of_getLast hl, except_bind_ok, sc_end_y_of_getLast hl, except_bind_ok]
  rfl

/-- `is_closed` reads only the segment list. -/
theorem sc_is_closed_only_segs {M : FloatModel} {sc sc2 : SubContour}
    (h : sc.segments = sc2.segments) : sc_is_closed M sc = sc_is_closed M sc2 := by
  unfold sc_is_closed sc_start_x sc_start_y sc_end_x sc_end_y
  rw [h]

/-- The closedness test of a bare segment list. -/
def segs_not_closed (M : FloatModel) (S : List Entity) : Prop :=
  sc_is_closed M ⟨S, ⊤, ⊥, ⊤, ⊥⟩ = .ok false

theorem sc_push_back_line_ok {M : FloatModel} {sc : SubContour} (p q : Pt)
    (h : sc_is_closed M sc = .ok false) :
    ∃ sc2, sc_push_back M sc (.line p q) = .ok sc2 ∧
      sc2.segments = sc.segments ++ [.line p q] := by
  unfold sc_push_back
  rw [h, except_bind_ok, if_neg (by simp)]
  simp only [sc_end_x, sc_end_y, List.getLast?_concat, reqSome, except_bind_ok]
  exact ⟨_, rfl, rfl⟩

theorem sc_push_front_line_ok {M : FloatModel} {sc : SubContour} (p q : Pt)
    (h : sc_is_closed M sc = .ok false) :
    ∃ sc2, sc_push_front M sc (.line p q) = .ok sc2 ∧
      sc2.segments = .line p q :: sc.segments := by
  unfold sc_push_front
  rw [h, except_bind_ok, if_neg (by simp)]
  simp only [sc_start_x, sc_start_y, List.head?_cons, except_bind_ok]
  exact ⟨_, rfl, rfl⟩

theorem foldlM_push_back_lines {M : FloatModel} :
    ∀ (L : List Entity) (self : SubContour),
    (∀ e ∈ L, ∃ p q, e = .line p q) →
    (∀ k, k < L.length → segs_not_closed M (self.segments ++ L.take k)) →
    ∃ sc2, L.foldlM (fun acc e => sc_push_back M acc e) self = .ok sc2 ∧
      sc2.segments = self.segments ++ L := by
  intro L
  induction L with
  | nil => intro self _ _; exact ⟨self, rfl, by simp⟩
  | cons e L2 ih =>
    intro self hline hnc
    rcases hline e (List.mem_cons_self _ _) with ⟨p, q, rfl⟩
    have h0 : sc_is_closed M self = .ok false := by
      have hx := hnc 0 (by simp)
      unfold segs_not_closed at hx
      rw [List.take_zero, List.append_nil] at hx
      exact (sc_is_closed_only_segs
        (show self.segments = (⟨self.segments, ⊤, ⊥, ⊤, ⊥⟩ : SubContour).segments
          from rfl)).trans hx
    rcases sc_push_back_line_ok p q h0 with ⟨sc1, hpush, hsegs⟩
    rw [List.foldlM_cons, hpush, except_bind_ok]
    have hnc2 : ∀ k, k < L2.length → segs_not_closed M (sc1.segments ++ L2.take k) := by
      intro k hk
      have hx := hnc (k + 1) (by simpa using hk)
      rw [hsegs, List.append_assoc]
      simpa [List.take_succ_cons] using hx
    rcases ih sc1 (fun e2 he2 => hline e2 (List.mem_cons_of_mem _ he2)) hnc2 with ⟨sc2, hf, hs⟩
    refine ⟨sc2, hf, ?_⟩
    rw [hs, hsegs]
    simp

theorem foldlM_push_front_lines {M : FloatModel} :
    ∀ (L : List Entity) (self : SubContour),
    (∀ e ∈ L, ∃ p q, e = .line p q) →
    (∀ k, k < L.length → segs_not_closed M ((L.take k).reverse ++ self.segments)) →
    ∃ sc2, L.foldlM (fun acc e => sc_push_front M acc e) self = .ok sc2 ∧
      sc2.segments = L.reverse ++ self.segments := by
  intro L
  induction L with
  | nil => intro self _ _; exact ⟨self, rfl, by simp⟩
  | cons e L2 ih =>
    intro self hline hnc
    rcases hline e (List.mem_cons_self _ _) with ⟨p, q, rfl⟩
    have h0 : sc_is_closed M self = .ok false := by
      have hx := hnc 0 (by simp)
      unfold segs_not_closed at hx
      rw [List.take_zero, List.reverse_nil, List.nil_append] at hx
      exact (sc_is_closed_only_segs
        (show self.segments = (⟨self.segments, ⊤, ⊥, ⊤, ⊥⟩ : SubContour).segments
          from rfl)).trans hx
    rcases sc_push_front_line_ok p q h0 with ⟨sc1, hpush, hsegs⟩
    rw [List.foldlM_cons, hpush, except_bind_ok]
    have hnc2 : ∀ k, k < L2.length → segs_not_closed M ((L2.take k).reverse ++ sc1.segments) := by
      intro k hk
      have hx := hnc (k + 1) (by simpa using hk)
      rw [hsegs]
      rw [List.take_succ_cons, List.reverse_cons, List.append_assoc] at hx
      simpa using hx
    rcases ih sc1 (fun e2 he2 => hline e2 (List.mem_cons_of_mem _ he2)) hnc2 with ⟨sc2, hf, hs⟩
    refine ⟨sc2, hf, ?_⟩
    rw [hs, hsegs]
    simp

theorem foldlM_flip_push_back {M : FloatModel} :
    ∀ (L : List Entity) (self : SubContour), (∀ e ∈ L, ∃ p q, e = .line p q) →
    L.foldlM (fun acc e => do
      let e2 ← flip_entity e
      sc_push_back M acc e2) self =
    (L.map flip_line).foldlM (fun acc e => sc_push_back M acc e) self := by
  intro L
  induction L with
  | nil => intro self _; rfl
  | cons e L2 ih =>
    intro self hline
    rcases hline e (List.mem_cons_self _ _) with ⟨p, q, rfl⟩
    rw [List.foldlM_cons, List.map_cons, List.foldlM_cons]
    show ((flip_entity (.line p q) >>= fun e2 => sc_push_back M self e2) >>= _) = _
    rw [show flip_entity (.line p q) = .ok (flip_line (.line p q)) from rfl, except_bind_ok]
    cases hp : sc_push_back M self (flip_line (.line p q)) with
    | error err => rw [except_bind_error, except_bind_error]
    | ok sc1 =>
      rw [except_bind_ok, except_bind_ok]
      exact ih sc1 (fun e2 he2 => hline e2 (List.mem_cons_of_mem _ he2))

theorem foldlM_flip_push_front {M : FloatModel} :
    ∀ (L : List Entity) (self : SubContour), (∀ e ∈ L, ∃ p q, e = .line p q) →
    L.foldlM (fun acc e => do
      let e2 ← flip_entity e
      sc_push_front M acc e2) self =
    (L.map flip_line).foldlM (fun acc e => sc_push_front M acc e) self := by
  intro L
  induction L with
  | nil => intro self _; rfl
  | cons e L2 ih =>
    intro self hline
    rcases hline e (List.mem_cons_self _ _) with ⟨p, q, rfl⟩
    rw [List.foldlM_cons, List.map_cons, List.foldlM_cons]
    show ((flip_entity (.line p q) >>= fun e2 => sc_push_front M self e2) >>= _) = _
    rw [show flip_entity (.line p q) = .ok (flip_line (.line p q)) from rfl, except_bind_ok]
    cases hp : sc_push_front M self (flip_line (.line p q)) with
    | error err => rw [except_bind_error, except_bind_error]
    | ok sc1 =>
      rw [except_bind_ok, except_bind_ok]
      exact ih sc1 (fun e2 he2 => hline e2 (List.mem_cons_of_mem _ he2))

theorem getLast?_eq_vlast {α : Type} : ∀ (l : List α) (a : α),
    (a :: l).getLast? = some (vlast a l) := by
  intro l
  induction l with
  | nil => intro a; rfl
  | cons b r ih => intro a; rw [getLast?_cons_cons, ih b, vlast_cons₂]

theorem vlast_ne_head {α : Type} {l : List α} {a : α} (hl : l ≠ [])
    (hnd : (a :: l).Nodup) : vlast a l ≠ a := by
  rcases l with _ | ⟨b, r⟩
  · exact absurd rfl hl
  · intro hcon
    have hmem : vlast b r ∈ b :: r := vlast_mem r b
    rw [vlast_cons₂] at hcon
    rw [hcon] at hmem
    exact (List.nodup_cons.mp hnd).1 hmem

theorem sc_is_closed_path_false {n : ℕ} {v : ZMod n → Pt} {M : FloatModel}
    (hsep : ∀ i j : ZMod n, i ≠ j → ¬ nearPt (v i) (v j))
    {sc : SubContour} {a : ZMod n} {r : List (ZMod n)}
    (h : sc.segments = path_segs n v (a :: r)) (hr : r ≠ []) (hnd : (a :: r).Nodup) :
    sc_is_closed M sc = .ok false := by
  rcases r with _ | ⟨b, r2⟩
  · exact absurd rfl hr
  · rcases path_segs_getLast v r2 a b with ⟨w, hw⟩
    have hh : sc.segments.head? = some (.line (v a) (v b)) := by
      rw [h, path_segs_cons₂]
      rfl
    have hl : sc.segments.getLast? = some (.line (v w) (v (vlast b r2))) := by
      rw [h]
      exact hw
    rw [sc_is_closed_of_lines hh hl]
    have hne : vlast b r2 ≠ a := by
      have := vlast_ne_head (show (b :: r2 : List (ZMod n)) ≠ [] by simp) hnd
      rw [vlast_cons₂] at this
      exact this
    have : ¬ nearPt (v a) (v (vlast b r2)) := hsep a (vlast b r2) (fun hc => hne hc.symm)
    simp [this]

theorem core_fold_back {n : ℕ} {v : ZMod n → Pt} {M : FloatModel}
    (hsep : ∀ i j : ZMod n, i ≠ j → ¬ nearPt (v i) (v j)) :
    ∀ (t2 : List (ZMod n)) (self : SubContour) (a1 : ZMod n) (r1 : List (ZMod n)),
    self.segments = path_segs n v (a1 :: r1) → r1 ≠ [] →
    (a1 :: (r1 ++ t2)).Nodup →
    ∃ sc2, (path_segs n v (vlast a1 r1 :: t2)).foldlM
        (fun acc e => sc_push_back M acc e) self = .ok sc2 ∧
      sc2.segments = path_segs n v (a1 :: (r1 ++ t2)) := by
  intro t2
  induction t2 with
  | nil =>
    intro self a1 r1 h1 hr1 hnd
    refine ⟨self, ?_, by rw [h1]; simp⟩
    rfl
  | cons c t2x ih =>
    intro self a1 r1 h1 hr1 hnd
    rw [path_segs_cons₂, List.foldlM_cons]
    have hself : sc_is_closed M self = .ok false :=
      sc_is_closed_path_false hsep h1 hr1
        ((List.nodup_cons.mpr ⟨fun hmem => (List.nodup_cons.mp hnd).1
          (List.mem_append.mpr (Or.inl hmem)),
          ((List.nodup_cons.mp hnd).2.sublist (List.sublist_append_left r1 (c :: t2x)))⟩))
    rcases sc_push_back_line_ok (v (vlast a1 r1)) (v c) hself with ⟨sc1, hpush, hsegs⟩
    rw [hpush, except_bind_ok]
    have hsegs2 : sc1.segments = path_segs n v (a1 :: (r1 ++ [c])) := by
      rw [hsegs, h1]
      have : a1 :: (r1 ++ [c]) = (a1 :: r1) ++ [c] := by simp
      rw [this, path_segs_snoc]
    have hvl : vlast a1 (r1 ++ [c]) = c := vlast_append c r1 a1
    have harr : a1 :: ((r1 ++ [c]) ++ t2x) = a1 :: (r1 ++ c :: t2x) := by simp
    rcases ih sc1 a1 (r1 ++ [c]) hsegs2 (by simp) (by rw [harr]; exact hnd) with ⟨sc2, hf, hs⟩
    rw [hvl] at hf
    refine ⟨sc2, hf, ?_⟩
    rw [hs, harr]

theorem core_fold_front {n : ℕ} {v : ZMod n → Pt} {M : FloatModel}
    (hsep : ∀ i j : ZMod n, i ≠ j → ¬ nearPt (v i) (v j)) :
    ∀ (t3 : List (ZMod n)) (u : ZMod n) (self : SubContour) (a1 : ZMod n)
      (r1 : List (ZMod n)),
    self.segments = path_segs n v (a1 :: r1) → vlast u t3 = a1 → r1 ≠ [] →
    (u :: (t3 ++ r1)).Nodup →
    ∃ sc2, (path_segs n v (u :: t3)).reverse.foldlM
        (fun acc e => sc_push_front M acc e) self = .ok sc2 ∧
      sc2.segments = path_segs n v (u :: (t3 ++ r1)) := by
  intro t3
  induction t3 using List.reverseRecOn with
  | nil =>
    intro u self a1 r1 h1 hlink hr1 hnd
    refine ⟨self, rfl, ?_⟩
    rw [h1]
    simp only [vlast] at hlink
    rw [hlink]
    simp
  | append_singleton t3x c ih =>
    intro u self a1 r1 h1 hlink hr1 hnd
    have hc : c = a1 := by rw [← vlast_append c t3x u]; exact hlink
    subst hc
    have hshape : u :: (t3x ++ [c]) = (u :: t3x) ++ [c] := by simp
    rw [hshape, path_segs_snoc, List.reverse_append]
    simp only [List.reverse_cons, List.reverse_nil, List.nil_append, List.singleton_append,
      List.foldlM_cons]
    have hself : sc_is_closed M self = .ok false := by
      refine sc_is_closed_path_false hsep h1 hr1 ?_
      have hsub : List.Sublist (c :: r1) (u :: (t3x ++ [c] ++ r1)) := by
        have heq : u :: (t3x ++ [c] ++ r1) = (u :: t3x) ++ (c :: r1) := by simp
        rw [heq]
        exact List.sublist_append_right (u :: t3x) (c :: r1)
      exact hnd.sublist hsub
    rcases sc_push_front_line_ok (v (vlast u t3x)) (v c) hself with ⟨sc1, hpush, hsegs⟩
    rw [hpush, except_bind_ok]
    have hsegs2 : sc1.segments = path_segs n v (vlast u t3x :: (c :: r1)) := by
      rw [hsegs, h1, path_segs_cons₂]
    have hnd2 : (u :: (t3x ++ (c :: r1))).Nodup := by
      have : u :: (t3x ++ (c :: r1)) = u :: ((t3x ++ [c]) ++ r1) := by simp
      rw [this]
      exact hnd
    rcases ih u sc1 (vlast u t3x) (c :: r1) hsegs2 rfl (by simp) hnd2 with ⟨sc2, hf, hs⟩
    refine ⟨sc2, hf, ?_⟩
    rw [hs]
    congr 1
    simp

theorem nearPt_refl (p : Pt) : nearPt p p := by
  constructor <;> · rw [sub_self, abs_zero]; norm_num [eps5]

theorem near_vertex_iff {n : ℕ} {v : ZMod n → Pt}
    (hsep : ∀ i j : ZMod n, i ≠ j → ¬ nearPt (v i) (v j)) (i j : ZMod n) :
    nearPt (v i) (v j) ↔ i = j := by
  constructor
  · intro h
    by_contra hne
    exact hsep i j hne h
  · intro h
    rw [h]
    exact nearPt_refl _

theorem zmod_natCast_inj {n : ℕ} {a b : ℕ} (ha : a < n) (hb : b < n)
    (h : ((a : ZMod n) = (b : ZMod n))) : a = b := by
  have h2 := congrArg ZMod.val h
  rwa [ZMod.val_natCast_of_lt ha, ZMod.val_natCast_of_lt hb] at h2

theorem zmod_natCast_ne_zero {n t : ℕ} (h1 : 1 ≤ t) (h2 : t < n) :
    ((t : ℕ) : ZMod n) ≠ 0 := by
  intro hc
  have h3 : ((t : ℕ) : ZMod n) = ((0 : ℕ) : ZMod n) := by rw [hc]; simp
  have : t = 0 := zmod_natCast_inj h2 (by omega) h3
  omega

theorem zmod_add_natCast_inj {n : ℕ} (i : ZMod n) {a b : ℕ} (ha : a < n) (hb : b < n)
    (h : i + (a : ZMod n) = i + (b : ZMod n)) : a = b :=
  zmod_natCast_inj ha hb (add_left_cancel h)

theorem run_up_reverse_cons {n : ℕ} (i : ZMod n) (ℓ : ℕ) :
    (run_up n i (ℓ + 1)).reverse = (i + ((ℓ + 1 : ℕ) : ZMod n)) :: (run_up n i ℓ).reverse := by
  rw [run_up_succ, List.reverse_append]
  rfl

theorem run_up_nodup {n : ℕ} {i : ZMod n} {ℓ : ℕ} (h : ℓ < n) : (run_up n i ℓ).Nodup := by
  unfold run_up
  refine List.Nodup.map_on ?_ (List.nodup_range _)
  intro a ha b hb hab
  rw [List.mem_range] at ha hb
  exact zmod_add_natCast_inj i (by omega) (by omega) hab

theorem run_up_concat {n : ℕ} (i : ZMod n) (ℓ1 : ℕ) :
    ∀ (ℓ2 : ℕ) (t2 : List (ZMod n)),
    run_up n (i + (ℓ1 : ZMod n)) ℓ2 = (i + (ℓ1 : ZMod n)) :: t2 →
    run_up n i (ℓ1 + ℓ2) = run_up n i ℓ1 ++ t2 := by
  intro ℓ2
  induction ℓ2 with
  | zero =>
    intro t2 h
    rw [run_up_zero] at h
    rcases List.cons.inj h with ⟨-, rfl⟩
    simp
  | succ m ih =>
    intro t2 h
    rw [run_up_succ] at h
    rcases run_up_head (i + (ℓ1 : ZMod n)) m with ⟨r0, hr0⟩
    rw [hr0] at h
    rcases List.cons.inj h with ⟨-, hr⟩
    have hL : ℓ1 + (m + 1) = (ℓ1 + m) + 1 := by ring
    have hcast : i + ((ℓ1 + m + 1 : ℕ) : ZMod n) =
        i + (ℓ1 : ZMod n) + ((m + 1 : ℕ) : ZMod n) := by
      push_cast
      ring
    rw [hL, run_up_succ, ih r0 hr0, hcast, ← hr, List.append_assoc]
    rfl

theorem mem_arcSet {n : ℕ} {i x : ZMod n} {ℓ : ℕ} :
    x ∈ arcSet n i ℓ ↔ ∃ t : ℕ, t < ℓ ∧ i + (t : ZMod n) = x := by
  unfold arcSet
  constructor
  · intro h
    rcases Finset.mem_image.mp h with ⟨t, ht, hx⟩
    exact ⟨t, Finset.mem_range.mp ht, hx⟩
  · rintro ⟨t, ht, hx⟩
    exact Finset.mem_image.mpr ⟨t, Finset.mem_range.mpr ht, hx⟩

theorem arcSet_card {n : ℕ} {i : ZMod n} {ℓ : ℕ} (h : ℓ ≤ n) : (arcSet n i ℓ).card = ℓ := by
  unfold arcSet
  rw [Finset.card_image_of_injOn, Finset.card_range]
  intro a ha b hb hab
  rw [Finset.mem_coe, Finset.mem_range] at ha hb
  exact zmod_add_natCast_inj i (by omega) (by omega) hab

theorem arcSet_union {n : ℕ} (i : ZMod n) (ℓ1 ℓ2 : ℕ) :
    arcSet n i (ℓ1 + ℓ2) = arcSet n i ℓ1 ∪ arcSet n (i + (ℓ1 : ZMod n)) ℓ2 := by
  ext x
  rw [Finset.mem_union, mem_arcSet, mem_arcSet, mem_arcSet]
  constructor
  · rintro ⟨t, ht, rfl⟩
    by_cases hc : t < ℓ1
    · exact Or.inl ⟨t, hc, rfl⟩
    · refine Or.inr ⟨t - ℓ1, by omega, ?_⟩
      rw [Nat.cast_sub (by omega : ℓ1 ≤ t)]
      ring
  · rintro (⟨t, ht, rfl⟩ | ⟨t, ht, rfl⟩)
    · exact ⟨t, by omega, rfl⟩
    · refine ⟨ℓ1 + t, by omega, ?_⟩
      push_cast
      ring

theorem arcSet_one {n : ℕ} (i : ZMod n) : arcSet n i 1 = {i} := by
  ext x
  rw [mem_arcSet, Finset.mem_singleton]
  constructor
  · rintro ⟨t, ht, rfl⟩
    have : t = 0 := by omega
    subst this
    simp
  · intro hx
    exact ⟨0, by omega, by simp [hx.symm]⟩

theorem arcSet_start_mem {n : ℕ} {i : ZMod n} {ℓ : ℕ} (h : 1 ≤ ℓ) : i ∈ arcSet n i ℓ :=
  mem_arcSet.mpr ⟨0, by omega, by simp⟩

theorem arcSet_last_mem {n : ℕ} {i : ZMod n} {ℓ : ℕ} (h : 1 ≤ ℓ) :
    i + (ℓ : ZMod n) - 1 ∈ arcSet n i ℓ := by
  refine mem_arcSet.mpr ⟨ℓ - 1, by omega, ?_⟩
  rw [Nat.cast_sub (by omega : 1 ≤ ℓ)]
  push_cast
  ring

/-- The head vertex of a chain over edges `i, …, i+ℓ-1` in direction
`d` (`d = true` is ascending). -/
def ch_head {n : ℕ} (i : ZMod n) (ℓ : ℕ) (d : Bool) : ZMod n :=
  if d then i else i + (ℓ : ZMod n)

/-- The last vertex of a chain. -/
def ch_last {n : ℕ} (i : ZMod n) (ℓ : ℕ) (d : Bool) : ZMod n :=
  if d then i + (ℓ : ZMod n) else i

theorem chain_verts_cons {n : ℕ} (i : ZMod n) {ℓ : ℕ} (d : Bool) (hℓ : 1 ≤ ℓ) :
    ∃ r, chain_verts n i ℓ d = ch_head i ℓ d :: r ∧ r ≠ [] ∧
      vlast (ch_head i ℓ d) r = ch_last i ℓ d := by
  obtain ⟨m, rfl⟩ : ∃ m, ℓ = m + 1 := ⟨ℓ - 1, by omega⟩
  cases d with
  | true =>
    refine ⟨run_up n (i + 1) m, ?_, run_up_ne_nil _ _, ?_⟩
    · simp only [chain_verts, ch_head, if_true]
      exact run_up_cons i m
    · simp only [ch_head, ch_last, if_true]
      exact run_up_vlast (m + 1) i i _ (run_up_cons i m)
  | false =>
    refine ⟨(run_up n i m).reverse, ?_, by simp [run_up_ne_nil], ?_⟩
    · simp only [chain_verts, ch_head, Bool.false_eq_true, if_false]
      exact run_up_reverse_cons i m
    · simp only [ch_head, ch_last, Bool.false_eq_true, if_false]
      have h1 := getLast?_eq_vlast ((run_up n i m).reverse) (i + ((m + 1 : ℕ) : ZMod n))
      rw [← run_up_reverse_cons, List.getLast?_reverse, run_up_cons, List.head?_cons] at h1
      exact (Option.some.inj h1).symm

theorem chain_verts_nodup {n : ℕ} {i : ZMod n} {ℓ : ℕ} (d : Bool) (h : ℓ < n) :
    (chain_verts n i ℓ d).Nodup := by
  cases d with
  | true => exact run_up_nodup h
  | false =>
    simp only [chain_verts, Bool.false_eq_true, if_false]
    exact List.nodup_reverse.mpr (run_up_nodup h)

theorem chain_segs_cons {n : ℕ} (v : ZMod n → Pt) (i : ZMod n) {ℓ : ℕ} (d : Bool)
    (hℓ : 1 ≤ ℓ) :
    ∃ b r2, chain_verts n i ℓ d = ch_head i ℓ d :: b :: r2 ∧ vlast b r2 = ch_last i ℓ d := by
  rcases chain_verts_cons i d hℓ with ⟨r, hr, hne, hv⟩
  rcases r with _ | ⟨b, r2⟩
  · exact absurd rfl hne
  · exact ⟨b, r2, hr, by rw [← vlast_cons₂ (ch_head i ℓ d) b r2]; exact hv⟩

theorem chain_match_front {n : ℕ} {v : ZMod n → Pt} {M : FloatModel} {sc : SubContour}
    {i : ZMod n} {ℓ : ℕ} {d : Bool} (hsc : sc.segments = chain_segs n v i ℓ d)
    (hℓ : 1 ≤ ℓ) (z : Pt) :
    sc_match_front M sc (some z.1) (some z.2) =
      .ok (decide (nearPt (v (ch_head i ℓ d)) z)) := by
  rcases chain_segs_cons v i d hℓ with ⟨b, r2, hcv, hv⟩
  have hh : sc.segments.head? = some (.line (v (ch_head i ℓ d)) (v b)) := by
    rw [hsc]
    unfold chain_segs
    rw [hcv, path_segs_cons₂]
    rfl
  exact sc_match_front_of_head z hh

theorem chain_match_back {n : ℕ} {v : ZMod n → Pt} {M : FloatModel} {sc : SubContour}
    {i : ZMod n} {ℓ : ℕ} {d : Bool} (hsc : sc.segments = chain_segs n v i ℓ d)
    (hℓ : 1 ≤ ℓ) (z : Pt) :
    sc_match_back M sc (some z.1) (some z.2) =
      .ok (decide (nearPt (v (ch_last i ℓ d)) z)) := by
  rcases chain_segs_cons v i d hℓ with ⟨b, r2, hcv, hv⟩
  rcases path_segs_getLast v r2 (ch_head i ℓ d) b with ⟨w, hw⟩
  have hl : sc.segments.getLast? = some (.line (v w) (v (ch_last i ℓ d))) := by
    rw [hsc]
    unfold chain_segs
    rw [hcv, ← hv]
    exact hw
  exact sc_match_back_of_getLast z hl

theorem chain_front {n : ℕ} {v : ZMod n → Pt} {M : FloatModel} {sc : SubContour}
    {i : ZMod n} {ℓ : ℕ} {d : Bool} (hsc : sc.segments = chain_segs n v i ℓ d)
    (hℓ : 1 ≤ ℓ) :
    sc_front M sc = .ok (v (ch_head i ℓ d)) := by
  rcases chain_segs_cons v i d hℓ with ⟨b, r2, hcv, hv⟩
  have hh : sc.segments.head? = some (.line (v (ch_head i ℓ d)) (v b)) := by
    rw [hsc]
    unfold chain_segs
    rw [hcv, path_segs_cons₂]
    rfl
  exact sc_front_of_head hh

theorem chain_back {n : ℕ} {v : ZMod n → Pt} {M : FloatModel} {sc : SubContour}
    {i : ZMod n} {ℓ : ℕ} {d : Bool} (hsc : sc.segments = chain_segs n v i ℓ d)
    (hℓ : 1 ≤ ℓ) :
    sc_back M sc = .ok (some (v (ch_last i ℓ d)).1, some (v (ch_last i ℓ d)).2) := by
  rcases chain_segs_cons v i d hℓ with ⟨b, r2, hcv, hv⟩
  rcases path_segs_getLast v r2 (ch_head i ℓ d) b with ⟨w, hw⟩
  have hl : sc.segments.getLast? = some (.line (v w) (v (ch_last i ℓ d))) := by
    rw [hsc]
    unfold chain_segs
    rw [hcv, ← hv]
    exact hw
  exact sc_back_of_getLast hl

theorem chain_not_closed {n : ℕ} {v : ZMod n → Pt} {M : FloatModel} {sc : SubContour}
    {i : ZMod n} {ℓ : ℕ} {d : Bool}
    (hsep : ∀ a b : ZMod n, a ≠ b → ¬ nearPt (v a) (v b))
    (hsc : sc.segments = chain_segs n v i ℓ d) (hℓ : 1 ≤ ℓ) (hℓn : ℓ < n) :
    sc_is_closed M sc = .ok false := by
  rcases chain_verts_cons i d hℓ with ⟨r, hr, hne, -⟩
  refine @sc_is_closed_path_false n v M hsep sc (ch_head i ℓ d) r ?_ hne ?_
  · rw [hsc]
    unfold chain_segs
    rw [hr]
  · rw [← hr]
    exact chain_verts_nodup d hℓn

theorem run_up_one {n : ℕ} (k : ZMod n) : run_up n k 1 = [k, k + 1] := by
  rw [show (1 : ℕ) = 0 + 1 from rfl, run_up_cons, run_up_zero]

theorem chain_segs_one_true {n : ℕ} (v : ZMod n → Pt) (k : ZMod n) :
    chain_segs n v k 1 true = [.line (v k) (v (k + 1))] := by
  unfold chain_segs chain_verts
  rw [if_pos rfl, run_up_one]
  rfl

theorem chain_segs_one_false {n : ℕ} (v : ZMod n → Pt) (k : ZMod n) :
    chain_segs n v k 1 false = [.line (v (k + 1)) (v k)] := by
  unfold chain_segs chain_verts
  rw [if_neg Bool.false_ne_true, run_up_one]
  rfl

theorem edge_of_false {n : ℕ} (v : ZMod n → Pt) (k : ZMod n) :
    edge_of n v k false = .line (v k) (v (k + 1)) := by
  simp [edge_of]

theorem edge_of_true {n : ℕ} (v : ZMod n → Pt) (k : ZMod n) :
    edge_of n v k true = .line (v (k + 1)) (v k) := by
  simp [edge_of]

theorem pack_entity {n : ℕ} (v : ZMod n → Pt) (M : FloatModel) (k : ZMod n) (b : Bool) :
    ∃ nsc, sc_push_back M scEmpty (edge_of n v k b) = .ok nsc ∧
      nsc.segments = chain_segs n v k 1 (!b) := by
  have hcl : sc_is_closed M scEmpty = .ok false := rfl
  cases b with
  | false =>
    rw [edge_of_false]
    rcases @sc_push_back_line_ok M scEmpty (v k) (v (k + 1)) hcl with ⟨nsc, hp, hs⟩
    refine ⟨nsc, hp, ?_⟩
    rw [hs, Bool.not_false, chain_segs_one_true]
    rfl
  | true =>
    rw [edge_of_true]
    rcases @sc_push_back_line_ok M scEmpty (v (k + 1)) (v k) hcl with ⟨nsc, hp, hs⟩
    refine ⟨nsc, hp, ?_⟩
    rw [hs, Bool.not_true, chain_segs_one_false]
    rfl

theorem ch_head_true {n : ℕ} (i : ZMod n) (ℓ : ℕ) : ch_head i ℓ true = i := rfl

theorem ch_head_false {n : ℕ} (i : ZMod n) (ℓ : ℕ) :
    ch_head i ℓ false = i + (ℓ : ZMod n) := rfl

theorem ch_last_true {n : ℕ} (i : ZMod n) (ℓ : ℕ) :
    ch_last i ℓ true = i + (ℓ : ZMod n) := rfl

theorem ch_last_false {n : ℕ} (i : ZMod n) (ℓ : ℕ) : ch_last i ℓ false = i := rfl

theorem zmod_shift_ne {n : ℕ} (i : ZMod n) (a b : ℕ) (ha : a < n) (hb : b < n)
    (hne : a ≠ b) : i + (a : ZMod n) ≠ i + (b : ZMod n) :=
  fun h => hne (zmod_add_natCast_inj i ha hb h)

theorem zmod_self_ne_shift {n : ℕ} (i : ZMod n) {t : ℕ} (h1 : 1 ≤ t) (h2 : t < n) :
    i ≠ i + (t : ZMod n) := by
  intro h
  have h0 : i + ((0 : ℕ) : ZMod n) = i + (t : ZMod n) := by simpa using h
  have := zmod_add_natCast_inj i (by omega) h2 h0
  omega

theorem except_map_ok {ε α β : Type} (f : α → β) (a : α) :
    (f <$> (Except.ok a : Except ε α)) = .ok (f a) := rfl

theorem flip_entity_line {p q : Pt} : flip_entity (.line p q) = .ok (.line q p) := rfl

theorem elong_right {n : ℕ} {v : ZMod n → Pt} {M : FloatModel} {sc nsc : SubContour}
    {i : ZMod n} {ℓ : ℕ} {d nb : Bool}
    (hsep : ∀ a b : ZMod n, a ≠ b → ¬ nearPt (v a) (v b))
    (hsc : sc.segments = chain_segs n v i ℓ d)
    (hnew : nsc.segments = chain_segs n v (i + (ℓ : ZMod n)) 1 nb)
    (hℓ1 : 1 ≤ ℓ) (hℓn : ℓ + 1 ≤ n - 1) (hn : 3 ≤ n) :
    ∃ sc2, try_elongate M sc nsc = .ok (some sc2) ∧
      sc2.segments = chain_segs n v i (ℓ + 1) d := by
  have hC1 : i + (ℓ : ZMod n) + 1 = i + ((ℓ + 1 : ℕ) : ZMod n) := by push_cast; ring
  have hAB : i ≠ i + (ℓ : ZMod n) := zmod_self_ne_shift i hℓ1 (by omega)
  have hAC : i ≠ i + ((ℓ + 1 : ℕ) : ZMod n) := zmod_self_ne_shift i (by omega) (by omega)
  have hBC : i + (ℓ : ZMod n) ≠ i + ((ℓ + 1 : ℕ) : ZMod n) :=
    zmod_shift_ne i ℓ (ℓ + 1) (by omega) (by omega) (by omega)
  have hclosed : sc_is_closed M sc = .ok false := chain_not_closed hsep hsc hℓ1 (by omega)
  have hb := @chain_back n v M nsc (i + (ℓ : ZMod n)) 1 nb hnew (le_refl 1)
  have hf := @chain_front n v M nsc (i + (ℓ : ZMod n)) 1 nb hnew (le_refl 1)
  cases d with
  | true =>
    cases nb with
    | true =>
      rw [ch_last_true, Nat.cast_one, hC1] at hb
      rw [ch_head_true] at hf
      unfold try_elongate
      simp only [hb, except_bind_ok]
      have h1 : sc_match_front M sc (some (v (i + ((ℓ + 1 : ℕ) : ZMod n))).1)
          (some (v (i + ((ℓ + 1 : ℕ) : ZMod n))).2) = .ok false := by
        rw [chain_match_front hsc hℓ1, ch_head_true,
          decide_eq_false (fun hc => absurd ((near_vertex_iff hsep _ _).mp hc) hAC)]
      simp only [h1, except_bind_ok]
      rw [if_neg Bool.false_ne_true]
      simp only [hf, except_bind_ok]
      have h2 : sc_match_front M sc (some (v (i + (ℓ : ZMod n))).1)
          (some (v (i + (ℓ : ZMod n))).2) = .ok false := by
        rw [chain_match_front hsc hℓ1, ch_head_true,
          decide_eq_false (fun hc => absurd ((near_vertex_iff hsep _ _).mp hc) hAB)]
      simp only [h2, except_bind_ok]
      rw [if_neg Bool.false_ne_true]
      have h3 : sc_match_back M sc (some (v (i + (ℓ : ZMod n))).1)
          (some (v (i + (ℓ : ZMod n))).2) = .ok true := by
        rw [chain_match_back hsc hℓ1, ch_last_true, decide_eq_true (nearPt_refl _)]
      simp only [h3, except_bind_ok]
      rw [if_pos trivial]
      unfold sc_merge_back
      rw [Bool.not_false, if_pos rfl, hnew, chain_segs_one_true, hC1,
        List.foldlM_cons]
      rcases @sc_push_back_line_ok M sc (v (i + (ℓ : ZMod n)))
        (v (i + ((ℓ + 1 : ℕ) : ZMod n))) hclosed with ⟨sc2, hp, hs⟩
      simp only [hp, except_bind_ok, List.foldlM_nil]
      refine ⟨sc2, except_map_ok _ _, ?_⟩
      rcases run_up_head i ℓ with ⟨r1, hr1⟩
      have hvl := run_up_vlast ℓ i i r1 hr1
      rw [hs, hsc]
      unfold chain_segs chain_verts
      rw [if_pos rfl, if_pos rfl, hr1, ← hvl, ← path_segs_snoc, ← hr1, ← run_up_succ]
    | false =>
      rw [ch_last_false] at hb
      rw [ch_head_false, Nat.cast_one, hC1] at hf
      unfold try_elongate
      simp only [hb, except_bind_ok]
      have h1 : sc_match_front M sc (some (v (i + (ℓ : ZMod n))).1)
          (some (v (i + (ℓ : ZMod n))).2) = .ok false := by
        rw [chain_match_front hsc hℓ1, ch_head_true,
          decide_eq_false (fun hc => absurd ((near_vertex_iff hsep _ _).mp hc) hAB)]
      simp only [h1, except_bind_ok]
      rw [if_neg Bool.false_ne_true]
      simp only [hf, except_bind_ok]
      have h2 : sc_match_front M sc (some (v (i + ((ℓ + 1 : ℕ) : ZMod n))).1)
          (some (v (i + ((ℓ + 1 : ℕ) : ZMod n))).2) = .ok false := by
        rw [chain_match_front hsc hℓ1, ch_head_true,
          decide_eq_false (fun hc => absurd ((near_vertex_iff hsep _ _).mp hc) hAC)]
      simp only [h2, except_bind_ok]
      rw [if_neg Bool.false_ne_true]
      have h3 : sc_match_back M sc (some (v (i + ((ℓ + 1 : ℕ) : ZMod n))).1)
          (some (v (i + ((ℓ + 1 : ℕ) : ZMod n))).2) = .ok false := by
        rw [chain_match_back hsc hℓ1, ch_last_true,
          decide_eq_false (fun hc => absurd ((near_vertex_iff hsep _ _).mp hc) hBC)]
      simp only [h3, except_bind_ok]
      rw [if_neg Bool.false_ne_true]
      have h4 : sc_match_back M sc (some (v (i + (ℓ : ZMod n))).1)
          (some (v (i + (ℓ : ZMod n))).2) = .ok true := by
        rw [chain_match_back hsc hℓ1, ch_last_true, decide_eq_true (nearPt_refl _)]
      simp only [h4, except_bind_ok]
      rw [if_pos trivial]
      unfold sc_merge_back
      rw [Bool.not_true, if_neg Bool.false_ne_true, hnew, chain_segs_one_false, hC1]
      rw [show ([Entity.line (v (i + ((ℓ + 1 : ℕ) : ZMod n))) (v (i + (ℓ : ZMod n)))] :
        List Entity).reverse = [Entity.line (v (i + ((ℓ + 1 : ℕ) : ZMod n)))
          (v (i + (ℓ : ZMod n)))] from rfl]
      rw [List.foldlM_cons]
      rw [show (do
          let e2 ← flip_entity (Entity.line (v (i + ((ℓ + 1 : ℕ) : ZMod n)))
            (v (i + (ℓ : ZMod n))))
          sc_push_back M sc e2) = sc_push_back M sc (Entity.line (v (i + (ℓ : ZMod n)))
            (v (i + ((ℓ + 1 : ℕ) : ZMod n)))) from rfl]
      rcases @sc_push_back_line_ok M sc (v (i + (ℓ : ZMod n)))
        (v (i + ((ℓ + 1 : ℕ) : ZMod n))) hclosed with ⟨sc2, hp, hs⟩
      simp only [hp, except_bind_ok, List.foldlM_nil]
      refine ⟨sc2, except_map_ok _ _, ?_⟩
      rcases run_up_head i ℓ with ⟨r1, hr1⟩
      have hvl := run_up_vlast ℓ i i r1 hr1
      rw [hs, hsc]
      unfold chain_segs chain_verts
      rw [if_pos rfl, if_pos rfl, hr1, ← hvl, ← path_segs_snoc, ← hr1, ← run_up_succ]
  | false =>
    obtain ⟨m, rfl⟩ : ∃ m, ℓ = m + 1 := ⟨ℓ - 1, by omega⟩
    have hrev := run_up_reverse_cons i m
    have hrev2 := run_up_reverse_cons i (m + 1)
    cases nb with
    | true =>
      rw [ch_last_true, Nat.cast_one, hC1] at hb
      rw [ch_head_true] at hf
      unfold try_elongate
      simp only [hb, except_bind_ok]
      have h1 : sc_match_front M sc (some (v (i + ((m + 1 + 1 : ℕ) : ZMod n))).1)
          (some (v (i + ((m + 1 + 1 : ℕ) : ZMod n))).2) = .ok false := by
        rw [chain_match_front hsc hℓ1, ch_head_false,
          decide_eq_false (fun hc => absurd ((near_vertex_iff hsep _ _).mp hc) hBC)]
      simp only [h1, except_bind_ok]
      rw [if_neg Bool.false_ne_true]
      simp only [hf, except_bind_ok]
      have h2 : sc_match_front M sc (some (v (i + ((m + 1 : ℕ) : ZMod n))).1)
          (some (v (i + ((m + 1 : ℕ) : ZMod n))).2) = .ok true := by
        rw [chain_match_front hsc hℓ1, ch_head_false, decide_eq_true (nearPt_refl _)]
      simp only [h2, except_bind_ok]
      rw [if_pos trivial]
      unfold sc_merge_front
      rw [Bool.not_true, if_neg Bool.false_ne_true, hnew, chain_segs_one_true, hC1,
        List.foldlM_cons]
      rw [show (do
          let e2 ← flip_entity (Entity.line (v (i + ((m + 1 : ℕ) : ZMod n)))
            (v (i + ((m + 1 + 1 : ℕ) : ZMod n))))
          sc_push_front M sc e2) = sc_push_front M sc
            (Entity.line (v (i + ((m + 1 + 1 : ℕ) : ZMod n)))
              (v (i + ((m + 1 : ℕ) : ZMod n)))) from rfl]
      rcases @sc_push_front_line_ok M sc (v (i + ((m + 1 + 1 : ℕ) : ZMod n)))
        (v (i + ((m + 1 : ℕ) : ZMod n))) hclosed with ⟨sc2, hp, hs⟩
      simp only [hp, except_bind_ok, List.foldlM_nil]
      refine ⟨sc2, except_map_ok _ _, ?_⟩
      rw [hs, hsc]
      unfold chain_segs chain_verts
      rw [if_neg Bool.false_ne_true, if_neg Bool.false_ne_true, hrev2, hrev,
        ← path_segs_cons₂]
    | false =>
      rw [ch_last_false] at hb
      rw [ch_head_false, Nat.cast_one, hC1] at hf
      unfold try_elongate
      simp only [hb, except_bind_ok]
      have h1 : sc_match_front M sc (some (v (i + ((m + 1 : ℕ) : ZMod n))).1)
          (some (v (i + ((m + 1 : ℕ) : ZMod n))).2) = .ok true := by
        rw [chain_match_front hsc hℓ1, ch_head_false, decide_eq_true (nearPt_refl _)]
      simp only [h1, except_bind_ok]
      rw [if_pos trivial]
      unfold sc_merge_front
      rw [Bool.not_false, if_pos rfl, hnew, chain_segs_one_false, hC1]
      rw [show ([Entity.line (v (i + ((m + 1 + 1 : ℕ) : ZMod n)))
          (v (i + ((m + 1 : ℕ) : ZMod n)))] : List Entity).reverse =
        [Entity.line (v (i + ((m + 1 + 1 : ℕ) : ZMod n)))
          (v (i + ((m + 1 : ℕ) : ZMod n)))] from rfl]
      rw [List.foldlM_cons]
      rcases @sc_push_front_line_ok M sc (v (i + ((m + 1 + 1 : ℕ) : ZMod n)))
        (v (i + ((m + 1 : ℕ) : ZMod n))) hclosed with ⟨sc2, hp, hs⟩
      simp only [hp, except_bind_ok, List.foldlM_nil]
      refine ⟨sc2, except_map_ok _ _, ?_⟩
      rw [hs, hsc]
      unfold chain_segs chain_verts
      rw [if_neg Bool.false_ne_true, if_neg Bool.false_ne_true, hrev2, hrev,
        ← path_segs_cons₂]

theorem elong_left {n : ℕ} {v : ZMod n → Pt} {M : FloatModel} {sc nsc : SubContour}
    {i j : ZMod n} {ℓ : ℕ} {d nb : Bool}
    (hsep : ∀ a b : ZMod n, a ≠ b → ¬ nearPt (v a) (v b))
    (hsc : sc.segments = chain_segs n v i ℓ d)
    (hnew : nsc.segments = chain_segs n v j 1 nb)
    (hij : j + 1 = i) (hnc : i + (ℓ : ZMod n) ≠ j)
    (hℓ1 : 1 ≤ ℓ) (hℓn : ℓ + 1 ≤ n - 1) (hn : 3 ≤ n) :
    ∃ sc2, try_elongate M sc nsc = .ok (some sc2) ∧
      sc2.segments = chain_segs n v j (ℓ + 1) d := by
  have h10 : (1 : ZMod n) ≠ 0 := by
    have h := zmod_natCast_ne_zero (le_refl 1) (show 1 < n by omega)
    rwa [Nat.cast_one] at h
  have hji : i ≠ j := by
    intro h
    rw [← h] at hij
    exact h10 (by rwa [add_right_eq_self] at hij)
  have hAB : i ≠ i + (ℓ : ZMod n) := zmod_self_ne_shift i hℓ1 (by omega)
  have hclosed : sc_is_closed M sc = .ok false := chain_not_closed hsep hsc hℓ1 (by omega)
  have hb := @chain_back n v M nsc j 1 nb hnew (le_refl 1)
  have hf := @chain_front n v M nsc j 1 nb hnew (le_refl 1)
  have hrun : run_up n j (ℓ + 1) = j :: run_up n i ℓ := by
    rw [run_up_cons, hij]
  cases d with
  | true =>
    cases nb with
    | true =>
      rw [ch_last_true, Nat.cast_one, hij] at hb
      rw [ch_head_true] at hf
      unfold try_elongate
      simp only [hb, except_bind_ok]
      have h1 : sc_match_front M sc (some (v i).1) (some (v i).2) = .ok true := by
        rw [chain_match_front hsc hℓ1, ch_head_true, decide_eq_true (nearPt_refl _)]
      simp only [h1, except_bind_ok]
      rw [if_pos trivial]
      unfold sc_merge_front
      rw [Bool.not_false, if_pos rfl, hnew, chain_segs_one_true, hij]
      rw [show ([Entity.line (v j) (v i)] : List Entity).reverse =
        [Entity.line (v j) (v i)] from rfl]
      rw [List.foldlM_cons]
      rcases @sc_push_front_line_ok M sc (v j) (v i) hclosed with ⟨sc2, hp, hs⟩
      simp only [hp, except_bind_ok, List.foldlM_nil]
      refine ⟨sc2, except_map_ok _ _, ?_⟩
      rcases run_up_head i ℓ with ⟨r1, hr1⟩
      rw [hs, hsc]
      unfold chain_segs chain_verts
      rw [if_pos rfl, if_pos rfl, hrun, hr1, ← path_segs_cons₂]
    | false =>
      rw [ch_last_false] at hb
      rw [ch_head_false, Nat.cast_one, hij] at hf
      unfold try_elongate
      simp only [hb, except_bind_ok]
      have h1 : sc_match_front M sc (some (v j).1) (some (v j).2) = .ok false := by
        rw [chain_match_front hsc hℓ1, ch_head_true,
          decide_eq_false (fun hc => absurd ((near_vertex_iff hsep _ _).mp hc) hji)]
      simp only [h1, except_bind_ok]
      rw [if_neg Bool.false_ne_true]
      simp only [hf, except_bind_ok]
      have h2 : sc_match_front M sc (some (v i).1) (some (v i).2) = .ok true := by
        rw [chain_match_front hsc hℓ1, ch_head_true, decide_eq_true (nearPt_refl _)]
      simp only [h2, except_bind_ok]
      rw [if_pos trivial]
      unfold sc_merge_front
      rw [Bool.not_true, if_neg Bool.false_ne_true, hnew, chain_segs_one_false, hij]
      rw [List.foldlM_cons]
      rw [show (do
          let e2 ← flip_entity (Entity.line (v i) (v j))
          sc_push_front M sc e2) = sc_push_front M sc (Entity.line (v j) (v i)) from rfl]
      rcases @sc_push_front_line_ok M sc (v j) (v i) hclosed with ⟨sc2, hp, hs⟩
      simp only [hp, except_bind_ok, List.foldlM_nil]
      refine ⟨sc2, except_map_ok _ _, ?_⟩
      rcases run_up_head i ℓ with ⟨r1, hr1⟩
      rw [hs, hsc]
      unfold chain_segs chain_verts
      rw [if_pos rfl, if_pos rfl, hrun, hr1, ← path_segs_cons₂]
  | false =>
    rcases chain_verts_cons i false hℓ1 with ⟨r, hr0, hne0, hv0⟩
    rw [ch_head_false] at hr0 hv0
    rw [ch_last_false] at hv0
    have hr1 : (run_up n i ℓ).reverse = (i + (ℓ : ZMod n)) :: r := by
      rw [← hr0]
      unfold chain_verts
      rw [if_neg Bool.false_ne_true]
    have hsnoc := path_segs_snoc v r (i + (ℓ : ZMod n)) j
    rw [hv0] at hsnoc
    have hrn : (run_up n j (ℓ + 1)).reverse = (run_up n i ℓ).reverse ++ [j] := by
      rw [hrun, List.reverse_cons]
    cases nb with
    | true =>
      rw [ch_last_true, Nat.cast_one, hij] at hb
      rw [ch_head_true] at hf
      unfold try_elongate
      simp only [hb, except_bind_ok]
      have h1 : sc_match_front M sc (some (v i).1) (some (v i).2) = .ok false := by
        rw [chain_match_front hsc hℓ1, ch_head_false,
          decide_eq_false (fun hc => absurd ((near_vertex_iff hsep _ _).mp hc) hAB.symm)]
      simp only [h1, except_bind_ok]
      rw [if_neg Bool.false_ne_true]
      simp only [hf, except_bind_ok]
      have h2 : sc_match_front M sc (some (v j).1) (some (v j).2) = .ok false := by
        rw [chain_match_front hsc hℓ1, ch_head_false,
          decide_eq_false (fun hc => absurd ((near_vertex_iff hsep _ _).mp hc) hnc)]
      simp only [h2, except_bind_ok]
      rw [if_neg Bool.false_ne_true]
      have h3 : sc_match_back M sc (some (v j).1) (some (v j).2) = .ok false := by
        rw [chain_match_back hsc hℓ1, ch_last_false,
          decide_eq_false (fun hc => absurd ((near_vertex_iff hsep _ _).mp hc) hji)]
      simp only [h3, except_bind_ok]
      rw [if_neg Bool.false_ne_true]
      have h4 : sc_match_back M sc (some (v i).1) (some (v i).2) = .ok true := by
        rw [chain_match_back hsc hℓ1, ch_last_false, decide_eq_true (nearPt_refl _)]
      simp only [h4, except_bind_ok]
      rw [if_pos trivial]
      unfold sc_merge_back
      rw [Bool.not_true, if_neg Bool.false_ne_true, hnew, chain_segs_one_true, hij]
      rw [show ([Entity.line (v j) (v i)] : List Entity).reverse =
        [Entity.line (v j) (v i)] from rfl]
      rw [List.foldlM_cons]
      rw [show (do
          let e2 ← flip_entity (Entity.line (v j) (v i))
          sc_push_back M sc e2) = sc_push_back M sc (Entity.line (v i) (v j)) from rfl]
      rcases @sc_push_back_line_ok M sc (v i) (v j) hclosed with ⟨sc2, hp, hs⟩
      simp only [hp, except_bind_ok, List.foldlM_nil]
      refine ⟨sc2, except_map_ok _ _, ?_⟩
      rw [hs, hsc]
      unfold chain_segs chain_verts
      rw [if_neg Bool.false_ne_true, if_neg Bool.false_ne_true, hrn, hr1, ← hsnoc]
    | false =>
      rw [ch_last_false] at hb
      rw [ch_head_false, Nat.cast_one, hij] at hf
      unfold try_elongate
      simp only [hb, except_bind_ok]
      have h1 : sc_match_front M sc (some (v j).1) (some (v j).2) = .ok false := by
        rw [chain_match_front hsc hℓ1, ch_head_false,
          decide_eq_false (fun hc => absurd ((near_vertex_iff hsep _ _).mp hc) hnc)]
      simp only [h1, except_bind_ok]
      rw [if_neg Bool.false_ne_true]
      simp only [hf, except_bind_ok]
      have h2 : sc_match_front M sc (some (v i).1) (some (v i).2) = .ok false := by
        rw [chain_match_front hsc hℓ1, ch_head_false,
          decide_eq_false (fun hc => absurd ((near_vertex_iff hsep _ _).mp hc) hAB.symm)]
      simp only [h2, except_bind_ok]
      rw [if_neg Bool.false_ne_true]
      have h3 : sc_match_back M sc (some (v i).1) (some (v i).2) = .ok true := by
        rw [chain_match_back hsc hℓ1, ch_last_false, decide_eq_true (nearPt_refl _)]
      simp only [h3, except_bind_ok]
      rw [if_pos trivial]
      unfold sc_merge_back
      rw [Bool.not_false, if_pos rfl, hnew, chain_segs_one_false, hij, List.foldlM_cons]
      rcases @sc_push_back_line_ok M sc (v i) (v j) hclosed with ⟨sc2, hp, hs⟩
      simp only [hp, except_bind_ok, List.foldlM_nil]
      refine ⟨sc2, except_map_ok _ _, ?_⟩
      rw [hs, hsc]
      unfold chain_segs chain_verts
      rw [if_neg Bool.false_ne_true, if_neg Bool.false_ne_true, hrn, hr1, ← hsnoc]

/-- The segment list of the fully closed cycle rooted at `s`, ascending
(`d = true`) or descending. -/
def cyc_segs (n : ℕ) (v : ZMod n → Pt) (s : ZMod n) (d : Bool) : List Entity :=
  if d then path_segs n v (run_up n s n) else path_segs n v ((run_up n s n).reverse)

theorem elong_close {n : ℕ} {v : ZMod n → Pt} {M : FloatModel} {sc nsc : SubContour}
    {i j : ZMod n} {d nb : Bool}
    (hsep : ∀ a b : ZMod n, a ≠ b → ¬ nearPt (v a) (v b))
    (hsc : sc.segments = chain_segs n v i (n - 1) d)
    (hnew : nsc.segments = chain_segs n v j 1 nb)
    (hij : j + 1 = i) (hn : 3 ≤ n) :
    ∃ sc2, try_elongate M sc nsc = .ok (some sc2) ∧
      sc2.segments = cyc_segs n v (if d then j else i) d := by
  have hℓ1 : 1 ≤ n - 1 := by omega
  have h10 : (1 : ZMod n) ≠ 0 := by
    have h := zmod_natCast_ne_zero (le_refl 1) (show 1 < n by omega)
    rwa [Nat.cast_one] at h
  have hji : i ≠ j := by
    intro h
    rw [← h] at hij
    exact h10 (by rwa [add_right_eq_self] at hij)
  have hnj : i + ((n - 1 : ℕ) : ZMod n) = j := by
    have hcast : ((n - 1 : ℕ) : ZMod n) = ((n : ℕ) : ZMod n) - 1 := by
      rw [Nat.cast_sub (by omega : 1 ≤ n), Nat.cast_one]
    rw [hcast, ZMod.natCast_self, ← hij]
    ring
  have hclosed : sc_is_closed M sc = .ok false := chain_not_closed hsep hsc hℓ1 (by omega)
  have hb := @chain_back n v M nsc j 1 nb hnew (le_refl 1)
  have hf := @chain_front n v M nsc j 1 nb hnew (le_refl 1)
  have hn1 : n - 1 + 1 = n := by omega
  cases d with
  | true =>
    have hrun : run_up n j n = j :: run_up n i (n - 1) := by
      have h := run_up_cons j (n - 1)
      rw [hn1] at h
      rw [h, hij]
    rcases run_up_head i (n - 1) with ⟨r1, hr1⟩
    have hfin : ∀ sc2 : SubContour,
        sc2.segments = Entity.line (v j) (v i) :: sc.segments →
        sc2.segments = cyc_segs n v (if true then j else i) true := by
      intro sc2 hs
      rw [hs, hsc]
      unfold cyc_segs chain_segs chain_verts
      rw [if_pos rfl, if_pos rfl, if_pos rfl, hrun, hr1, ← path_segs_cons₂]
    cases nb with
    | true =>
      rw [ch_last_true, Nat.cast_one, hij] at hb
      unfold try_elongate
      simp only [hb, except_bind_ok]
      have h1 : sc_match_front M sc (some (v i).1) (some (v i).2) = .ok true := by
        rw [chain_match_front hsc hℓ1, ch_head_true, decide_eq_true (nearPt_refl _)]
      simp only [h1, except_bind_ok]
      rw [if_pos trivial]
      unfold sc_merge_front
      rw [Bool.not_false, if_pos rfl, hnew, chain_segs_one_true, hij]
      rw [show ([Entity.line (v j) (v i)] : List Entity).reverse =
        [Entity.line (v j) (v i)] from rfl]
      rw [List.foldlM_cons]
      rcases @sc_push_front_line_ok M sc (v j) (v i) hclosed with ⟨sc2, hp, hs⟩
      simp only [hp, except_bind_ok, List.foldlM_nil]
      exact ⟨sc2, except_map_ok _ _, hfin sc2 hs⟩
    | false =>
      rw [ch_last_false] at hb
      rw [ch_head_false, Nat.cast_one, hij] at hf
      unfold try_elongate
      simp only [hb, except_bind_ok]
      have h1 : sc_match_front M sc (some (v j).1) (some (v j).2) = .ok false := by
        rw [chain_match_front hsc hℓ1, ch_head_true,
          decide_eq_false (fun hc => absurd ((near_vertex_iff hsep _ _).mp hc) hji)]
      simp only [h1, except_bind_ok]
      rw [if_neg Bool.false_ne_true]
      simp only [hf, except_bind_ok]
      have h2 : sc_match_front M sc (some (v i).1) (some (v i).2) = .ok true := by
        rw [chain_match_front hsc hℓ1, ch_head_true, decide_eq_true (nearPt_refl _)]
      simp only [h2, except_bind_ok]
      rw [if_pos trivial]
      unfold sc_merge_front
      rw [Bool.not_true, if_neg Bool.false_ne_true, hnew, chain_segs_one_false, hij,
        List.foldlM_cons]
      rw [show (do
          let e2 ← flip_entity (Entity.line (v i) (v j))
          sc_push_front M sc e2) = sc_push_front M sc (Entity.line (v j) (v i)) from rfl]
      rcases @sc_push_front_line_ok M sc (v j) (v i) hclosed with ⟨sc2, hp, hs⟩
      simp only [hp, except_bind_ok, List.foldlM_nil]
      exact ⟨sc2, except_map_ok _ _, hfin sc2 hs⟩
  | false =>
    have hn2 : n - 2 + 1 = n - 1 := by omega
    have hrev1 : (run_up n i (n - 1)).reverse = j :: (run_up n i (n - 2)).reverse := by
      rw [← hn2, run_up_reverse_cons, hn2, hnj]
    have hrevn : (run_up n i n).reverse = i :: (run_up n i (n - 1)).reverse := by
      have hi : i + ((n : ℕ) : ZMod n) = i := by rw [ZMod.natCast_self, add_zero]
      have h := run_up_reverse_cons i (n - 1)
      rw [hn1] at h
      rw [h, hi]
    have hfin : ∀ sc2 : SubContour,
        sc2.segments = Entity.line (v i) (v j) :: sc.segments →
        sc2.segments = cyc_segs n v (if false then j else i) false := by
      intro sc2 hs
      rw [hs, hsc]
      unfold cyc_segs chain_segs chain_verts
      rw [if_neg Bool.false_ne_true, if_neg Bool.false_ne_true, if_neg Bool.false_ne_true,
        hrevn, hrev1, ← path_segs_cons₂]
    cases nb with
    | true =>
      rw [ch_last_true, Nat.cast_one, hij] at hb
      rw [ch_head_true] at hf
      unfold try_elongate
      simp only [hb, except_bind_ok]
      have h1 : sc_match_front M sc (some (v i).1) (some (v i).2) = .ok false := by
        rw [chain_match_front hsc hℓ1, ch_head_false, hnj,
          decide_eq_false (fun hc => absurd ((near_vertex_iff hsep _ _).mp hc) hji.symm)]
      simp only [h1, except_bind_ok]
      rw [if_neg Bool.false_ne_true]
      simp only [hf, except_bind_ok]
      have h2 : sc_match_front M sc (some (v j).1) (some (v j).2) = .ok true := by
        rw [chain_match_front hsc hℓ1, ch_head_false, hnj, decide_eq_true (nearPt_refl _)]
      simp only [h2, except_bind_ok]
      rw [if_pos trivial]
      unfold sc_merge_front
      rw [Bool.not_true, if_neg Bool.false_ne_true, hnew, chain_segs_one_true, hij,
        List.foldlM_cons]
      rw [show (do
          let e2 ← flip_entity (Entity.line (v j) (v i))
          sc_push_front M sc e2) = sc_push_front M sc (Entity.line (v i) (v j)) from rfl]
      rcases @sc_push_front_line_ok M sc (v i) (v j) hclosed with ⟨sc2, hp, hs⟩
      simp only [hp, except_bind_ok, List.foldlM_nil]
      exact ⟨sc2, except_map_ok _ _, hfin sc2 hs⟩
    | false =>
      rw [ch_last_false] at hb
      unfold try_elongate
      simp only [hb, except_bind_ok]
      have h1 : sc_match_front M sc (some (v j).1) (some (v j).2) = .ok true := by
        rw [chain_match_front hsc hℓ1, ch_head_false, hnj, decide_eq_true (nearPt_refl _)]
      simp only [h1, except_bind_ok]
      rw [if_pos trivial]
      unfold sc_merge_front
      rw [Bool.not_false, if_pos rfl, hnew, chain_segs_one_false, hij]
      rw [show ([Entity.line (v i) (v j)] : List Entity).reverse =
        [Entity.line (v i) (v j)] from rfl]
      rw [List.foldlM_cons]
      rcases @sc_push_front_line_ok M sc (v i) (v j) hclosed with ⟨sc2, hp, hs⟩
      simp only [hp, except_bind_ok, List.foldlM_nil]
      exact ⟨sc2, except_map_ok _ _, hfin sc2 hs⟩

theorem elong_none {n : ℕ} {v : ZMod n → Pt} {M : FloatModel} {sc nsc : SubContour}
    {i k : ZMod n} {ℓ : ℕ} {d nb : Bool}
    (hsep : ∀ a b : ZMod n, a ≠ b → ¬ nearPt (v a) (v b))
    (hsc : sc.segments = chain_segs n v i ℓ d)
    (hnew : nsc.segments = chain_segs n v k 1 nb)
    (hℓ1 : 1 ≤ ℓ)
    (hh1 : ch_head i ℓ d ≠ k) (hh2 : ch_head i ℓ d ≠ k + 1)
    (hl1 : ch_last i ℓ d ≠ k) (hl2 : ch_last i ℓ d ≠ k + 1) :
    try_elongate M sc nsc = .ok none := by
  have hb := @chain_back n v M nsc k 1 nb hnew (le_refl 1)
  have hf := @chain_front n v M nsc k 1 nb hnew (le_refl 1)
  cases nb with
  | true =>
    rw [ch_last_true, Nat.cast_one] at hb
    rw [ch_head_true] at hf
    unfold try_elongate
    simp only [hb, except_bind_ok]
    have h1 : sc_match_front M sc (some (v (k + 1)).1) (some (v (k + 1)).2) = .ok false := by
      rw [chain_match_front hsc hℓ1,
        decide_eq_false (fun hc => absurd ((near_vertex_iff hsep _ _).mp hc) hh2)]
    simp only [h1, except_bind_ok]
    rw [if_neg Bool.false_ne_true]
    simp only [hf, except_bind_ok]
    have h2 : sc_match_front M sc (some (v k).1) (some (v k).2) = .ok false := by
      rw [chain_match_front hsc hℓ1,
        decide_eq_false (fun hc => absurd ((near_vertex_iff hsep _ _).mp hc) hh1)]
    simp only [h2, except_bind_ok]
    rw [if_neg Bool.false_ne_true]
    have h3 : sc_match_back M sc (some (v k).1) (some (v k).2) = .ok false := by
      rw [chain_match_back hsc hℓ1,
        decide_eq_false (fun hc => absurd ((near_vertex_iff hsep _ _).mp hc) hl1)]
    simp only [h3, except_bind_ok]
    rw [if_neg Bool.false_ne_true]
    have h4 : sc_match_back M sc (some (v (k + 1)).1) (some (v (k + 1)).2) = .ok false := by
      rw [chain_match_back hsc hℓ1,
        decide_eq_false (fun hc => absurd ((near_vertex_iff hsep _ _).mp hc) hl2)]
    simp only [h4, except_bind_ok]
    rw [if_neg Bool.false_ne_true]
    rfl
  | false =>
    rw [ch_last_false] at hb
    rw [ch_head_false, Nat.cast_one] at hf
    unfold try_elongate
    simp only [hb, except_bind_ok]
    have h1 : sc_match_front M sc (some (v k).1) (some (v k).2) = .ok false := by
      rw [chain_match_front hsc hℓ1,
        decide_eq_false (fun hc => absurd ((near_vertex_iff hsep _ _).mp hc) hh1)]
    simp only [h1, except_bind_ok]
    rw [if_neg Bool.false_ne_true]
    simp only [hf, except_bind_ok]
    have h2 : sc_match_front M sc (some (v (k + 1)).1) (some (v (k + 1)).2) = .ok false := by
      rw [chain_match_front hsc hℓ1,
        decide_eq_false (fun hc => absurd ((near_vertex_iff hsep _ _).mp hc) hh2)]
    simp only [h2, except_bind_ok]
    rw [if_neg Bool.false_ne_true]
    have h3 : sc_match_back M sc (some (v (k + 1)).1) (some (v (k + 1)).2) = .ok false := by
      rw [chain_match_back hsc hℓ1,
        decide_eq_false (fun hc => absurd ((near_vertex_iff hsep _ _).mp hc) hl2)]
    simp only [h3, except_bind_ok]
    rw [if_neg Bool.false_ne_true]
    have h4 : sc_match_back M sc (some (v k).1) (some (v k).2) = .ok false := by
      rw [chain_match_back hsc hℓ1,
        decide_eq_false (fun hc => absurd ((near_vertex_iff hsep _ _).mp hc) hl1)]
    simp only [h4, except_bind_ok]
    rw [if_neg Bool.false_ne_true]
    rfl

theorem flip_line_flip_line (e : Entity) : flip_line (flip_line e) = e := by
  cases e <;> rfl

theorem path_map_flip {n : ℕ} (v : ZMod n → Pt) (a : ZMod n) (r : List (ZMod n)) :
    (path_segs n v (a :: r)).map flip_line = (path_segs n v ((a :: r).reverse)).reverse := by
  rw [path_segs_reverse, List.map_reverse, List.reverse_reverse]

theorem merge_back_false_eq {M : FloatModel} (scE scD : SubContour) :
    sc_merge_back M scE scD false =
      scD.segments.foldlM (fun acc e => sc_push_back M acc e) scE := by
  unfold sc_merge_back
  rw [Bool.not_false, if_pos rfl]

theorem merge_back_true_eq {n : ℕ} {v : ZMod n → Pt} {M : FloatModel} {scE scD : SubContour}
    (y0 : ZMod n) (yr : List (ZMod n)) (hD : scD.segments = path_segs n v (y0 :: yr)) :
    sc_merge_back M scE scD true =
      (path_segs n v ((y0 :: yr).reverse)).foldlM (fun acc e => sc_push_back M acc e) scE := by
  unfold sc_merge_back
  rw [Bool.not_true, if_neg Bool.false_ne_true]
  rw [foldlM_flip_push_back scD.segments.reverse scE (fun e he =>
    path_segs_lines v (y0 :: yr) e (by rw [← hD]; exact (List.mem_reverse).mp he))]
  rw [hD, ← path_segs_reverse]

theorem merge_front_false_eq {M : FloatModel} (scE scD : SubContour) :
    sc_merge_front M scE scD false =
      scD.segments.reverse.foldlM (fun acc e => sc_push_front M acc e) scE := by
  unfold sc_merge_front
  rw [Bool.not_false, if_pos rfl]

theorem merge_front_true_eq {n : ℕ} {v : ZMod n → Pt} {M : FloatModel} {scE scD : SubContour}
    (y0 : ZMod n) (yr : List (ZMod n)) (hD : scD.segments = path_segs n v (y0 :: yr)) :
    sc_merge_front M scE scD true =
      (path_segs n v ((y0 :: yr).reverse)).reverse.foldlM
        (fun acc e => sc_push_front M acc e) scE := by
  unfold sc_merge_front
  rw [Bool.not_true, if_neg Bool.false_ne_true]
  rw [foldlM_flip_push_front scD.segments scE (fun e he =>
    path_segs_lines v (y0 :: yr) e (by rw [← hD]; exact he))]
  rw [hD, path_map_flip]

theorem stitch_right {n : ℕ} {v : ZMod n → Pt} {M : FloatModel} {scE scD : SubContour}
    {i : ZMod n} {ℓ ℓD : ℕ} {d dD : Bool}
    (hsep : ∀ a b : ZMod n, a ≠ b → ¬ nearPt (v a) (v b))
    (hE : scE.segments = chain_segs n v i ℓ d)
    (hD : scD.segments = chain_segs n v (i + (ℓ : ZMod n)) ℓD dD)
    (hℓ1 : 1 ≤ ℓ) (hD1 : 1 ≤ ℓD) (hsum : ℓ + ℓD ≤ n - 1) (hn : 3 ≤ n) :
    ∃ sc2, try_stitch M scE scD = .ok (some sc2) ∧
      sc2.segments = chain_segs n v i (ℓ + ℓD) d := by
  have hz : i + (ℓ : ZMod n) + ((ℓD : ℕ) : ZMod n) = i + ((ℓ + ℓD : ℕ) : ZMod n) := by
    push_cast
    ring
  have hiw : i ≠ i + (ℓ : ZMod n) := zmod_self_ne_shift i hℓ1 (by omega)
  have hiz : i ≠ i + ((ℓ + ℓD : ℕ) : ZMod n) := zmod_self_ne_shift i (by omega) (by omega)
  have hwz : i + (ℓ : ZMod n) ≠ i + ((ℓ + ℓD : ℕ) : ZMod n) :=
    zmod_shift_ne i ℓ (ℓ + ℓD) (by omega) (by omega) (by omega)
  have hDf := @chain_front n v M scD (i + (ℓ : ZMod n)) ℓD dD hD hD1
  have hDb := @chain_back n v M scD (i + (ℓ : ZMod n)) ℓD dD hD hD1
  rcases run_up_head (i + (ℓ : ZMod n)) ℓD with ⟨t2, ht2⟩
  have hrun1 : run_up n i (ℓ + ℓD) = run_up n i ℓ ++ t2 := run_up_concat i ℓ ℓD t2 ht2
  cases d with
  | true =>
    rcases run_up_head i ℓ with ⟨r1, hr1⟩
    have hvl1 := run_up_vlast ℓ i i r1 hr1
    have hself : scE.segments = path_segs n v (i :: r1) := by
      rw [hE]
      unfold chain_segs chain_verts
      rw [if_pos rfl, hr1]
    have hr1ne : r1 ≠ [] := by
      have hlen := run_up_length i ℓ
      rw [hr1] at hlen
      intro hc
      rw [hc] at hlen
      simp at hlen
      omega
    have hnd : (i :: (r1 ++ t2)).Nodup := by
      have h := @run_up_nodup n i (ℓ + ℓD) (by omega)
      rw [hrun1, hr1, List.cons_append] at h
      exact h
    rcases core_fold_back hsep t2 scE i r1 hself hr1ne hnd with ⟨sc2, hf, hs⟩
    rw [hvl1] at hf
    have hseg2 : sc2.segments = chain_segs n v i (ℓ + ℓD) true := by
      rw [hs]
      unfold chain_segs chain_verts
      rw [if_pos rfl, hrun1, hr1, List.cons_append]
    cases dD with
    | true =>
      rw [ch_head_true] at hDf
      rw [ch_last_true, hz] at hDb
      unfold try_stitch
      simp only [hDf, except_bind_ok]
      have h1 : sc_match_front M scE (some (v (i + (ℓ : ZMod n))).1)
          (some (v (i + (ℓ : ZMod n))).2) = .ok false := by
        rw [chain_match_front hE hℓ1, ch_head_true,
          decide_eq_false (fun hc => absurd ((near_vertex_iff hsep _ _).mp hc) hiw)]
      simp only [h1, except_bind_ok]
      rw [if_neg Bool.false_ne_true]
      simp only [hDb, except_bind_ok]
      have h2 : sc_match_front M scE (some (v (i + ((ℓ + ℓD : ℕ) : ZMod n))).1)
          (some (v (i + ((ℓ + ℓD : ℕ) : ZMod n))).2) = .ok false := by
        rw [chain_match_front hE hℓ1, ch_head_true,
          decide_eq_false (fun hc => absurd ((near_vertex_iff hsep _ _).mp hc) hiz)]
      simp only [h2, except_bind_ok]
      rw [if_neg Bool.false_ne_true]
      have h3 : sc_match_back M scE (some (v (i + (ℓ : ZMod n))).1)
          (some (v (i + (ℓ : ZMod n))).2) = .ok true := by
        rw [chain_match_back hE hℓ1, ch_last_true, decide_eq_true (nearPt_refl _)]
      simp only [h3, except_bind_ok]
      rw [if_pos trivial]
      rw [merge_back_false_eq]
      have hDp : scD.segments = path_segs n v ((i + (ℓ : ZMod n)) :: t2) := by
        rw [hD]
        unfold chain_segs chain_verts
        rw [if_pos rfl, ht2]
      rw [hDp, hf]
      exact ⟨sc2, except_map_ok _ _, hseg2⟩
    | false =>
      rcases chain_verts_cons (i + (ℓ : ZMod n)) false hD1 with ⟨rr, hrr0, hrrne, hvrr⟩
      rw [ch_head_false, hz] at hrr0 hvrr
      rw [ch_last_false] at hvrr
      have hDrev : (run_up n (i + (ℓ : ZMod n)) ℓD).reverse =
          (i + ((ℓ + ℓD : ℕ) : ZMod n)) :: rr := by
        rw [← hrr0]
        unfold chain_verts
        rw [if_neg Bool.false_ne_true]
      rw [ch_head_false, hz] at hDf
      rw [ch_last_false] at hDb
      unfold try_stitch
      simp only [hDf, except_bind_ok]
      have h1 : sc_match_front M scE (some (v (i + ((ℓ + ℓD : ℕ) : ZMod n))).1)
          (some (v (i + ((ℓ + ℓD : ℕ) : ZMod n))).2) = .ok false := by
        rw [chain_match_front hE hℓ1, ch_head_true,
          decide_eq_false (fun hc => absurd ((near_vertex_iff hsep _ _).mp hc) hiz)]
      simp only [h1, except_bind_ok]
      rw [if_neg Bool.false_ne_true]
      simp only [hDb, except_bind_ok]
      have h2 : sc_match_front M scE (some (v (i + (ℓ : ZMod n))).1)
          (some (v (i + (ℓ : ZMod n))).2) = .ok false := by
        rw [chain_match_front hE hℓ1, ch_head_true,
          decide_eq_false (fun hc => absurd ((near_vertex_iff hsep _ _).mp hc) hiw)]
      simp only [h2, except_bind_ok]
      rw [if_neg Bool.false_ne_true]
      have h3 : sc_match_back M scE (some (v (i + ((ℓ + ℓD : ℕ) : ZMod n))).1)
          (some (v (i + ((ℓ + ℓD : ℕ) : ZMod n))).2) = .ok false := by
        rw [chain_match_back hE hℓ1, ch_last_true,
          decide_eq_false (fun hc => absurd ((near_vertex_iff hsep _ _).mp hc) hwz)]
      simp only [h3, except_bind_ok]
      rw [if_neg Bool.false_ne_true]
      have h4 : sc_match_back M scE (some (v (i + (ℓ : ZMod n))).1)
          (some (v (i + (ℓ : ZMod n))).2) = .ok true := by
        rw [chain_match_back hE hℓ1, ch_last_true, decide_eq_true (nearPt_refl _)]
      simp only [h4, except_bind_ok]
      rw [if_pos trivial]
      have hDp : scD.segments =
          path_segs n v ((i + ((ℓ + ℓD : ℕ) : ZMod n)) :: rr) := by
        rw [hD]
        unfold chain_segs chain_verts
        rw [if_neg Bool.false_ne_true, hDrev]
      rw [merge_back_true_eq (i + ((ℓ + ℓD : ℕ) : ZMod n)) rr hDp, ← hDrev,
        List.reverse_reverse, ht2, hf]
      exact ⟨sc2, except_map_ok _ _, hseg2⟩
  | false =>
    rcases chain_verts_cons i false hℓ1 with ⟨rE, hrE0, hrEne, hvE⟩
    rw [ch_head_false] at hrE0 hvE
    rw [ch_last_false] at hvE
    have hrE : (run_up n i ℓ).reverse = (i + (ℓ : ZMod n)) :: rE := by
      rw [← hrE0]
      unfold chain_verts
      rw [if_neg Bool.false_ne_true]
    have hself : scE.segments = path_segs n v ((i + (ℓ : ZMod n)) :: rE) := by
      rw [hE]
      unfold chain_segs chain_verts
      rw [if_neg Bool.false_ne_true, hrE]
    have hlist : (i + (ℓ : ZMod n)) :: t2 ≠ [] := by simp
    have hglue : ((i + (ℓ : ZMod n)) :: t2).reverse ++ rE =
        (run_up n i (ℓ + ℓD)).reverse := by
      rw [hrun1, List.reverse_append, hrE, List.reverse_cons, List.append_assoc]
      rfl
    have hndrev : (((i + (ℓ : ZMod n)) :: t2).reverse ++ rE).Nodup := by
      rw [hglue]
      exact List.nodup_reverse.mpr (@run_up_nodup n i (ℓ + ℓD) (by omega))
    rcases reverse_cons_struct t2 (i + (ℓ : ZMod n)) with ⟨u, t3, hu, hvlu⟩
    have hndu : (u :: (t3 ++ rE)).Nodup := by
      have h := hndrev
      rw [hu, List.cons_append] at h
      exact h
    rcases core_fold_front hsep t3 u scE (i + (ℓ : ZMod n)) rE hself hvlu hrEne hndu
      with ⟨sc2, hf, hs⟩
    have hfold : (path_segs n v (((i + (ℓ : ZMod n)) :: t2).reverse)).reverse.foldlM
        (fun acc e => sc_push_front M acc e) scE = .ok sc2 := by
      rw [hu]
      exact hf
    have hseg2 : sc2.segments = chain_segs n v i (ℓ + ℓD) false := by
      rw [hs]
      unfold chain_segs chain_verts
      rw [if_neg Bool.false_ne_true, ← hglue, hu, List.cons_append]
    cases dD with
    | true =>
      rw [ch_head_true] at hDf
      unfold try_stitch
      simp only [hDf, except_bind_ok]
      have h1 : sc_match_front M scE (some (v (i + (ℓ : ZMod n))).1)
          (some (v (i + (ℓ : ZMod n))).2) = .ok true := by
        rw [chain_match_front hE hℓ1, ch_head_false, decide_eq_true (nearPt_refl _)]
      simp only [h1, except_bind_ok]
      rw [if_pos trivial]
      have hDp : scD.segments = path_segs n v ((i + (ℓ : ZMod n)) :: t2) := by
        rw [hD]
        unfold chain_segs chain_verts
        rw [if_pos rfl, ht2]
      rw [merge_front_true_eq (i + (ℓ : ZMod n)) t2 hDp, hfold]
      exact ⟨sc2, except_map_ok _ _, hseg2⟩
    | false =>
      rcases chain_verts_cons (i + (ℓ : ZMod n)) false hD1 with ⟨rr, hrr0, hrrne, hvrr⟩
      rw [ch_head_false, hz] at hrr0 hvrr
      rw [ch_last_false] at hvrr
      have hDrev : (run_up n (i + (ℓ : ZMod n)) ℓD).reverse =
          (i + ((ℓ + ℓD : ℕ) : ZMod n)) :: rr := by
        rw [← hrr0]
        unfold chain_verts
        rw [if_neg Bool.false_ne_true]
      rw [ch_head_false, hz] at hDf
      rw [ch_last_false] at hDb
      unfold try_stitch
      simp only [hDf, except_bind_ok]
      have h1 : sc_match_front M scE (some (v (i + ((ℓ + ℓD : ℕ) : ZMod n))).1)
          (some (v (i + ((ℓ + ℓD : ℕ) : ZMod n))).2) = .ok false := by
        rw [chain_match_front hE hℓ1, ch_head_false,
          decide_eq_false (fun hc => absurd ((near_vertex_iff hsep _ _).mp hc) hwz)]
      simp only [h1, except_bind_ok]
      rw [if_neg Bool.false_ne_true]
      simp only [hDb, except_bind_ok]
      have h2 : sc_match_front M scE (some (v (i + (ℓ : ZMod n))).1)
          (some (v (i + (ℓ : ZMod n))).2) = .ok true := by
        rw [chain_match_front hE hℓ1, ch_head_false, decide_eq_true (nearPt_refl _)]
      simp only [h2, except_bind_ok]
      rw [if_pos trivial]
      rw [merge_front_false_eq]
      have hDp2 : scD.segments.reverse =
          (path_segs n v ((run_up n (i + (ℓ : ZMod n)) ℓD).reverse)).reverse := by
        rw [hD]
        unfold chain_segs chain_verts
        rw [if_neg Bool.false_ne_true]
      rw [hDp2, ht2, hfold]
      exact ⟨sc2, except_map_ok _ _, hseg2⟩

theorem stitch_left {n : ℕ} {v : ZMod n → Pt} {M : FloatModel} {scE scD : SubContour}
    {i j : ZMod n} {ℓ ℓD : ℕ} {d dD : Bool}
    (hsep : ∀ a b : ZMod n, a ≠ b → ¬ nearPt (v a) (v b))
    (hE : scE.segments = chain_segs n v i ℓ d)
    (hD : scD.segments = chain_segs n v j ℓD dD)
    (hji : j + (ℓD : ZMod n) = i)
    (hℓ1 : 1 ≤ ℓ) (hD1 : 1 ≤ ℓD) (hsum : ℓD + ℓ ≤ n - 1) (hn : 3 ≤ n) :
    ∃ sc2, try_stitch M scE scD = .ok (some sc2) ∧
      sc2.segments = chain_segs n v j (ℓD + ℓ) d := by
  have hij : i ≠ j := by
    rw [← hji]
    exact (zmod_self_ne_shift j hD1 (by omega)).symm
  have hzj : i + (ℓ : ZMod n) = j + ((ℓD + ℓ : ℕ) : ZMod n) := by
    rw [← hji]
    push_cast
    ring
  have hiw : i ≠ i + (ℓ : ZMod n) := zmod_self_ne_shift i hℓ1 (by omega)
  have hzpj : i + (ℓ : ZMod n) ≠ j := by
    rw [hzj]
    exact (zmod_self_ne_shift j (by omega) (by omega)).symm
  have hDf := @chain_front n v M scD j ℓD dD hD hD1
  have hDb := @chain_back n v M scD j ℓD dD hD hD1
  rcases run_up_head j ℓD with ⟨tD, htD⟩
  have hvltD : vlast j tD = i := by
    have h := run_up_vlast ℓD j j tD htD
    rw [hji] at h
    exact h
  rcases run_up_head i ℓ with ⟨rI, hrI⟩
  have hrI2 : run_up n (j + (ℓD : ZMod n)) ℓ = (j + (ℓD : ZMod n)) :: rI := by
    rw [hji]
    exact hrI
  have hrun : run_up n j (ℓD + ℓ) = run_up n j ℓD ++ rI := run_up_concat j ℓD ℓ rI hrI2
  have hrIne : rI ≠ [] := by
    have hlen := run_up_length i ℓ
    rw [hrI] at hlen
    intro hc
    rw [hc] at hlen
    simp at hlen
    omega
  rcases chain_verts_cons j false hD1 with ⟨rr, hrr0, hrrne, hvrr⟩
  rw [ch_head_false, hji] at hrr0 hvrr
  rw [ch_last_false] at hvrr
  have hDrev : (run_up n j ℓD).reverse = i :: rr := by
    rw [← hrr0]
    unfold chain_verts
    rw [if_neg Bool.false_ne_true]
  cases d with
  | true =>
    have hself : scE.segments = path_segs n v (i :: rI) := by
      rw [hE]
      unfold chain_segs chain_verts
      rw [if_pos rfl, hrI]
    have hnd : (j :: (tD ++ rI)).Nodup := by
      have h := @run_up_nodup n j (ℓD + ℓ) (by omega)
      rw [hrun, htD, List.cons_append] at h
      exact h
    rcases core_fold_front hsep tD j scE i rI hself hvltD hrIne hnd with ⟨sc2, hf, hs⟩
    have hseg2 : sc2.segments = chain_segs n v j (ℓD + ℓ) true := by
      rw [hs]
      unfold chain_segs chain_verts
      rw [if_pos rfl, hrun, htD, List.cons_append]
    cases dD with
    | true =>
      rw [ch_head_true] at hDf
      unfold try_stitch
      simp only [hDf, except_bind_ok]
      have h1 : sc_match_front M scE (some (v j).1) (some (v j).2) = .ok false := by
        rw [chain_match_front hE hℓ1, ch_head_true,
          decide_eq_false (fun hc => absurd ((near_vertex_iff hsep _ _).mp hc) hij)]
      simp only [h1, except_bind_ok]
      rw [if_neg Bool.false_ne_true]
      rw [ch_last_true, hji] at hDb
      simp only [hDb, except_bind_ok]
      have h2 : sc_match_front M scE (some (v i).1) (some (v i).2) = .ok true := by
        rw [chain_match_front hE hℓ1, ch_head_true, decide_eq_true (nearPt_refl _)]
      simp only [h2, except_bind_ok]
      rw [if_pos trivial]
      rw [merge_front_false_eq]
      have hDp : scD.segments.reverse = (path_segs n v (j :: tD)).reverse := by
        rw [hD]
        unfold chain_segs chain_verts
        rw [if_pos rfl, htD]
      rw [hDp, hf]
      exact ⟨sc2, except_map_ok _ _, hseg2⟩
    | false =>
      rw [ch_head_false, hji] at hDf
      unfold try_stitch
      simp only [hDf, except_bind_ok]
      have h1 : sc_match_front M scE (some (v i).1) (some (v i).2) = .ok true := by
        rw [chain_match_front hE hℓ1, ch_head_true, decide_eq_true (nearPt_refl _)]
      simp only [h1, except_bind_ok]
      rw [if_pos trivial]
      have hDp : scD.segments = path_segs n v (i :: rr) := by
        rw [hD]
        unfold chain_segs chain_verts
        rw [if_neg Bool.false_ne_true, hDrev]
      rw [merge_front_true_eq i rr hDp, ← hDrev, List.reverse_reverse, htD, hf]
      exact ⟨sc2, except_map_ok _ _, hseg2⟩
  | false =>
    rcases chain_verts_cons i false hℓ1 with ⟨rE, hrE0, hrEne, hvE⟩
    rw [ch_head_false] at hrE0 hvE
    rw [ch_last_false] at hvE
    have hrE : (run_up n i ℓ).reverse = (i + (ℓ : ZMod n)) :: rE := by
      rw [← hrE0]
      unfold chain_verts
      rw [if_neg Bool.false_ne_true]
    have hself : scE.segments = path_segs n v ((i + (ℓ : ZMod n)) :: rE) := by
      rw [hE]
      unfold chain_segs chain_verts
      rw [if_neg Bool.false_ne_true, hrE]
    have hglue : (run_up n i ℓ).reverse ++ rr = (run_up n j (ℓD + ℓ)).reverse := by
      rw [hrI, hrun, List.reverse_append, hDrev, List.reverse_cons, List.append_assoc]
      rfl
    have hnd : ((i + (ℓ : ZMod n)) :: (rE ++ rr)).Nodup := by
      have h := List.nodup_reverse.mpr (@run_up_nodup n j (ℓD + ℓ) (by omega))
      rw [← hglue, hrE, List.cons_append] at h
      exact h
    rcases core_fold_back hsep rr scE (i + (ℓ : ZMod n)) rE hself hrEne hnd
      with ⟨sc2, hf, hs⟩
    rw [hvE] at hf
    have hseg2 : sc2.segments = chain_segs n v j (ℓD + ℓ) false := by
      rw [hs]
      unfold chain_segs chain_verts
      rw [if_neg Bool.false_ne_true, ← hglue, hrE, List.cons_append]
    cases dD with
    | true =>
      rw [ch_head_true] at hDf
      rw [ch_last_true, hji] at hDb
      unfold try_stitch
      simp only [hDf, except_bind_ok]
      have h1 : sc_match_front M scE (some (v j).1) (some (v j).2) = .ok false := by
        rw [chain_match_front hE hℓ1, ch_head_false,
          decide_eq_false (fun hc => absurd ((near_vertex_iff hsep _ _).mp hc) hzpj)]
      simp only [h1, except_bind_ok]
      rw [if_neg Bool.false_ne_true]
      simp only [hDb, except_bind_ok]
      have h2 : sc_match_front M scE (some (v i).1) (some (v i).2) = .ok false := by
        rw [chain_match_front hE hℓ1, ch_head_false,
          decide_eq_false (fun hc => absurd ((near_vertex_iff hsep _ _).mp hc) hiw.symm)]
      simp only [h2, except_bind_ok]
      rw [if_neg Bool.false_ne_true]
      have h3 : sc_match_back M scE (some (v j).1) (some (v j).2) = .ok false := by
        rw [chain_match_back hE hℓ1, ch_last_false,
          decide_eq_false (fun hc => absurd ((near_vertex_iff hsep _ _).mp hc) hij)]
      simp only [h3, except_bind_ok]
      rw [if_neg Bool.false_ne_true]
      have h4 : sc_match_back M scE (some (v i).1) (some (v i).2) = .ok true := by
        rw [chain_match_back hE hℓ1, ch_last_false, decide_eq_true (nearPt_refl _)]
      simp only [h4, except_bind_ok]
      rw [if_pos trivial]
      have hDp : scD.segments = path_segs n v (j :: tD) := by
        rw [hD]
        unfold chain_segs chain_verts
        rw [if_pos rfl, htD]
      rw [merge_back_true_eq j tD hDp, ← htD, hDrev, hf]
      exact ⟨sc2, except_map_ok _ _, hseg2⟩
    | false =>
      rw [ch_head_false, hji] at hDf
      unfold try_stitch
      simp only [hDf, except_bind_ok]
      have h1 : sc_match_front M scE (some (v i).1) (some (v i).2) = .ok false := by
        rw [chain_match_front hE hℓ1, ch_head_false,
          decide_eq_false (fun hc => absurd ((near_vertex_iff hsep _ _).mp hc) hiw.symm)]
      simp only [h1, except_bind_ok]
      rw [if_neg Bool.false_ne_true]
      rw [ch_last_false] at hDb
      simp only [hDb, except_bind_ok]
      have h2 : sc_match_front M scE (some (v j).1) (some (v j).2) = .ok false := by
        rw [chain_match_front hE hℓ1, ch_head_false,
          decide_eq_false (fun hc => absurd ((near_vertex_iff hsep _ _).mp hc) hzpj)]
      simp only [h2, except_bind_ok]
      rw [if_neg Bool.false_ne_true]
      have h3 : sc_match_back M scE (some (v i).1) (some (v i).2) = .ok true := by
        rw [chain_match_back hE hℓ1, ch_last_false, decide_eq_true (nearPt_refl _)]
      simp only [h3, except_bind_ok]
      rw [if_pos trivial]
      rw [merge_back_false_eq]
      have hDp : scD.segments = path_segs n v (i :: rr) := by
        rw [hD]
        unfold chain_segs chain_verts
        rw [if_neg Bool.false_ne_true, hDrev]
      rw [hDp, hf]
      exact ⟨sc2, except_map_ok _ _, hseg2⟩

theorem stitch_none {n : ℕ} {v : ZMod n → Pt} {M : FloatModel} {scE scD : SubContour}
    {i q : ZMod n} {ℓ ℓq : ℕ} {d dq : Bool}
    (hsep : ∀ a b : ZMod n, a ≠ b → ¬ nearPt (v a) (v b))
    (hE : scE.segments = chain_segs n v i ℓ d)
    (hD : scD.segments = chain_segs n v q ℓq dq)
    (hℓ1 : 1 ≤ ℓ) (hq1 : 1 ≤ ℓq)
    (h1 : ch_head i ℓ d ≠ ch_head q ℓq dq) (h2 : ch_head i ℓ d ≠ ch_last q ℓq dq)
    (h3 : ch_last i ℓ d ≠ ch_head q ℓq dq) (h4 : ch_last i ℓ d ≠ ch_last q ℓq dq) :
    try_stitch M scE scD = .ok none := by
  have hDf := @chain_front n v M scD q ℓq dq hD hq1
  have hDb := @chain_back n v M scD q ℓq dq hD hq1
  unfold try_stitch
  simp only [hDf, except_bind_ok]
  have c1 : sc_match_front M scE (some (v (ch_head q ℓq dq)).1)
      (some (v (ch_head q ℓq dq)).2) = .ok false := by
    rw [chain_match_front hE hℓ1,
      decide_eq_false (fun hc => absurd ((near_vertex_iff hsep _ _).mp hc) h1)]
  simp only [c1, except_bind_ok]
  rw [if_neg Bool.false_ne_true]
  simp only [hDb, except_bind_ok]
  have c2 : sc_match_front M scE (some (v (ch_last q ℓq dq)).1)
      (some (v (ch_last q ℓq dq)).2) = .ok false := by
    rw [chain_match_front hE hℓ1,
      decide_eq_false (fun hc => absurd ((near_vertex_iff hsep _ _).mp hc) h2)]
  simp only [c2, except_bind_ok]
  rw [if_neg Bool.false_ne_true]
  have c3 : sc_match_back M scE (some (v (ch_head q ℓq dq)).1)
      (some (v (ch_head q ℓq dq)).2) = .ok false := by
    rw [chain_match_back hE hℓ1,
      decide_eq_false (fun hc => absurd ((near_vertex_iff hsep _ _).mp hc) h3)]
  simp only [c3, except_bind_ok]
  rw [if_neg Bool.false_ne_true]
  have c4 : sc_match_back M scE (some (v (ch_last q ℓq dq)).1)
      (some (v (ch_last q ℓq dq)).2) = .ok false := by
    rw [chain_match_back hE hℓ1,
      decide_eq_false (fun hc => absurd ((near_vertex_iff hsep _ _).mp hc) h4)]
  simp only [c4, except_bind_ok]
  rw [if_neg Bool.false_ne_true]
  rfl

/-- A sub-contour holds exactly the segment list of the given chain. -/
def chain_sc (n : ℕ) (v : ZMod n → Pt) (c : ZMod n × ℕ × Bool) (sc : SubContour) : Prop :=
  sc.segments = chain_segs n v c.1 c.2.1 c.2.2

/-- A chain's two endpoint vertices avoid both probe vertices. -/
def ch_avoid (n : ℕ) (x y : ZMod n) (c : ZMod n × ℕ × Bool) : Prop :=
  ch_head c.1 c.2.1 c.2.2 ≠ x ∧ ch_head c.1 c.2.1 c.2.2 ≠ y ∧
    ch_last c.1 c.2.1 c.2.2 ≠ x ∧ ch_last c.1 c.2.1 c.2.2 ≠ y

theorem chain_scan_none {n : ℕ} {v : ZMod n → Pt} {M : FloatModel} {scE : SubContour}
    {i : ZMod n} {ℓ : ℕ} {d : Bool}
    (hsep : ∀ a b : ZMod n, a ≠ b → ¬ nearPt (v a) (v b))
    (hE : scE.segments = chain_segs n v i ℓ d) (hℓ1 : 1 ≤ ℓ) :
    ∀ {cs : List (ZMod n × ℕ × Bool)} {subs : List SubContour},
    List.Forall₂ (chain_sc n v) cs subs →
    (∀ c ∈ cs, 1 ≤ c.2.1 ∧ ch_avoid n (ch_head i ℓ d) (ch_last i ℓ d) c) →
    chain_scan M scE subs = .ok (scE, subs) := by
  intro cs subs hF
  induction hF with
  | nil => intro _; rfl
  | @cons c sc cs2 subs2 hc hrest ih =>
    intro havoid
    rcases havoid c (List.mem_cons_self _ _) with ⟨hc1, ha1, ha2, ha3, ha4⟩
    have hst : try_stitch M scE sc = .ok none :=
      stitch_none hsep hE hc hℓ1 hc1 ha1.symm ha3.symm ha2.symm ha4.symm
    show (do
      match ← try_stitch M scE sc with
      | some e2 => pure (e2, subs2)
      | none => do
          let r ← chain_scan M scE subs2
          pure (r.1, sc :: r.2)) = Except.ok (scE, sc :: subs2)
    rw [hst, except_bind_ok]
    show (do
      let r ← chain_scan M scE subs2
      pure (r.1, sc :: r.2) : Except PyErr (SubContour × List SubContour)) = _
    rw [ih (fun c2 hc2 => havoid c2 (List.mem_cons_of_mem _ hc2)), except_bind_ok]
    rfl

theorem chain_scan_stitch {n : ℕ} {v : ZMod n → Pt} {M : FloatModel}
    {scE scD merged : SubContour} {i : ZMod n} {ℓ : ℕ} {d : Bool}
    (hsep : ∀ a b : ZMod n, a ≠ b → ¬ nearPt (v a) (v b))
    (hE : scE.segments = chain_segs n v i ℓ d) (hℓ1 : 1 ≤ ℓ)
    (hstitch : try_stitch M scE scD = .ok (some merged)) :
    ∀ {cs1 : List (ZMod n × ℕ × Bool)} {subs1 : List SubContour}
      (subs2 : List SubContour),
    List.Forall₂ (chain_sc n v) cs1 subs1 →
    (∀ c ∈ cs1, 1 ≤ c.2.1 ∧ ch_avoid n (ch_head i ℓ d) (ch_last i ℓ d) c) →
    chain_scan M scE (subs1 ++ scD :: subs2) = .ok (merged, subs1 ++ subs2) := by
  intro cs1 subs1 subs2 hF
  induction hF with
  | nil =>
    intro _
    show (do
      match ← try_stitch M scE scD with
      | some e2 => pure (e2, subs2)
      | none => do
          let r ← chain_scan M scE subs2
          pure (r.1, scD :: r.2)) = Except.ok (merged, subs2)
    rw [hstitch, except_bind_ok]
    rfl
  | @cons c sc cs1x subs1x hc hrest ih =>
    intro havoid
    rcases havoid c (List.mem_cons_self _ _) with ⟨hc1, ha1, ha2, ha3, ha4⟩
    have hst : try_stitch M scE sc = .ok none :=
      stitch_none hsep hE hc hℓ1 hc1 ha1.symm ha3.symm ha2.symm ha4.symm
    show (do
      match ← try_stitch M scE sc with
      | some e2 => pure (e2, subs1x ++ scD :: subs2)
      | none => do
          let r ← chain_scan M scE (subs1x ++ scD :: subs2)
          pure (r.1, sc :: r.2)) = Except.ok (merged, (sc :: subs1x) ++ subs2)
    rw [hst, except_bind_ok]
    show (do
      let r ← chain_scan M scE (subs1x ++ scD :: subs2)
      pure (r.1, sc :: r.2) : Except PyErr (SubContour × List SubContour)) = _
    rw [ih (fun c2 hc2 => havoid c2 (List.mem_cons_of_mem _ hc2)), except_bind_ok]
    rfl

theorem scan_none {n : ℕ} {v : ZMod n → Pt} {M : FloatModel} {nsc : SubContour}
    {k : ZMod n} {nb : Bool}
    (hsep : ∀ a b : ZMod n, a ≠ b → ¬ nearPt (v a) (v b))
    (hnew : nsc.segments = chain_segs n v k 1 nb) :
    ∀ {cs : List (ZMod n × ℕ × Bool)} {subs : List SubContour},
    List.Forall₂ (chain_sc n v) cs subs →
    (∀ c ∈ cs, 1 ≤ c.2.1 ∧ ch_avoid n k (k + 1) c) →
    scan_subs M nsc subs = .ok .noMatch := by
  intro cs subs hF
  induction hF with
  | nil => intro _; rfl
  | @cons c sc cs2 subs2 hc hrest ih =>
    intro havoid
    rcases havoid c (List.mem_cons_self _ _) with ⟨hc1, ha1, ha2, ha3, ha4⟩
    have hel : try_elongate M sc nsc = .ok none :=
      elong_none hsep hc hnew hc1 ha1 ha2 ha3 ha4
    show (do
      match ← try_elongate M sc nsc with
      | some merged => do
          let closed ← sc_is_closed M merged
          if closed then pure (.closedC subs2 merged)
          else do
            let r ← chain_scan M merged subs2
            pure (.elong [] r.1 r.2)
      | none => do
          match ← scan_subs M nsc subs2 with
          | .noMatch => pure .noMatch
          | .closedC rest2 c => pure (.closedC (sc :: rest2) c)
          | .elong pre e post => pure (.elong (sc :: pre) e post)) = Except.ok ScanOut.noMatch
    rw [hel, except_bind_ok]
    show (do
      match ← scan_subs M nsc subs2 with
      | .noMatch => pure .noMatch
      | .closedC rest2 c => pure (.closedC (sc :: rest2) c)
      | .elong pre e post => pure (.elong (sc :: pre) e post) :
        Except PyErr ScanOut) = _
    rw [ih (fun c2 hc2 => havoid c2 (List.mem_cons_of_mem _ hc2)), except_bind_ok]
    rfl

theorem scan_elong {n : ℕ} {v : ZMod n → Pt} {M : FloatModel}
    {nsc scC merged e2out : SubContour} {k : ZMod n} {nb : Bool}
    (hsep : ∀ a b : ZMod n, a ≠ b → ¬ nearPt (v a) (v b))
    (hnew : nsc.segments = chain_segs n v k 1 nb)
    (hel : try_elongate M scC nsc = .ok (some merged))
    (hncl : sc_is_closed M merged = .ok false) :
    ∀ {cs1 : List (ZMod n × ℕ × Bool)} {subs1 : List SubContour}
      {subs2 subs2x : List SubContour},
    chain_scan M merged subs2 = .ok (e2out, subs2x) →
    List.Forall₂ (chain_sc n v) cs1 subs1 →
    (∀ c ∈ cs1, 1 ≤ c.2.1 ∧ ch_avoid n k (k + 1) c) →
    scan_subs M nsc (subs1 ++ scC :: subs2) = .ok (.elong subs1 e2out subs2x) := by
  intro cs1 subs1 subs2 subs2x hcs hF
  induction hF with
  | nil =>
    intro _
    show (do
      match ← try_elongate M scC nsc with
      | some merged => do
          let closed ← sc_is_closed M merged
          if closed then pure (.closedC subs2 merged)
          else do
            let r ← chain_scan M merged subs2
            pure (.elong [] r.1 r.2)
      | none => do
          match ← scan_subs M nsc subs2 with
          | .noMatch => pure .noMatch
          | .closedC rest2 c => pure (.closedC (scC :: rest2) c)
          | .elong pre e post => pure (.elong (scC :: pre) e post)) =
      Except.ok (ScanOut.elong [] e2out subs2x)
    rw [hel, except_bind_ok]
    show (do
      let closed ← sc_is_closed M merged
      if closed then pure (.closedC subs2 merged)
      else do
        let r ← chain_scan M merged subs2
        pure (.elong [] r.1 r.2) : Except PyErr ScanOut) = _
    rw [hncl, except_bind_ok, if_neg Bool.false_ne_true]
    show (do
      let r ← chain_scan M merged subs2
      pure (.elong [] r.1 r.2) : Except PyErr ScanOut) = _
    rw [hcs, except_bind_ok]
    rfl
  | @cons c sc cs1x subs1x hc hrest ih =>
    intro havoid
    rcases havoid c (List.mem_cons_self _ _) with ⟨hc1, ha1, ha2, ha3, ha4⟩
    have helx : try_elongate M sc nsc = .ok none :=
      elong_none hsep hc hnew hc1 ha1 ha2 ha3 ha4
    show (do
      match ← try_elongate M sc nsc with
      | some merged => do
          let closed ← sc_is_closed M merged
          if closed then pure (.closedC (subs1x ++ scC :: subs2) merged)
          else do
            let r ← chain_scan M merged (subs1x ++ scC :: subs2)
            pure (.elong [] r.1 r.2)
      | none => do
          match ← scan_subs M nsc (subs1x ++ scC :: subs2) with
          | .noMatch => pure .noMatch
          | .closedC rest2 c => pure (.closedC (sc :: rest2) c)
          | .elong pre e post => pure (.elong (sc :: pre) e post)) =
      Except.ok (ScanOut.elong (sc :: subs1x) e2out subs2x)
    rw [helx, except_bind_ok]
    show (do
      match ← scan_subs M nsc (subs1x ++ scC :: subs2) with
      | .noMatch => pure .noMatch
      | .closedC rest2 c => pure (.closedC (sc :: rest2) c)
      | .elong pre e post => pure (.elong (sc :: pre) e post) :
        Except PyErr ScanOut) = _
    rw [ih (fun c2 hc2 => havoid c2 (List.mem_cons_of_mem _ hc2)), except_bind_ok]
    rfl

theorem scan_close {n : ℕ} {v : ZMod n → Pt} {M : FloatModel}
    {nsc scC merged : SubContour} {k : ZMod n} {nb : Bool}
    (hsep : ∀ a b : ZMod n, a ≠ b → ¬ nearPt (v a) (v b))
    (hnew : nsc.segments = chain_segs n v k 1 nb)
    (hel : try_elongate M scC nsc = .ok (some merged))
    (hcl : sc_is_closed M merged = .ok true) :
    ∀ {cs1 : List (ZMod n × ℕ × Bool)} {subs1 : List SubContour}
      (subs2 : List SubContour),
    List.Forall₂ (chain_sc n v) cs1 subs1 →
    (∀ c ∈ cs1, 1 ≤ c.2.1 ∧ ch_avoid n k (k + 1) c) →
    scan_subs M nsc (subs1 ++ scC :: subs2) = .ok (.closedC (subs1 ++ subs2) merged) := by
  intro cs1 subs1 subs2 hF
  induction hF with
  | nil =>
    intro _
    show (do
      match ← try_elongate M scC nsc with
      | some merged => do
          let closed ← sc_is_closed M merged
          if closed then pure (.closedC subs2 merged)
          else do
            let r ← chain_scan M merged subs2
            pure (.elong [] r.1 r.2)
      | none => do
          match ← scan_subs M nsc subs2 with
          | .noMatch => pure .noMatch
          | .closedC rest2 c => pure (.closedC (scC :: rest2) c)
          | .elong pre e post => pure (.elong (scC :: pre) e post)) =
      Except.ok (ScanOut.closedC subs2 merged)
    rw [hel, except_bind_ok]
    show (do
      let closed ← sc_is_closed M merged
      if closed then pure (.closedC subs2 merged)
      else do
        let r ← chain_scan M merged subs2
        pure (.elong [] r.1 r.2) : Except PyErr ScanOut) = _
    rw [hcl, except_bind_ok, if_pos rfl]
    rfl
  | @cons c sc cs1x subs1x hc hrest ih =>
    intro havoid
    rcases havoid c (List.mem_cons_self _ _) with ⟨hc1, ha1, ha2, ha3, ha4⟩
    have helx : try_elongate M sc nsc = .ok none :=
      elong_none hsep hc hnew hc1 ha1 ha2 ha3 ha4
    show (do
      match ← try_elongate M sc nsc with
      | some merged => do
          let closed ← sc_is_closed M merged
          if closed then pure (.closedC (subs1x ++ scC :: subs2) merged)
          else do
            let r ← chain_scan M merged (subs1x ++ scC :: subs2)
            pure (.elong [] r.1 r.2)
      | none => do
          match ← scan_subs M nsc (subs1x ++ scC :: subs2) with
          | .noMatch => pure .noMatch
          | .closedC rest2 c => pure (.closedC (sc :: rest2) c)
          | .elong pre e post => pure (.elong (sc :: pre) e post)) =
      Except.ok (ScanOut.closedC ((sc :: subs1x) ++ subs2) merged)
    rw [helx, except_bind_ok]
    show (do
      match ← scan_subs M nsc (subs1x ++ scC :: subs2) with
      | .noMatch => pure .noMatch
      | .closedC rest2 c => pure (.closedC (sc :: rest2) c)
      | .elong pre e post => pure (.elong (sc :: pre) e post) :
        Except PyErr ScanOut) = _
    rw [ih (fun c2 hc2 => havoid c2 (List.mem_cons_of_mem _ hc2)), except_bind_ok]
    rfl

/-- Invariant of the open sub-contour list of `create_contours` after
processing the edge set `P` of a simple polygon: the sub-contours are
chains (maximal runs of consecutive processed edges), pairwise separated
by at least one unprocessed edge on each side. -/
structure ChainInv (n : ℕ) (v : ZMod n → Pt) (P : Finset (ZMod n))
    (cs : List (ZMod n × ℕ × Bool)) (subs : List SubContour) : Prop where
  hmatch : List.Forall₂ (chain_sc n v) cs subs
  hlen : ∀ c ∈ cs, 1 ≤ c.2.1 ∧ c.2.1 ≤ n - 1
  hsub : ∀ c ∈ cs, ∀ x ∈ arcSet n c.1 c.2.1, x ∈ P
  hcov : ∀ x ∈ P, ∃ c ∈ cs, x ∈ arcSet n c.1 c.2.1
  hdisj : List.Pairwise
    (fun c c2 => Disjoint (arcSet n c.1 c.2.1) (arcSet n c2.1 c2.2.1)) cs
  hmax : ∀ c ∈ cs, c.1 - 1 ∉ P ∧ c.1 + ((c.2.1 : ℕ) : ZMod n) ∉ P

theorem chains_overlap_eq {n : ℕ} {cs : List (ZMod n × ℕ × Bool)}
    (hp : List.Pairwise
      (fun c c2 => Disjoint (arcSet n c.1 c.2.1) (arcSet n c2.1 c2.2.1)) cs)
    {c c2 : ZMod n × ℕ × Bool} (hc : c ∈ cs) (hc2 : c2 ∈ cs) {x : ZMod n}
    (hx : x ∈ arcSet n c.1 c.2.1) (hx2 : x ∈ arcSet n c2.1 c2.2.1) : c = c2 := by
  induction cs with
  | nil => cases hc
  | cons a t ih =>
    rcases List.pairwise_cons.mp hp with ⟨hat, ht⟩
    rcases List.mem_cons.mp hc with rfl | hct
    · rcases List.mem_cons.mp hc2 with rfl | hc2t
      · rfl
      · exact absurd hx2 (Finset.disjoint_left.mp (hat c2 hc2t) hx)
    · rcases List.mem_cons.mp hc2 with rfl | hc2t
      · exact absurd hx (Finset.disjoint_left.mp (hat c hct) hx2)
      · exact ih ht hct hc2t

theorem inv_nodup {n : ℕ} {v : ZMod n → Pt} {P : Finset (ZMod n)}
    {cs : List (ZMod n × ℕ × Bool)} {subs : List SubContour}
    (hinv : ChainInv n v P cs subs) : cs.Nodup := by
  refine List.Pairwise.imp_of_mem ?_ hinv.hdisj
  intro a b ha hb hdisj
  intro hc
  subst hc
  have h1 := @arcSet_start_mem n a.1 a.2.1 (hinv.hlen a ha).1
  exact absurd h1 (Finset.disjoint_left.mp hdisj h1)

theorem forall₂_split {γ δ : Type} {R : γ → δ → Prop} :
    ∀ {l1 : List γ} {x : γ} {l2 : List γ} {ls : List δ},
    List.Forall₂ R (l1 ++ x :: l2) ls →
    ∃ s1 y s2, ls = s1 ++ y :: s2 ∧ R x y ∧ List.Forall₂ R l1 s1 ∧
      List.Forall₂ R l2 s2 := by
  intro l1
  induction l1 with
  | nil =>
    intro x l2 ls h
    cases h with
    | cons hxy hrest => exact ⟨[], _, _, rfl, hxy, List.Forall₂.nil, hrest⟩
  | cons a t ih =>
    intro x l2 ls h
    cases h with
    | cons hay hrest =>
      rcases ih hrest with ⟨s1, y, s2, rfl, hxy, hf1, hf2⟩
      exact ⟨_ :: s1, y, s2, rfl, hxy, List.Forall₂.cons hay hf1, hf2⟩

theorem edge_of_right_end {n : ℕ} {c1 : ZMod n} {ℓ : ℕ} {k : ZMod n} (hℓ : 1 ≤ ℓ)
    (h : c1 + ((ℓ : ℕ) : ZMod n) = k + 1) : k ∈ arcSet n c1 ℓ := by
  have h2 := @arcSet_last_mem n c1 ℓ hℓ
  rw [h, add_sub_cancel_right] at h2
  exact h2

theorem inv_find_A {n : ℕ} {v : ZMod n → Pt} {P : Finset (ZMod n)}
    {cs : List (ZMod n × ℕ × Bool)} {subs : List SubContour}
    (hinv : ChainInv n v P cs subs) {k : ZMod n}
    (hkP : k ∉ P) (hk1 : k - 1 ∈ P) :
    ∃ c ∈ cs, c.1 + ((c.2.1 : ℕ) : ZMod n) = k := by
  rcases hinv.hcov (k - 1) hk1 with ⟨c, hc, hmem⟩
  rcases mem_arcSet.mp hmem with ⟨t, ht, hx⟩
  refine ⟨c, hc, ?_⟩
  by_cases hlast : t + 1 < c.2.1
  · exfalso
    have hk : k ∈ arcSet n c.1 c.2.1 := by
      refine mem_arcSet.mpr ⟨t + 1, hlast, ?_⟩
      push_cast
      rw [← add_assoc, hx]
      ring
    exact hkP (hinv.hsub c hc k hk)
  · have hc1 : (c.2.1 : ℕ) = t + 1 := by omega
    rw [hc1]
    push_cast
    rw [← add_assoc, hx]
    ring

theorem inv_find_B {n : ℕ} {v : ZMod n → Pt} {P : Finset (ZMod n)}
    {cs : List (ZMod n × ℕ × Bool)} {subs : List SubContour}
    (hinv : ChainInv n v P cs subs) {k : ZMod n}
    (hkP : k ∉ P) (hk1 : k + 1 ∈ P) :
    ∃ c ∈ cs, c.1 = k + 1 := by
  rcases hinv.hcov (k + 1) hk1 with ⟨c, hc, hmem⟩
  rcases mem_arcSet.mp hmem with ⟨t, ht, hx⟩
  refine ⟨c, hc, ?_⟩
  rcases Nat.eq_zero_or_pos t with rfl | htpos
  · simpa using hx
  · exfalso
    have hk : k ∈ arcSet n c.1 c.2.1 := by
      refine mem_arcSet.mpr ⟨t - 1, by omega, ?_⟩
      rw [Nat.cast_sub (by omega : 1 ≤ t)]
      rw [eq_sub_of_add_eq hx.symm]
      push_cast
      ring
    exact hkP (hinv.hsub c hc k hk)

theorem ch_avoid_of {n : ℕ} {x y : ZMod n} {c : ZMod n × ℕ × Bool}
    (h1 : c.1 ≠ x) (h2 : c.1 ≠ y) (h3 : c.1 + ((c.2.1 : ℕ) : ZMod n) ≠ x)
    (h4 : c.1 + ((c.2.1 : ℕ) : ZMod n) ≠ y) : ch_avoid n x y c := by
  rcases c with ⟨c1, ℓc, dc⟩
  cases dc
  · exact ⟨h3, h4, h1, h2⟩
  · exact ⟨h1, h2, h3, h4⟩

theorem inv_unique_A {n : ℕ} {v : ZMod n → Pt} {P : Finset (ZMod n)}
    {cs : List (ZMod n × ℕ × Bool)} {subs : List SubContour}
    (hinv : ChainInv n v P cs subs) {k : ZMod n}
    {c cA : ZMod n × ℕ × Bool} (hc : c ∈ cs) (hcA : cA ∈ cs)
    (h : c.1 + ((c.2.1 : ℕ) : ZMod n) = k) (hA : cA.1 + ((cA.2.1 : ℕ) : ZMod n) = k) :
    c = cA := by
  have h1 : k - 1 ∈ arcSet n c.1 c.2.1 := by
    have hm := @arcSet_last_mem n c.1 c.2.1 (hinv.hlen c hc).1
    rwa [h] at hm
  have h2 : k - 1 ∈ arcSet n cA.1 cA.2.1 := by
    have hm := @arcSet_last_mem n cA.1 cA.2.1 (hinv.hlen cA hcA).1
    rwa [hA] at hm
  exact chains_overlap_eq hinv.hdisj hc hcA h1 h2

theorem inv_unique_B {n : ℕ} {v : ZMod n → Pt} {P : Finset (ZMod n)}
    {cs : List (ZMod n × ℕ × Bool)} {subs : List SubContour}
    (hinv : ChainInv n v P cs subs) {k : ZMod n}
    {c cB : ZMod n × ℕ × Bool} (hc : c ∈ cs) (hcB : cB ∈ cs)
    (h : c.1 = k + 1) (hB : cB.1 = k + 1) : c = cB := by
  have h1 : k + 1 ∈ arcSet n c.1 c.2.1 := by
    rw [← h]
    exact @arcSet_start_mem n c.1 c.2.1 (hinv.hlen c hc).1
  have h2 : k + 1 ∈ arcSet n cB.1 cB.2.1 := by
    rw [← hB]
    exact @arcSet_start_mem n cB.1 cB.2.1 (hinv.hlen cB hcB).1
  exact chains_overlap_eq hinv.hdisj hc hcB h1 h2

theorem inv_avoid {n : ℕ} {v : ZMod n → Pt} {P : Finset (ZMod n)}
    {cs : List (ZMod n × ℕ × Bool)} {subs : List SubContour}
    (hinv : ChainInv n v P cs subs) {k : ZMod n} (hkP : k ∉ P)
    {c : ZMod n × ℕ × Bool} (hc : c ∈ cs)
    (ht1 : c.1 + ((c.2.1 : ℕ) : ZMod n) ≠ k) (ht2 : c.1 ≠ k + 1) :
    ch_avoid n k (k + 1) c := by
  refine ch_avoid_of ?_ ht2 ht1 ?_
  · intro hx
    refine hkP (hinv.hsub c hc k ?_)
    rw [← hx]
    exact @arcSet_start_mem n c.1 c.2.1 (hinv.hlen c hc).1
  · intro hx
    exact hkP (hinv.hsub c hc k (edge_of_right_end (hinv.hlen c hc).1 hx))

theorem mem_arcSet_compl {n : ℕ} (hn : 3 ≤ n) {k y : ZMod n} (hy : y ≠ k) :
    y ∈ arcSet n (k + 1) (n - 1) := by
  haveI : NeZero n := ⟨by omega⟩
  refine mem_arcSet.mpr ⟨(y - (k + 1)).val, ?_, ?_⟩
  · have hlt := ZMod.val_lt (y - (k + 1))
    have hne : (y - (k + 1)).val ≠ n - 1 := by
      intro hc
      apply hy
      have hv : ((y - (k + 1)).val : ZMod n) = y - (k + 1) :=
        ZMod.natCast_rightInverse _
      rw [hc] at hv
      have hcast : ((n - 1 : ℕ) : ZMod n) = -1 := by
        rw [Nat.cast_sub (by omega : 1 ≤ n), Nat.cast_one, ZMod.natCast_self]
        ring
      rw [hcast] at hv
      have : y = k + 1 + -1 := by rw [hv]; ring
      rw [this]
      ring
    omega
  · rw [ZMod.natCast_rightInverse _]
    ring

theorem inv_update_single {n : ℕ} {v : ZMod n → Pt} {P : Finset (ZMod n)}
    {cs1 cs2 : List (ZMod n × ℕ × Bool)} {subs1 subs2 : List SubContour}
    {C G : ZMod n × ℕ × Bool} {scG : SubContour} {scC : SubContour}
    (hinv : ChainInv n v P (cs1 ++ C :: cs2) (subs1 ++ scC :: subs2))
    (hn : 3 ≤ n) {k : ZMod n} (hkP : k ∉ P)
    (hF1 : List.Forall₂ (chain_sc n v) cs1 subs1)
    (hF2 : List.Forall₂ (chain_sc n v) cs2 subs2)
    (hG : chain_sc n v G scG)
    (harc : arcSet n G.1 G.2.1 = arcSet n C.1 C.2.1 ∪ {k})
    (hlenG1 : 1 ≤ G.2.1) (hlenG2 : G.2.1 ≤ n - 1)
    (hmaxG1 : G.1 - 1 ∉ insert k P)
    (hmaxG2 : G.1 + ((G.2.1 : ℕ) : ZMod n) ∉ insert k P)
    (hother : ∀ c ∈ cs1 ++ cs2, c.1 - 1 ≠ k ∧ c.1 + ((c.2.1 : ℕ) : ZMod n) ≠ k) :
    ChainInv n v (insert k P) (cs1 ++ G :: cs2) (subs1 ++ scG :: subs2) := by
  have hmemold : ∀ c ∈ cs1 ++ cs2, c ∈ cs1 ++ C :: cs2 := by
    intro c hc
    rcases List.mem_append.mp hc with h | h
    · exact List.mem_append.mpr (Or.inl h)
    · exact List.mem_append.mpr (Or.inr (List.mem_cons_of_mem _ h))
  have hCmem : C ∈ cs1 ++ C :: cs2 :=
    List.mem_append.mpr (Or.inr (List.mem_cons_self _ _))
  have hdis_old := List.pairwise_append.mp hinv.hdisj
  rcases hdis_old with ⟨p1, pC2, cross1⟩
  rcases List.pairwise_cons.mp pC2 with ⟨hC2, p2⟩
  have hdisjG : ∀ c ∈ cs1 ++ cs2,
      Disjoint (arcSet n G.1 G.2.1) (arcSet n c.1 c.2.1) := by
    intro c hc
    rw [harc, Finset.disjoint_union_left]
    constructor
    · rcases List.mem_append.mp hc with h | h
      · exact (cross1 c h C (List.mem_cons_self _ _)).symm
      · exact hC2 c h
    · rw [Finset.disjoint_singleton_left]
      intro hkc
      exact hkP (hinv.hsub c (hmemold c hc) k hkc)
  refine ⟨?_, ?_, ?_, ?_, ?_, ?_⟩
  · exact List.rel_append hF1 (List.Forall₂.cons hG hF2)
  · intro c hc
    rcases List.mem_append.mp hc with h | h
    · exact hinv.hlen c (hmemold c (List.mem_append.mpr (Or.inl h)))
    · rcases List.mem_cons.mp h with rfl | h2
      · exact ⟨hlenG1, hlenG2⟩
      · exact hinv.hlen c (hmemold c (List.mem_append.mpr (Or.inr h2)))
  · intro c hc x hx
    rcases List.mem_append.mp hc with h | h
    · exact Finset.mem_insert_of_mem
        (hinv.hsub c (hmemold c (List.mem_append.mpr (Or.inl h))) x hx)
    · rcases List.mem_cons.mp h with rfl | h2
      · rw [harc] at hx
        rcases Finset.mem_union.mp hx with h3 | h3
        · exact Finset.mem_insert_of_mem (hinv.hsub C hCmem x h3)
        · rw [Finset.mem_singleton.mp h3]
          exact Finset.mem_insert_self k P
      · exact Finset.mem_insert_of_mem
          (hinv.hsub c (hmemold c (List.mem_append.mpr (Or.inr h2))) x hx)
  · intro x hx
    rcases Finset.mem_insert.mp hx with rfl | hxP
    · refine ⟨G, List.mem_append.mpr (Or.inr (List.mem_cons_self _ _)), ?_⟩
      rw [harc]
      exact Finset.mem_union_right _ (Finset.mem_singleton_self x)
    · rcases hinv.hcov x hxP with ⟨c, hc, hxc⟩
      rcases List.mem_append.mp hc with h | h
      · exact ⟨c, List.mem_append.mpr (Or.inl h), hxc⟩
      · rcases List.mem_cons.mp h with rfl | h2
        · refine ⟨G, List.mem_append.mpr (Or.inr (List.mem_cons_self _ _)), ?_⟩
          rw [harc]
          exact Finset.mem_union_left _ hxc
        · exact ⟨c, List.mem_append.mpr (Or.inr (List.mem_cons_of_mem _ h2)), hxc⟩
  · rw [List.pairwise_append]
    refine ⟨p1, List.pairwise_cons.mpr ⟨?_, p2⟩, ?_⟩
    · intro c hc
      exact hdisjG c (List.mem_append.mpr (Or.inr hc))
    · intro a ha b hb
      rcases List.mem_cons.mp hb with rfl | hb2
      · exact (hdisjG a (List.mem_append.mpr (Or.inl ha))).symm
      · exact cross1 a ha b (List.mem_cons_of_mem _ hb2)
  · intro c hc
    rcases List.mem_append.mp hc with h | h
    · rcases hother c (List.mem_append.mpr (Or.inl h)) with ⟨ho1, ho2⟩
      rcases hinv.hmax c (hmemold c (List.mem_append.mpr (Or.inl h))) with ⟨hm1, hm2⟩
      constructor
      · intro hmem
        rcases Finset.mem_insert.mp hmem with hk2 | hP2
        · exact ho1 hk2
        · exact hm1 hP2
      · intro hmem
        rcases Finset.mem_insert.mp hmem with hk2 | hP2
        · exact ho2 hk2
        · exact hm2 hP2
    · rcases List.mem_cons.mp h with rfl | h2
      · exact ⟨hmaxG1, hmaxG2⟩
      · rcases hother c (List.mem_append.mpr (Or.inr h2)) with ⟨ho1, ho2⟩
        rcases hinv.hmax c (hmemold c (List.mem_append.mpr (Or.inr h2))) with ⟨hm1, hm2⟩
        constructor
        · intro hmem
          rcases Finset.mem_insert.mp hmem with hk2 | hP2
          · exact ho1 hk2
          · exact hm1 hP2
        · intro hmem
          rcases Finset.mem_insert.mp hmem with hk2 | hP2
          · exact ho2 hk2
          · exact hm2 hP2

theorem inv_update_stitch {n : ℕ} {v : ZMod n → Pt} {P : Finset (ZMod n)}
    {l1 l2 l3 : List (ZMod n × ℕ × Bool)} {s1 s2 s3 : List SubContour}
    {X Y G : ZMod n × ℕ × Bool} {scX scY scG : SubContour}
    (hinv : ChainInv n v P (l1 ++ X :: (l2 ++ Y :: l3)) (s1 ++ scX :: (s2 ++ scY :: s3)))
    (hn : 3 ≤ n) {k : ZMod n} (hkP : k ∉ P)
    (hF1 : List.Forall₂ (chain_sc n v) l1 s1)
    (hF2 : List.Forall₂ (chain_sc n v) l2 s2)
    (hF3 : List.Forall₂ (chain_sc n v) l3 s3)
    (hG : chain_sc n v G scG)
    (harc : arcSet n G.1 G.2.1 =
      arcSet n X.1 X.2.1 ∪ {k} ∪ arcSet n Y.1 Y.2.1)
    (hlenG1 : 1 ≤ G.2.1) (hlenG2 : G.2.1 ≤ n - 1)
    (hmaxG1 : G.1 - 1 ∉ insert k P)
    (hmaxG2 : G.1 + ((G.2.1 : ℕ) : ZMod n) ∉ insert k P)
    (hother : ∀ c ∈ l1 ++ l2 ++ l3, c.1 - 1 ≠ k ∧ c.1 + ((c.2.1 : ℕ) : ZMod n) ≠ k) :
    ChainInv n v (insert k P) (l1 ++ G :: (l2 ++ l3)) (s1 ++ scG :: (s2 ++ s3)) := by
  have hXmem : X ∈ l1 ++ X :: (l2 ++ Y :: l3) :=
    List.mem_append.mpr (Or.inr (List.mem_cons_self _ _))
  have hYmem : Y ∈ l1 ++ X :: (l2 ++ Y :: l3) :=
    List.mem_append.mpr (Or.inr (List.mem_cons_of_mem _
      (List.mem_append.mpr (Or.inr (List.mem_cons_self _ _)))))
  have hmemold : ∀ c ∈ l1 ++ l2 ++ l3, c ∈ l1 ++ X :: (l2 ++ Y :: l3) := by
    intro c hc
    rcases List.mem_append.mp hc with h | h
    · rcases List.mem_append.mp h with h2 | h2
      · exact List.mem_append.mpr (Or.inl h2)
      · exact List.mem_append.mpr (Or.inr (List.mem_cons_of_mem _
          (List.mem_append.mpr (Or.inl h2))))
    · exact List.mem_append.mpr (Or.inr (List.mem_cons_of_mem _
        (List.mem_append.mpr (Or.inr (List.mem_cons_of_mem _ h)))))
  have hmemnew : ∀ c ∈ l1 ++ l2 ++ l3, c ∈ l1 ++ G :: (l2 ++ l3) := by
    intro c hc
    rcases List.mem_append.mp hc with h | h
    · rcases List.mem_append.mp h with h2 | h2
      · exact List.mem_append.mpr (Or.inl h2)
      · exact List.mem_append.mpr (Or.inr (List.mem_cons_of_mem _
          (List.mem_append.mpr (Or.inl h2))))
    · exact List.mem_append.mpr (Or.inr (List.mem_cons_of_mem _
        (List.mem_append.mpr (Or.inr h))))
  have hGmem : G ∈ l1 ++ G :: (l2 ++ l3) :=
    List.mem_append.mpr (Or.inr (List.mem_cons_self _ _))
  rcases List.pairwise_append.mp hinv.hdisj with ⟨p1, pX, cross1⟩
  rcases List.pairwise_cons.mp pX with ⟨hX, pmid⟩
  rcases List.pairwise_append.mp pmid with ⟨p2, pY, cross2⟩
  rcases List.pairwise_cons.mp pY with ⟨hY, p3⟩
  have hdisjX : ∀ c ∈ l1 ++ l2 ++ l3,
      Disjoint (arcSet n X.1 X.2.1) (arcSet n c.1 c.2.1) := by
    intro c hc
    rcases List.mem_append.mp hc with h | h
    · rcases List.mem_append.mp h with h2 | h2
      · exact (cross1 c h2 X (List.mem_cons_self _ _)).symm
      · exact hX c (List.mem_append.mpr (Or.inl h2))
    · exact hX c (List.mem_append.mpr (Or.inr (List.mem_cons_of_mem _ h)))
  have hdisjY : ∀ c ∈ l1 ++ l2 ++ l3,
      Disjoint (arcSet n Y.1 Y.2.1) (arcSet n c.1 c.2.1) := by
    intro c hc
    rcases List.mem_append.mp hc with h | h
    · rcases List.mem_append.mp h with h2 | h2
      · exact (cross1 c h2 Y (List.mem_cons_of_mem _
          (List.mem_append.mpr (Or.inr (List.mem_cons_self _ _))))).symm
      · exact (cross2 c h2 Y (List.mem_cons_self _ _)).symm
    · exact hY c h
  have hdisjG : ∀ c ∈ l1 ++ l2 ++ l3,
      Disjoint (arcSet n G.1 G.2.1) (arcSet n c.1 c.2.1) := by
    intro c hc
    rw [harc, Finset.disjoint_union_left, Finset.disjoint_union_left]
    refine ⟨⟨hdisjX c hc, ?_⟩, hdisjY c hc⟩
    rw [Finset.disjoint_singleton_left]
    intro hkc
    exact hkP (hinv.hsub c (hmemold c hc) k hkc)
  refine ⟨?_, ?_, ?_, ?_, ?_, ?_⟩
  · exact List.rel_append hF1 (List.Forall₂.cons hG (List.rel_append hF2 hF3))
  · intro c hc
    rcases List.mem_append.mp hc with h | h
    · exact hinv.hlen c (hmemold c (by
        exact List.mem_append.mpr (Or.inl (List.mem_append.mpr (Or.inl h)))))
    · rcases List.mem_cons.mp h with rfl | h2
      · exact ⟨hlenG1, hlenG2⟩
      · rcases List.mem_append.mp h2 with h3 | h3
        · exact hinv.hlen c (hmemold c (by
            exact List.mem_append.mpr (Or.inl (List.mem_append.mpr (Or.inr h3)))))
        · exact hinv.hlen c (hmemold c (List.mem_append.mpr (Or.inr h3)))
  · intro c hc x hx
    rcases List.mem_append.mp hc with h | h
    · exact Finset.mem_insert_of_mem (hinv.hsub c (hmemold c
        (List.mem_append.mpr (Or.inl (List.mem_append.mpr (Or.inl h))))) x hx)
    · rcases List.mem_cons.mp h with rfl | h2
      · rw [harc] at hx
        rcases Finset.mem_union.mp hx with h3 | h3
        · rcases Finset.mem_union.mp h3 with h4 | h4
          · exact Finset.mem_insert_of_mem (hinv.hsub X hXmem x h4)
          · rw [Finset.mem_singleton.mp h4]
            exact Finset.mem_insert_self k P
        · exact Finset.mem_insert_of_mem (hinv.hsub Y hYmem x h3)
      · rcases List.mem_append.mp h2 with h3 | h3
        · exact Finset.mem_insert_of_mem (hinv.hsub c (hmemold c
            (List.mem_append.mpr (Or.inl (List.mem_append.mpr (Or.inr h3))))) x hx)
        · exact Finset.mem_insert_of_mem (hinv.hsub c (hmemold c
            (List.mem_append.mpr (Or.inr h3))) x hx)
  · intro x hx
    rcases Finset.mem_insert.mp hx with rfl | hxP
    · refine ⟨G, hGmem, ?_⟩
      rw [harc]
      exact Finset.mem_union_left _ (Finset.mem_union_right _
        (Finset.mem_singleton_self x))
    · rcases hinv.hcov x hxP with ⟨c, hc, hxc⟩
      rcases List.mem_append.mp hc with h | h
      · exact ⟨c, List.mem_append.mpr (Or.inl h), hxc⟩
      · rcases List.mem_cons.mp h with rfl | h2
        · refine ⟨G, hGmem, ?_⟩
          rw [harc]
          exact Finset.mem_union_left _ (Finset.mem_union_left _ hxc)
        · rcases List.mem_append.mp h2 with h3 | h3
          · exact ⟨c, List.mem_append.mpr (Or.inr (List.mem_cons_of_mem _
              (List.mem_append.mpr (Or.inl h3)))), hxc⟩
          · rcases List.mem_cons.mp h3 with rfl | h4
            · refine ⟨G, hGmem, ?_⟩
              rw [harc]
              exact Finset.mem_union_right _ hxc
            · exact ⟨c, List.mem_append.mpr (Or.inr (List.mem_cons_of_mem _
                (List.mem_append.mpr (Or.inr h4)))), hxc⟩
  · rw [List.pairwise_append]
    refine ⟨p1, List.pairwise_cons.mpr ⟨?_, ?_⟩, ?_⟩
    · intro c hc
      rcases List.mem_append.mp hc with h | h
      · exact hdisjG c (List.mem_append.mpr (Or.inl (List.mem_append.mpr (Or.inr h))))
      · exact hdisjG c (List.mem_append.mpr (Or.inr h))
    · rw [List.pairwise_append]
      refine ⟨p2, p3, ?_⟩
      intro a ha b hb
      exact cross2 a ha b (List.mem_cons_of_mem _ hb)
    · intro a ha b hb
      rcases List.mem_cons.mp hb with rfl | hb2
      · exact (hdisjG a (List.mem_append.mpr (Or.inl
          (List.mem_append.mpr (Or.inl ha))))).symm
      · rcases List.mem_append.mp hb2 with h3 | h3
        · exact cross1 a ha b (List.mem_cons_of_mem _ (List.mem_append.mpr (Or.inl h3)))
        · exact cross1 a ha b (List.mem_cons_of_mem _ (List.mem_append.mpr (Or.inr
            (List.mem_cons_of_mem _ h3))))
  · intro c hc
    have hstep : ∀ c2 ∈ l1 ++ l2 ++ l3,
        c2.1 - 1 ∉ insert k P ∧ c2.1 + ((c2.2.1 : ℕ) : ZMod n) ∉ insert k P := by
      intro c2 hc2
      rcases hother c2 hc2 with ⟨ho1, ho2⟩
      rcases hinv.hmax c2 (hmemold c2 hc2) with ⟨hm1, hm2⟩
      constructor
      · intro hmem
        rcases Finset.mem_insert.mp hmem with hk2 | hP2
        · exact ho1 hk2
        · exact hm1 hP2
      · intro hmem
        rcases Finset.mem_insert.mp hmem with hk2 | hP2
        · exact ho2 hk2
        · exact hm2 hP2
    rcases List.mem_append.mp hc with h | h
    · exact hstep c (List.mem_append.mpr (Or.inl (List.mem_append.mpr (Or.inl h))))
    · rcases List.mem_cons.mp h with rfl | h2
      · exact ⟨hmaxG1, hmaxG2⟩
      · rcases List.mem_append.mp h2 with h3 | h3
        · exact hstep c (List.mem_append.mpr (Or.inl (List.mem_append.mpr (Or.inr h3))))
        · exact hstep c (List.mem_append.mpr (Or.inr h3))

theorem inv_update_none {n : ℕ} {v : ZMod n → Pt} {P : Finset (ZMod n)}
    {cs : List (ZMod n × ℕ × Bool)} {subs : List SubContour}
    (hinv : ChainInv n v P cs subs) (hn : 3 ≤ n) {k : ZMod n} (hkP : k ∉ P)
    (hA : k - 1 ∉ P) (hB : k + 1 ∉ P) {nsc : SubContour} {nb : Bool}
    (hnew : nsc.segments = chain_segs n v k 1 nb) :
    ChainInv n v (insert k P) (cs ++ [(k, 1, nb)]) (subs ++ [nsc]) := by
  have h10 : (1 : ZMod n) ≠ 0 := by
    have h := zmod_natCast_ne_zero (le_refl 1) (show 1 < n by omega)
    rwa [Nat.cast_one] at h
  have hnotouch : ∀ c ∈ cs, c.1 - 1 ≠ k ∧ c.1 + ((c.2.1 : ℕ) : ZMod n) ≠ k := by
    intro c hc
    constructor
    · intro he
      have hc1 : c.1 = k + 1 := by rw [← he]; ring
      apply hB
      rw [← hc1]
      exact hinv.hsub c hc c.1 (@arcSet_start_mem n c.1 c.2.1 (hinv.hlen c hc).1)
    · intro he
      apply hA
      have hm := @arcSet_last_mem n c.1 c.2.1 (hinv.hlen c hc).1
      rw [he] at hm
      exact hinv.hsub c hc (k - 1) hm
  have harcnew : arcSet n (k, 1, nb).1 (k, 1, nb).2.1 = {k} := arcSet_one k
  refine ⟨?_, ?_, ?_, ?_, ?_, ?_⟩
  · exact List.rel_append hinv.hmatch (List.Forall₂.cons hnew List.Forall₂.nil)
  · intro c hc
    rcases List.mem_append.mp hc with h | h
    · exact hinv.hlen c h
    · rcases List.mem_singleton.mp h with rfl
      exact ⟨le_refl 1, show (1 : ℕ) ≤ n - 1 by omega⟩
  · intro c hc x hx
    rcases List.mem_append.mp hc with h | h
    · exact Finset.mem_insert_of_mem (hinv.hsub c h x hx)
    · rcases List.mem_singleton.mp h with rfl
      rw [harcnew, Finset.mem_singleton] at hx
      rw [hx]
      exact Finset.mem_insert_self k P
  · intro x hx
    rcases Finset.mem_insert.mp hx with rfl | hxP
    · refine ⟨(x, 1, nb), List.mem_append.mpr (Or.inr (List.mem_singleton_self _)), ?_⟩
      rw [arcSet_one, Finset.mem_singleton]
    · rcases hinv.hcov x hxP with ⟨c, hc, hxc⟩
      exact ⟨c, List.mem_append.mpr (Or.inl hc), hxc⟩
  · rw [List.pairwise_append]
    refine ⟨hinv.hdisj, List.pairwise_singleton _ _, ?_⟩
    intro a ha b hb
    rcases List.mem_singleton.mp hb with rfl
    rw [show ((k, 1, nb) : ZMod n × ℕ × Bool).1 = k from rfl,
      show ((k, 1, nb) : ZMod n × ℕ × Bool).2.1 = 1 from rfl, arcSet_one,
      Finset.disjoint_singleton_right]
    intro hka
    exact hkP (hinv.hsub a ha k hka)
  · intro c hc
    rcases List.mem_append.mp hc with h | h
    · rcases hnotouch c h with ⟨ho1, ho2⟩
      rcases hinv.hmax c h with ⟨hm1, hm2⟩
      constructor
      · intro hmem
        rcases Finset.mem_insert.mp hmem with hk2 | hP2
        · exact ho1 hk2
        · exact hm1 hP2
      · intro hmem
        rcases Finset.mem_insert.mp hmem with hk2 | hP2
        · exact ho2 hk2
        · exact hm2 hP2
    · rcases List.mem_singleton.mp h with rfl
      constructor
      · intro hmem
        rcases Finset.mem_insert.mp hmem with hk2 | hP2
        · exact h10 (by
            have : k - 1 - k = (0 : ZMod n) := by rw [hk2]; ring
            have h2 : (-1 : ZMod n) = 0 := by rw [← this]; ring
            rw [← neg_neg (1 : ZMod n), h2]
            ring)
        · exact hA hP2
      · intro hmem
        rw [Nat.cast_one] at hmem
        rcases Finset.mem_insert.mp hmem with hk2 | hP2
        · exact h10 (by
            have : k + 1 - k = (0 : ZMod n) := by rw [hk2]; ring
            rw [← this]
            ring)
        · exact hB hP2

theorem mem_arcSet_all {n : ℕ} (hn : 1 ≤ n) (s y : ZMod n) : y ∈ arcSet n s n := by
  haveI : NeZero n := ⟨by omega⟩
  refine mem_arcSet.mpr ⟨(y - s).val, ZMod.val_lt _, ?_⟩
  rw [ZMod.natCast_rightInverse _]
  ring

theorem arc_len_bound {n : ℕ} (hn : 3 ≤ n) {Q : Finset (ZMod n)}
    (hQ : ∃ y, y ∉ Q) {s : ZMod n} {L : ℕ}
    (hsub : ∀ x ∈ arcSet n s L, x ∈ Q) : L ≤ n - 1 := by
  by_contra h
  rcases hQ with ⟨y, hy⟩
  apply hy
  apply hsub
  rcases mem_arcSet.mp (mem_arcSet_all (by omega) s y) with ⟨t, ht, hx⟩
  exact mem_arcSet.mpr ⟨t, by omega, hx⟩

theorem ch_avoid_sym_pair {n : ℕ} {c : ZMod n × ℕ × Bool} {i2 : ZMod n} {ℓ2 : ℕ}
    {d2 : Bool}
    (h1 : c.1 ≠ i2) (h2 : c.1 ≠ i2 + ((ℓ2 : ℕ) : ZMod n))
    (h3 : c.1 + ((c.2.1 : ℕ) : ZMod n) ≠ i2)
    (h4 : c.1 + ((c.2.1 : ℕ) : ZMod n) ≠ i2 + ((ℓ2 : ℕ) : ZMod n)) :
    ch_avoid n (ch_head i2 ℓ2 d2) (ch_last i2 ℓ2 d2) c := by
  cases d2
  · exact ch_avoid_of h2 h1 h4 h3
  · exact ch_avoid_of h1 h2 h3 h4

theorem inv_start_in_P {n : ℕ} {v : ZMod n → Pt} {P : Finset (ZMod n)}
    {cs : List (ZMod n × ℕ × Bool)} {subs : List SubContour}
    (hinv : ChainInv n v P cs subs) {c : ZMod n × ℕ × Bool} (hc : c ∈ cs) :
    c.1 ∈ P :=
  hinv.hsub c hc c.1 (@arcSet_start_mem n c.1 c.2.1 (hinv.hlen c hc).1)

theorem inv_last_edge_in_P {n : ℕ} {v : ZMod n → Pt} {P : Finset (ZMod n)}
    {cs : List (ZMod n × ℕ × Bool)} {subs : List SubContour}
    (hinv : ChainInv n v P cs subs) {c : ZMod n × ℕ × Bool} (hc : c ∈ cs) :
    c.1 + ((c.2.1 : ℕ) : ZMod n) - 1 ∈ P :=
  hinv.hsub c hc _ (@arcSet_last_mem n c.1 c.2.1 (hinv.hlen c hc).1)

theorem inv_right_end_ne {n : ℕ} {v : ZMod n → Pt} {P : Finset (ZMod n)}
    {cs : List (ZMod n × ℕ × Bool)} {subs : List SubContour}
    (hinv : ChainInv n v P cs subs) {c : ZMod n × ℕ × Bool} (hc : c ∈ cs)
    {k : ZMod n} (hk1 : k - 1 ∉ P) : c.1 + ((c.2.1 : ℕ) : ZMod n) ≠ k := by
  intro h
  apply hk1
  have hm := inv_last_edge_in_P hinv hc
  rwa [h] at hm

theorem inv_right_end_ne_succ {n : ℕ} {v : ZMod n → Pt} {P : Finset (ZMod n)}
    {cs : List (ZMod n × ℕ × Bool)} {subs : List SubContour}
    (hinv : ChainInv n v P cs subs) {c : ZMod n × ℕ × Bool} (hc : c ∈ cs)
    {k : ZMod n} (hk : k ∉ P) : c.1 + ((c.2.1 : ℕ) : ZMod n) ≠ k + 1 := by
  intro h
  exact hk (hinv.hsub c hc k (edge_of_right_end (hinv.hlen c hc).1 h))

theorem inv_start_ne {n : ℕ} {v : ZMod n → Pt} {P : Finset (ZMod n)}
    {cs : List (ZMod n × ℕ × Bool)} {subs : List SubContour}
    (hinv : ChainInv n v P cs subs) {c : ZMod n × ℕ × Bool} (hc : c ∈ cs)
    {x : ZMod n} (hx : x ∉ P) : c.1 ≠ x := by
  intro h
  exact hx (h ▸ inv_start_in_P hinv hc)

theorem step_none {n : ℕ} {v : ZMod n → Pt} {M : FloatModel}
    (hsep : ∀ a b : ZMod n, a ≠ b → ¬ nearPt (v a) (v b)) (hn : 3 ≤ n)
    {P : Finset (ZMod n)} {cs : List (ZMod n × ℕ × Bool)} {subs : List SubContour}
    (hinv : ChainInv n v P cs subs) {k : ZMod n} (hkP : k ∉ P)
    (hA : k - 1 ∉ P) (hB : k + 1 ∉ P) {nsc : SubContour} {nb : Bool}
    (hnew : nsc.segments = chain_segs n v k 1 nb) :
    scan_subs M nsc subs = .ok .noMatch ∧
      ChainInv n v (insert k P) (cs ++ [(k, 1, nb)]) (subs ++ [nsc]) := by
  refine ⟨?_, inv_update_none hinv hn hkP hA hB hnew⟩
  refine scan_none hsep hnew hinv.hmatch ?_
  intro c hc
  refine ⟨(hinv.hlen c hc).1, inv_avoid hinv hkP hc ?_ ?_⟩
  · exact inv_right_end_ne hinv hc hA
  · exact inv_start_ne hinv hc hB

theorem step_A {n : ℕ} {v : ZMod n → Pt} {M : FloatModel}
    (hsep : ∀ a b : ZMod n, a ≠ b → ¬ nearPt (v a) (v b)) (hn : 3 ≤ n)
    {P : Finset (ZMod n)} {cs : List (ZMod n × ℕ × Bool)} {subs : List SubContour}
    (hinv : ChainInv n v P cs subs) {k : ZMod n} (hkP : k ∉ P)
    (hA : k - 1 ∈ P) (hB : k + 1 ∉ P) (hP2 : ∃ y : ZMod n, y ∉ insert k P)
    {nsc : SubContour} {nb : Bool}
    (hnew : nsc.segments = chain_segs n v k 1 nb) :
    ∃ pre e2 post cs2, scan_subs M nsc subs = .ok (.elong pre e2 post) ∧
      ChainInv n v (insert k P) cs2 (pre ++ e2 :: post) := by
  have h10 : (1 : ZMod n) ≠ 0 := by
    have h := zmod_natCast_ne_zero (le_refl 1) (show 1 < n by omega)
    rwa [Nat.cast_one] at h
  rcases inv_find_A hinv hkP hA with ⟨A, hAmem, hAk⟩
  have hAlen := hinv.hlen A hAmem
  have harcG : arcSet n A.1 (A.2.1 + 1) = arcSet n A.1 A.2.1 ∪ {k} := by
    rw [arcSet_union A.1 A.2.1 1, hAk, arcSet_one]
  have hsubG : ∀ x ∈ arcSet n A.1 (A.2.1 + 1), x ∈ insert k P := by
    intro x hx
    rw [harcG] at hx
    rcases Finset.mem_union.mp hx with h | h
    · exact Finset.mem_insert_of_mem (hinv.hsub A hAmem x h)
    · rw [Finset.mem_singleton.mp h]
      exact Finset.mem_insert_self k P
  have hlenG : A.2.1 + 1 ≤ n - 1 := arc_len_bound hn hP2 hsubG
  rcases List.append_of_mem hAmem with ⟨cs1, cs2, hcseq⟩
  subst hcseq
  rcases forall₂_split hinv.hmatch with ⟨subs1, scA, subs2, hseq, hchA, hF1, hF2⟩
  subst hseq
  have hnodup := inv_nodup hinv
  have hAnotin : A ∉ cs1 ++ cs2 :=
    (List.nodup_cons.mp (List.nodup_middle.mp hnodup)).1
  have hnew2 : nsc.segments = chain_segs n v (A.1 + ((A.2.1 : ℕ) : ZMod n)) 1 nb := by
    rw [hAk]
    exact hnew
  rcases elong_right hsep hchA hnew2 hAlen.1 hlenG hn with ⟨merged, hel, hms⟩
  have hncl : sc_is_closed M merged = .ok false :=
    chain_not_closed hsep hms (by omega) (by omega)
  have havoid1 : ∀ c ∈ cs1, 1 ≤ c.2.1 ∧ ch_avoid n k (k + 1) c := by
    intro c hc
    have hcmem : c ∈ cs1 ++ A :: cs2 := List.mem_append.mpr (Or.inl hc)
    refine ⟨(hinv.hlen c hcmem).1, inv_avoid hinv hkP hcmem ?_ ?_⟩
    · intro he
      have hca : c = A := inv_unique_A hinv hcmem hAmem he hAk
      rw [hca] at hc
      exact hAnotin (List.mem_append.mpr (Or.inl hc))
    · exact inv_start_ne hinv hcmem hB
  have hk1cast : A.1 + ((A.2.1 + 1 : ℕ) : ZMod n) = k + 1 := by
    push_cast
    rw [← add_assoc, hAk]
  have havoid2 : ∀ c ∈ cs2, 1 ≤ c.2.1 ∧
      ch_avoid n (ch_head A.1 (A.2.1 + 1) A.2.2) (ch_last A.1 (A.2.1 + 1) A.2.2) c := by
    intro c hc
    have hcmem : c ∈ cs1 ++ A :: cs2 :=
      List.mem_append.mpr (Or.inr (List.mem_cons_of_mem _ hc))
    refine ⟨(hinv.hlen c hcmem).1, ch_avoid_sym_pair ?_ ?_ ?_ ?_⟩
    · intro he
      have hx : A.1 ∈ arcSet n c.1 c.2.1 := by
        rw [← he]
        exact @arcSet_start_mem n c.1 c.2.1 (hinv.hlen c hcmem).1
      have hca : c = A := chains_overlap_eq hinv.hdisj hcmem hAmem hx
        (@arcSet_start_mem n A.1 A.2.1 hAlen.1)
      rw [hca] at hc
      exact hAnotin (List.mem_append.mpr (Or.inr hc))
    · rw [hk1cast]
      exact inv_start_ne hinv hcmem hB
    · intro he
      apply (hinv.hmax A hAmem).1
      have hm := inv_last_edge_in_P hinv hcmem
      rwa [he] at hm
    · rw [hk1cast]
      exact inv_right_end_ne_succ hinv hcmem hkP
  have hchain : chain_scan M merged subs2 = .ok (merged, subs2) :=
    chain_scan_none hsep hms (by omega) hF2 havoid2
  have hscan := scan_elong hsep hnew hel hncl hchain hF1 havoid1
  have hmaxG1 : A.1 - 1 ∉ insert k P := by
    intro hmem
    rcases Finset.mem_insert.mp hmem with he | hP2x
    · apply hB
      have hc1 : A.1 = k + 1 := by rw [← he]; ring
      rw [← hc1]
      exact inv_start_in_P hinv hAmem
    · exact (hinv.hmax A hAmem).1 hP2x
  have hmaxG2 : A.1 + ((A.2.1 + 1 : ℕ) : ZMod n) ∉ insert k P := by
    rw [hk1cast]
    intro hmem
    rcases Finset.mem_insert.mp hmem with he | hP2x
    · apply h10
      have hz : k + 1 - k = (0 : ZMod n) := by rw [he]; ring
      rw [← hz]
      ring
    · exact hB hP2x
  have hother : ∀ c ∈ cs1 ++ cs2, c.1 - 1 ≠ k ∧ c.1 + ((c.2.1 : ℕ) : ZMod n) ≠ k := by
    intro c hc
    have hcmem : c ∈ cs1 ++ A :: cs2 := by
      rcases List.mem_append.mp hc with h | h
      · exact List.mem_append.mpr (Or.inl h)
      · exact List.mem_append.mpr (Or.inr (List.mem_cons_of_mem _ h))
    constructor
    · intro he
      apply hB
      have hc1 : c.1 = k + 1 := by rw [← he]; ring
      rw [← hc1]
      exact inv_start_in_P hinv hcmem
    · intro he
      have hca : c = A := inv_unique_A hinv hcmem hAmem he hAk
      rw [hca] at hc
      exact hAnotin hc
  have hGsc : chain_sc n v (A.1, A.2.1 + 1, A.2.2) merged := hms
  refine ⟨subs1, merged, subs2, cs1 ++ (A.1, A.2.1 + 1, A.2.2) :: cs2, hscan, ?_⟩
  exact inv_update_single hinv hn hkP hF1 hF2 hGsc harcG
    (show 1 ≤ A.2.1 + 1 by omega) (show A.2.1 + 1 ≤ n - 1 from hlenG)
    hmaxG1 hmaxG2 hother

theorem step_B {n : ℕ} {v : ZMod n → Pt} {M : FloatModel}
    (hsep : ∀ a b : ZMod n, a ≠ b → ¬ nearPt (v a) (v b)) (hn : 3 ≤ n)
    {P : Finset (ZMod n)} {cs : List (ZMod n × ℕ × Bool)} {subs : List SubContour}
    (hinv : ChainInv n v P cs subs) {k : ZMod n} (hkP : k ∉ P)
    (hA : k - 1 ∉ P) (hB : k + 1 ∈ P) (hP2 : ∃ y : ZMod n, y ∉ insert k P)
    {nsc : SubContour} {nb : Bool}
    (hnew : nsc.segments = chain_segs n v k 1 nb) :
    ∃ pre e2 post cs2, scan_subs M nsc subs = .ok (.elong pre e2 post) ∧
      ChainInv n v (insert k P) cs2 (pre ++ e2 :: post) := by
  have h10 : (1 : ZMod n) ≠ 0 := by
    have h := zmod_natCast_ne_zero (le_refl 1) (show 1 < n by omega)
    rwa [Nat.cast_one] at h
  rcases inv_find_B hinv hkP hB with ⟨Bc, hBmem, hBk⟩
  have hBlen := hinv.hlen Bc hBmem
  have harcG : arcSet n k (Bc.2.1 + 1) = arcSet n Bc.1 Bc.2.1 ∪ {k} := by
    rw [show Bc.2.1 + 1 = 1 + Bc.2.1 by omega, arcSet_union k 1 Bc.2.1, arcSet_one,
      Nat.cast_one, ← hBk, Finset.union_comm]
  have hsubG : ∀ x ∈ arcSet n k (Bc.2.1 + 1), x ∈ insert k P := by
    intro x hx
    rw [harcG] at hx
    rcases Finset.mem_union.mp hx with h | h
    · exact Finset.mem_insert_of_mem (hinv.hsub Bc hBmem x h)
    · rw [Finset.mem_singleton.mp h]
      exact Finset.mem_insert_self k P
  have hlenG : Bc.2.1 + 1 ≤ n - 1 := arc_len_bound hn hP2 hsubG
  rcases List.append_of_mem hBmem with ⟨cs1, cs2, hcseq⟩
  subst hcseq
  rcases forall₂_split hinv.hmatch with ⟨subs1, scB, subs2, hseq, hchB, hF1, hF2⟩
  subst hseq
  have hnodup := inv_nodup hinv
  have hBnotin : Bc ∉ cs1 ++ cs2 :=
    (List.nodup_cons.mp (List.nodup_middle.mp hnodup)).1
  have hnc : Bc.1 + ((Bc.2.1 : ℕ) : ZMod n) ≠ k := inv_right_end_ne hinv hBmem hA
  rcases elong_left hsep hchB hnew hBk.symm hnc hBlen.1 hlenG hn with ⟨merged, hel, hms⟩
  have hncl : sc_is_closed M merged = .ok false :=
    chain_not_closed hsep hms (by omega) (by omega)
  have havoid1 : ∀ c ∈ cs1, 1 ≤ c.2.1 ∧ ch_avoid n k (k + 1) c := by
    intro c hc
    have hcmem : c ∈ cs1 ++ Bc :: cs2 := List.mem_append.mpr (Or.inl hc)
    refine ⟨(hinv.hlen c hcmem).1, inv_avoid hinv hkP hcmem ?_ ?_⟩
    · exact inv_right_end_ne hinv hcmem hA
    · intro he
      have hcb : c = Bc := inv_unique_B hinv hcmem hBmem he hBk
      rw [hcb] at hc
      exact hBnotin (List.mem_append.mpr (Or.inl hc))
  have hm : k + ((Bc.2.1 + 1 : ℕ) : ZMod n) =
      Bc.1 + ((Bc.2.1 : ℕ) : ZMod n) := by
    rw [hBk]
    push_cast
    ring
  have havoid2 : ∀ c ∈ cs2, 1 ≤ c.2.1 ∧
      ch_avoid n (ch_head k (Bc.2.1 + 1) Bc.2.2) (ch_last k (Bc.2.1 + 1) Bc.2.2) c := by
    intro c hc
    have hcmem : c ∈ cs1 ++ Bc :: cs2 :=
      List.mem_append.mpr (Or.inr (List.mem_cons_of_mem _ hc))
    refine ⟨(hinv.hlen c hcmem).1, ch_avoid_sym_pair ?_ ?_ ?_ ?_⟩
    · exact inv_start_ne hinv hcmem hkP
    · rw [hm]
      exact inv_start_ne hinv hcmem ((hinv.hmax Bc hBmem).2)
    · exact inv_right_end_ne hinv hcmem hA
    · rw [hm]
      intro he
      have hx1 : Bc.1 + ((Bc.2.1 : ℕ) : ZMod n) - 1 ∈ arcSet n c.1 c.2.1 := by
        have hx := @arcSet_last_mem n c.1 c.2.1 (hinv.hlen c hcmem).1
        rwa [he] at hx
      have hx2 := @arcSet_last_mem n Bc.1 Bc.2.1 hBlen.1
      have hcb : c = Bc := chains_overlap_eq hinv.hdisj hcmem hBmem hx1 hx2
      rw [hcb] at hc
      exact hBnotin (List.mem_append.mpr (Or.inr hc))
  have hchain : chain_scan M merged subs2 = .ok (merged, subs2) :=
    chain_scan_none hsep hms (by omega) hF2 havoid2
  have hscan := scan_elong hsep hnew hel hncl hchain hF1 havoid1
  have hmaxG1 : k - 1 ∉ insert k P := by
    intro hmem
    rcases Finset.mem_insert.mp hmem with he | hP2x
    · apply h10
      have hz : k - 1 - k = (0 : ZMod n) := by rw [he]; ring
      have h2 : (-1 : ZMod n) = 0 := by rw [← hz]; ring
      rw [← neg_neg (1 : ZMod n), h2]
      ring
    · exact hA hP2x
  have hmaxG2 : k + ((Bc.2.1 + 1 : ℕ) : ZMod n) ∉ insert k P := by
    rw [hm]
    intro hmem
    rcases Finset.mem_insert.mp hmem with he | hP2x
    · apply hA
      have hmm := inv_last_edge_in_P hinv hBmem
      rwa [he] at hmm
    · exact (hinv.hmax Bc hBmem).2 hP2x
  have hother : ∀ c ∈ cs1 ++ cs2, c.1 - 1 ≠ k ∧ c.1 + ((c.2.1 : ℕ) : ZMod n) ≠ k := by
    intro c hc
    have hcmem : c ∈ cs1 ++ Bc :: cs2 := by
      rcases List.mem_append.mp hc with h | h
      · exact List.mem_append.mpr (Or.inl h)
      · exact List.mem_append.mpr (Or.inr (List.mem_cons_of_mem _ h))
    constructor
    · intro he
      have hc1 : c.1 = k + 1 := by rw [← he]; ring
      have hcb : c = Bc := inv_unique_B hinv hcmem hBmem hc1 hBk
      rw [hcb] at hc
      exact hBnotin hc
    · exact inv_right_end_ne hinv hcmem hA
  have hGsc : chain_sc n v (k, Bc.2.1 + 1, Bc.2.2) merged := hms
  refine ⟨subs1, merged, subs2, cs1 ++ (k, Bc.2.1 + 1, Bc.2.2) :: cs2, hscan, ?_⟩
  exact inv_update_single hinv hn hkP hF1 hF2 hGsc harcG
    (show 1 ≤ Bc.2.1 + 1 by omega) (show Bc.2.1 + 1 ≤ n - 1 from hlenG)
    hmaxG1 hmaxG2 hother

theorem step_AB {n : ℕ} {v : ZMod n → Pt} {M : FloatModel}
    (hsep : ∀ a b : ZMod n, a ≠ b → ¬ nearPt (v a) (v b)) (hn : 3 ≤ n)
    {P : Finset (ZMod n)} {cs : List (ZMod n × ℕ × Bool)} {subs : List SubContour}
    (hinv : ChainInv n v P cs subs) {k : ZMod n} (hkP : k ∉ P)
    (hA : k - 1 ∈ P) (hB : k + 1 ∈ P) (hP2 : ∃ y : ZMod n, y ∉ insert k P)
    {nsc : SubContour} {nb : Bool}
    (hnew : nsc.segments = chain_segs n v k 1 nb) :
    ∃ pre e2 post cs2, scan_subs M nsc subs = .ok (.elong pre e2 post) ∧
      ChainInv n v (insert k P) cs2 (pre ++ e2 :: post) := by
  have h10 : (1 : ZMod n) ≠ 0 := by
    have h := zmod_natCast_ne_zero (le_refl 1) (show 1 < n by omega)
    rwa [Nat.cast_one] at h
  rcases inv_find_A hinv hkP hA with ⟨A, hAmem, hAk⟩
  rcases inv_find_B hinv hkP hB with ⟨Bc, hBmem, hBk⟩
  have hAlen := hinv.hlen A hAmem
  have hBlen := hinv.hlen Bc hBmem
  have hABne : A ≠ Bc := by
    intro he
    rw [he] at hAk
    rcases hP2 with ⟨y, hy⟩
    have hyk : y ≠ k := by
      intro hc
      exact hy (hc ▸ Finset.mem_insert_self k P)
    have hyP : y ∉ P := fun hc => hy (Finset.mem_insert_of_mem hc)
    have hl : Bc.2.1 = n - 1 := by
      have h1 : ((Bc.2.1 : ℕ) : ZMod n) = ((n - 1 : ℕ) : ZMod n) := by
        have hcast : ((n - 1 : ℕ) : ZMod n) = -1 := by
          rw [Nat.cast_sub (by omega : 1 ≤ n), Nat.cast_one, ZMod.natCast_self]
          ring
        rw [hcast]
        rw [hBk] at hAk
        linear_combination hAk
      exact zmod_natCast_inj (by omega) (by omega) h1
    apply hyP
    have hmem2 : y ∈ arcSet n Bc.1 Bc.2.1 := by
      rw [hBk, hl]
      exact mem_arcSet_compl hn hyk
    exact hinv.hsub Bc hBmem y hmem2
  have hk1cast : A.1 + ((A.2.1 + 1 : ℕ) : ZMod n) = k + 1 := by
    push_cast
    rw [← add_assoc, hAk]
  have harcA1 : arcSet n A.1 (A.2.1 + 1) = arcSet n A.1 A.2.1 ∪ {k} := by
    rw [arcSet_union A.1 A.2.1 1, hAk, arcSet_one]
  have harcK : arcSet n k (Bc.2.1 + 1) = arcSet n Bc.1 Bc.2.1 ∪ {k} := by
    rw [show Bc.2.1 + 1 = 1 + Bc.2.1 by omega, arcSet_union k 1 Bc.2.1, arcSet_one,
      Nat.cast_one, ← hBk, Finset.union_comm]
  have hbigarc : arcSet n A.1 (A.2.1 + 1 + Bc.2.1) =
      arcSet n A.1 A.2.1 ∪ {k} ∪ arcSet n Bc.1 Bc.2.1 := by
    rw [arcSet_union A.1 (A.2.1 + 1) Bc.2.1, harcA1, hk1cast, ← hBk]
  have hsubBig : ∀ x ∈ arcSet n A.1 (A.2.1 + 1 + Bc.2.1), x ∈ insert k P := by
    intro x hx
    rw [hbigarc] at hx
    rcases Finset.mem_union.mp hx with h | h
    · rcases Finset.mem_union.mp h with h2 | h2
      · exact Finset.mem_insert_of_mem (hinv.hsub A hAmem x h2)
      · rw [Finset.mem_singleton.mp h2]
        exact Finset.mem_insert_self k P
    · exact Finset.mem_insert_of_mem (hinv.hsub Bc hBmem x h)
  have hLsum : A.2.1 + 1 + Bc.2.1 ≤ n - 1 := arc_len_bound hn hP2 hsubBig
  have hmend : A.1 + ((A.2.1 + 1 + Bc.2.1 : ℕ) : ZMod n) =
      Bc.1 + ((Bc.2.1 : ℕ) : ZMod n) := by
    rw [hBk]
    push_cast
    rw [← hAk]
    ring
  have hmaxG1 : A.1 - 1 ∉ insert k P := by
    intro hmem
    rcases Finset.mem_insert.mp hmem with he | hP2x
    · have hc1 : A.1 = k + 1 := by rw [← he]; ring
      exact hABne (inv_unique_B hinv hAmem hBmem hc1 hBk)
    · exact (hinv.hmax A hAmem).1 hP2x
  have hmaxG2 : A.1 + ((A.2.1 + 1 + Bc.2.1 : ℕ) : ZMod n) ∉ insert k P := by
    rw [hmend]
    intro hmem
    rcases Finset.mem_insert.mp hmem with he | hP2x
    · exact hABne (inv_unique_A hinv hAmem hBmem hAk he)
    · exact (hinv.hmax Bc hBmem).2 hP2x
  rcases List.append_of_mem hAmem with ⟨a1, a2, hcseq⟩
  subst hcseq
  have hAnotin : A ∉ a1 ++ a2 :=
    (List.nodup_cons.mp (List.nodup_middle.mp (inv_nodup hinv))).1
  rcases List.mem_append.mp hBmem with hBin1 | hBin2
  · -- B comes first in the list
    rcases List.append_of_mem hBin1 with ⟨b1, b1x, ha1eq⟩
    subst ha1eq
    have hshape : (b1 ++ Bc :: b1x) ++ A :: a2 = b1 ++ Bc :: (b1x ++ A :: a2) := by
      simp
    rw [hshape] at hinv hAmem hBmem
    have hBnotin : Bc ∉ b1 ++ (b1x ++ A :: a2) :=
      (List.nodup_cons.mp (List.nodup_middle.mp (inv_nodup hinv))).1
    have hA1 : A ∉ b1 := fun h =>
      hAnotin (List.mem_append.mpr (Or.inl (List.mem_append.mpr (Or.inl h))))
    have hA2 : A ∉ b1x := fun h =>
      hAnotin (List.mem_append.mpr (Or.inl (List.mem_append.mpr
        (Or.inr (List.mem_cons_of_mem _ h)))))
    have hA3 : A ∉ a2 := fun h => hAnotin (List.mem_append.mpr (Or.inr h))
    have hB1 : Bc ∉ b1 := fun h => hBnotin (List.mem_append.mpr (Or.inl h))
    have hB2 : Bc ∉ b1x := fun h =>
      hBnotin (List.mem_append.mpr (Or.inr (List.mem_append.mpr (Or.inl h))))
    have hB3 : Bc ∉ a2 := fun h =>
      hBnotin (List.mem_append.mpr (Or.inr (List.mem_append.mpr
        (Or.inr (List.mem_cons_of_mem _ h)))))
    rcases forall₂_split hinv.hmatch with ⟨s1, scB, s2, hseq, hchB, hFb1, hFmid⟩
    subst hseq
    rcases forall₂_split hFmid with ⟨t1, scA, t2, hseq2, hchA, hFb1x, hFa2⟩
    subst hseq2
    have hmemof : ∀ c, c ∈ b1 ∨ c ∈ b1x ∨ c ∈ a2 →
        c ∈ b1 ++ Bc :: (b1x ++ A :: a2) := by
      intro c hc
      rcases hc with h | h | h
      · exact List.mem_append.mpr (Or.inl h)
      · exact List.mem_append.mpr (Or.inr (List.mem_cons_of_mem _
          (List.mem_append.mpr (Or.inl h))))
      · exact List.mem_append.mpr (Or.inr (List.mem_cons_of_mem _
          (List.mem_append.mpr (Or.inr (List.mem_cons_of_mem _ h)))))
    have hnc : Bc.1 + ((Bc.2.1 : ℕ) : ZMod n) ≠ k := by
      intro he
      exact hABne (inv_unique_A hinv hBmem hAmem he hAk).symm
    rcases elong_left hsep hchB hnew hBk.symm hnc hBlen.1 (by omega) hn
      with ⟨merged, hel, hms⟩
    have hncl : sc_is_closed M merged = .ok false :=
      chain_not_closed hsep hms (by omega) (by omega)
    have hD : scA.segments = chain_segs n v A.1 A.2.1 A.2.2 := hchA
    rcases stitch_left hsep hms hD hAk (by omega) hAlen.1 (by omega) hn
      with ⟨merged2, hst, hms2⟩
    have hm : k + ((Bc.2.1 + 1 : ℕ) : ZMod n) =
        Bc.1 + ((Bc.2.1 : ℕ) : ZMod n) := by
      rw [hBk]
      push_cast
      ring
    have havoid1 : ∀ c ∈ b1, 1 ≤ c.2.1 ∧ ch_avoid n k (k + 1) c := by
      intro c hc
      have hcmem := hmemof c (Or.inl hc)
      refine ⟨(hinv.hlen c hcmem).1, inv_avoid hinv hkP hcmem ?_ ?_⟩
      · intro he
        have hca : c = A := inv_unique_A hinv hcmem hAmem he hAk
        rw [hca] at hc
        exact hA1 hc
      · intro he
        have hcb : c = Bc := inv_unique_B hinv hcmem hBmem he hBk
        rw [hcb] at hc
        exact hB1 hc
    have havoidmid : ∀ c ∈ b1x, 1 ≤ c.2.1 ∧
        ch_avoid n (ch_head k (Bc.2.1 + 1) Bc.2.2)
          (ch_last k (Bc.2.1 + 1) Bc.2.2) c := by
      intro c hc
      have hcmem := hmemof c (Or.inr (Or.inl hc))
      refine ⟨(hinv.hlen c hcmem).1, ch_avoid_sym_pair ?_ ?_ ?_ ?_⟩
      · exact inv_start_ne hinv hcmem hkP
      · rw [hm]
        exact inv_start_ne hinv hcmem ((hinv.hmax Bc hBmem).2)
      · intro he
        have hca : c = A := inv_unique_A hinv hcmem hAmem he hAk
        rw [hca] at hc
        exact hA2 hc
      · rw [hm]
        intro he
        have hx1 : Bc.1 + ((Bc.2.1 : ℕ) : ZMod n) - 1 ∈ arcSet n c.1 c.2.1 := by
          have hx := @arcSet_last_mem n c.1 c.2.1 (hinv.hlen c hcmem).1
          rwa [he] at hx
        have hcb : c = Bc := chains_overlap_eq hinv.hdisj hcmem hBmem hx1
          (@arcSet_last_mem n Bc.1 Bc.2.1 hBlen.1)
        rw [hcb] at hc
        exact hB2 hc
    have hchain : chain_scan M merged (t1 ++ scA :: t2) = .ok (merged2, t1 ++ t2) :=
      chain_scan_stitch hsep hms (by omega) hst t2 hFb1x havoidmid
    have hscan := scan_elong hsep hnew hel hncl hchain hFb1 havoid1
    have harcG : arcSet n A.1 (A.2.1 + (Bc.2.1 + 1)) =
        arcSet n Bc.1 Bc.2.1 ∪ {k} ∪ arcSet n A.1 A.2.1 := by
      rw [arcSet_union A.1 A.2.1 (Bc.2.1 + 1), hAk, harcK, Finset.union_comm]
    have hother : ∀ c ∈ b1 ++ b1x ++ a2,
        c.1 - 1 ≠ k ∧ c.1 + ((c.2.1 : ℕ) : ZMod n) ≠ k := by
      intro c hc
      have hcmem : c ∈ b1 ++ Bc :: (b1x ++ A :: a2) := by
        rcases List.mem_append.mp hc with h | h
        · rcases List.mem_append.mp h with h2 | h2
          · exact hmemof c (Or.inl h2)
          · exact hmemof c (Or.inr (Or.inl h2))
        · exact hmemof c (Or.inr (Or.inr h))
      constructor
      · intro he
        have hc1 : c.1 = k + 1 := by rw [← he]; ring
        have hcb : c = Bc := inv_unique_B hinv hcmem hBmem hc1 hBk
        subst hcb
        rcases List.mem_append.mp hc with h | h
        · rcases List.mem_append.mp h with h2 | h2
          · exact hB1 h2
          · exact hB2 h2
        · exact hB3 h
      · intro he
        have hca : c = A := inv_unique_A hinv hcmem hAmem he hAk
        subst hca
        rcases List.mem_append.mp hc with h | h
        · rcases List.mem_append.mp h with h2 | h2
          · exact hA1 h2
          · exact hA2 h2
        · exact hA3 h
    have hGsc : chain_sc n v (A.1, A.2.1 + (Bc.2.1 + 1), Bc.2.2) merged2 := hms2
    refine ⟨s1, merged2, t1 ++ t2, b1 ++ (A.1, A.2.1 + (Bc.2.1 + 1), Bc.2.2) ::
      (b1x ++ a2), hscan, ?_⟩
    refine inv_update_stitch hinv hn hkP hFb1 hFb1x hFa2 hGsc harcG
      (show 1 ≤ A.2.1 + (Bc.2.1 + 1) by omega)
      (show A.2.1 + (Bc.2.1 + 1) ≤ n - 1 by omega) hmaxG1 ?_ hother
    show A.1 + ((A.2.1 + (Bc.2.1 + 1) : ℕ) : ZMod n) ∉ insert k P
    rw [show A.2.1 + (Bc.2.1 + 1) = A.2.1 + 1 + Bc.2.1 by omega]
    exact hmaxG2
  · -- A comes first in the list
    rcases List.mem_cons.mp hBin2 with heq | hBin3
    · exact absurd heq.symm hABne
    rcases List.append_of_mem hBin3 with ⟨b1, b2, ha2eq⟩
    subst ha2eq
    have hBnotin : Bc ∉ (a1 ++ b1) ++ b2 := by
      have hnd2 := (List.nodup_cons.mp (List.nodup_middle.mp (inv_nodup hinv))).2
      rw [← List.append_assoc] at hnd2
      exact (List.nodup_cons.mp (List.nodup_middle.mp hnd2)).1
    have hA1 : A ∉ a1 := fun h => hAnotin (List.mem_append.mpr (Or.inl h))
    have hA2 : A ∉ b1 := fun h =>
      hAnotin (List.mem_append.mpr (Or.inr (List.mem_append.mpr (Or.inl h))))
    have hA3 : A ∉ b2 := fun h =>
      hAnotin (List.mem_append.mpr (Or.inr (List.mem_append.mpr
        (Or.inr (List.mem_cons_of_mem _ h)))))
    have hB1 : Bc ∉ a1 := fun h =>
      hBnotin (List.mem_append.mpr (Or.inl (List.mem_append.mpr (Or.inl h))))
    have hB2 : Bc ∉ b1 := fun h =>
      hBnotin (List.mem_append.mpr (Or.inl (List.mem_append.mpr (Or.inr h))))
    have hB3 : Bc ∉ b2 := fun h => hBnotin (List.mem_append.mpr (Or.inr h))
    rcases forall₂_split hinv.hmatch with ⟨s1, scA, s2, hseq, hchA, hFa1, hFmid⟩
    subst hseq
    rcases forall₂_split hFmid with ⟨t1, scB, t2, hseq2, hchB, hFb1, hFb2⟩
    subst hseq2
    have hmemof : ∀ c, c ∈ a1 ∨ c ∈ b1 ∨ c ∈ b2 →
        c ∈ a1 ++ A :: (b1 ++ Bc :: b2) := by
      intro c hc
      rcases hc with h | h | h
      · exact List.mem_append.mpr (Or.inl h)
      · exact List.mem_append.mpr (Or.inr (List.mem_cons_of_mem _
          (List.mem_append.mpr (Or.inl h))))
      · exact List.mem_append.mpr (Or.inr (List.mem_cons_of_mem _
          (List.mem_append.mpr (Or.inr (List.mem_cons_of_mem _ h)))))
    have hnew2 : nsc.segments =
        chain_segs n v (A.1 + ((A.2.1 : ℕ) : ZMod n)) 1 nb := by
      rw [hAk]
      exact hnew
    rcases elong_right hsep hchA hnew2 hAlen.1 (by omega) hn with ⟨merged, hel, hms⟩
    have hncl : sc_is_closed M merged = .ok false :=
      chain_not_closed hsep hms (by omega) (by omega)
    have hD : scB.segments =
        chain_segs n v (A.1 + ((A.2.1 + 1 : ℕ) : ZMod n)) Bc.2.1 Bc.2.2 := by
      rw [hk1cast, ← hBk]
      exact hchB
    rcases stitch_right hsep hms hD (by omega) hBlen.1 (by omega) hn
      with ⟨merged2, hst, hms2⟩
    have havoid1 : ∀ c ∈ a1, 1 ≤ c.2.1 ∧ ch_avoid n k (k + 1) c := by
      intro c hc
      have hcmem := hmemof c (Or.inl hc)
      refine ⟨(hinv.hlen c hcmem).1, inv_avoid hinv hkP hcmem ?_ ?_⟩
      · intro he
        have hca : c = A := inv_unique_A hinv hcmem hAmem he hAk
        rw [hca] at hc
        exact hA1 hc
      · intro he
        have hcb : c = Bc := inv_unique_B hinv hcmem hBmem he hBk
        rw [hcb] at hc
        exact hB1 hc
    have havoidmid : ∀ c ∈ b1, 1 ≤ c.2.1 ∧
        ch_avoid n (ch_head A.1 (A.2.1 + 1) A.2.2)
          (ch_last A.1 (A.2.1 + 1) A.2.2) c := by
      intro c hc
      have hcmem := hmemof c (Or.inr (Or.inl hc))
      refine ⟨(hinv.hlen c hcmem).1, ch_avoid_sym_pair ?_ ?_ ?_ ?_⟩
      · intro he
        have hx : A.1 ∈ arcSet n c.1 c.2.1 := by
          rw [← he]
          exact @arcSet_start_mem n c.1 c.2.1 (hinv.hlen c hcmem).1
        have hca : c = A := chains_overlap_eq hinv.hdisj hcmem hAmem hx
          (@arcSet_start_mem n A.1 A.2.1 hAlen.1)
        rw [hca] at hc
        exact hA2 hc
      · rw [hk1cast]
        intro he
        have hcb : c = Bc := inv_unique_B hinv hcmem hBmem he hBk
        rw [hcb] at hc
        exact hB2 hc
      · intro he
        apply (hinv.hmax A hAmem).1
        have hmm := inv_last_edge_in_P hinv hcmem
        rwa [he] at hmm
      · rw [hk1cast]
        exact inv_right_end_ne_succ hinv hcmem hkP
    have hchain : chain_scan M merged (t1 ++ scB :: t2) = .ok (merged2, t1 ++ t2) :=
      chain_scan_stitch hsep hms (by omega) hst t2 hFb1 havoidmid
    have hscan := scan_elong hsep hnew hel hncl hchain hFa1 havoid1
    have hother : ∀ c ∈ a1 ++ b1 ++ b2,
        c.1 - 1 ≠ k ∧ c.1 + ((c.2.1 : ℕ) : ZMod n) ≠ k := by
      intro c hc
      have hcmem : c ∈ a1 ++ A :: (b1 ++ Bc :: b2) := by
        rcases List.mem_append.mp hc with h | h
        · rcases List.mem_append.mp h with h2 | h2
          · exact hmemof c (Or.inl h2)
          · exact hmemof c (Or.inr (Or.inl h2))
        · exact hmemof c (Or.inr (Or.inr h))
      constructor
      · intro he
        have hc1 : c.1 = k + 1 := by rw [← he]; ring
        have hcb : c = Bc := inv_unique_B hinv hcmem hBmem hc1 hBk
        subst hcb
        rcases List.mem_append.mp hc with h | h
        · rcases List.mem_append.mp h with h2 | h2
          · exact hB1 h2
          · exact hB2 h2
        · exact hB3 h
      · intro he
        have hca : c = A := inv_unique_A hinv hcmem hAmem he hAk
        subst hca
        rcases List.mem_append.mp hc with h | h
        · rcases List.mem_append.mp h with h2 | h2
          · exact hA1 h2
          · exact hA2 h2
        · exact hA3 h
    have hGsc : chain_sc n v (A.1, A.2.1 + 1 + Bc.2.1, A.2.2) merged2 := hms2
    refine ⟨s1, merged2, t1 ++ t2, a1 ++ (A.1, A.2.1 + 1 + Bc.2.1, A.2.2) ::
      (b1 ++ b2), hscan, ?_⟩
    exact inv_update_stitch hinv hn hkP hFa1 hFb1 hFb2 hGsc hbigarc
      (show 1 ≤ A.2.1 + 1 + Bc.2.1 by omega)
      (show A.2.1 + 1 + Bc.2.1 ≤ n - 1 from hLsum) hmaxG1 hmaxG2 hother

theorem path_segs_closed {n : ℕ} {v : ZMod n → Pt} {M : FloatModel} {sc : SubContour}
    {a b : ZMod n} {rest : List (ZMod n)}
    (hsc : sc.segments = path_segs n v (a :: b :: rest))
    (hlast : vlast b rest = a) :
    sc_is_closed M sc = .ok true := by
  rcases path_segs_getLast v rest a b with ⟨w, hw⟩
  have hh : sc.segments.head? = some (.line (v a) (v b)) := by
    rw [hsc, path_segs_cons₂]
    rfl
  have hl : sc.segments.getLast? = some (.line (v w) (v a)) := by
    rw [hsc]
    rw [hlast] at hw
    exact hw
  rw [sc_is_closed_of_lines hh hl, decide_eq_true (nearPt_refl (v a))]

theorem cyc_closed {n : ℕ} {v : ZMod n → Pt} {M : FloatModel} {sc : SubContour}
    {s : ZMod n} {d : Bool} (hn : 3 ≤ n)
    (hsc : sc.segments = cyc_segs n v s d) :
    sc_is_closed M sc = .ok true := by
  have hn1 : n - 1 + 1 = n := by omega
  have hn2 : n - 2 + 1 = n - 1 := by omega
  have hs : s + ((n : ℕ) : ZMod n) = s := by
    rw [ZMod.natCast_self]
    ring
  have h1 : run_up n s n = s :: run_up n (s + 1) (n - 1) := by
    have h := run_up_cons s (n - 1)
    rwa [hn1] at h
  cases d with
  | true =>
    have h2 : run_up n (s + 1) (n - 1) = (s + 1) :: run_up n (s + 1 + 1) (n - 2) := by
      have h := run_up_cons (s + 1) (n - 2)
      rwa [hn2] at h
    have hvl : vlast (s + 1) (run_up n (s + 1 + 1) (n - 2)) = s := by
      have h := run_up_vlast n s s (run_up n (s + 1) (n - 1)) h1
      rw [hs, h2, vlast_cons₂] at h
      exact h
    have hsc2 : sc.segments =
        path_segs n v (s :: (s + 1) :: run_up n (s + 1 + 1) (n - 2)) := by
      rw [hsc]
      show path_segs n v (run_up n s n) = _
      rw [h1, h2]
    exact path_segs_closed hsc2 hvl
  | false =>
    have hr1 : (run_up n s n).reverse = s :: (run_up n s (n - 1)).reverse := by
      have h := run_up_reverse_cons s (n - 1)
      rw [hn1] at h
      rwa [hs] at h
    have hr2 : (run_up n s (n - 1)).reverse =
        (s + ((n - 1 : ℕ) : ZMod n)) :: (run_up n s (n - 2)).reverse := by
      have h := run_up_reverse_cons s (n - 2)
      rwa [hn2] at h
    have hvl : vlast (s + ((n - 1 : ℕ) : ZMod n)) ((run_up n s (n - 2)).reverse) = s := by
      have hgl : ((run_up n s n).reverse).getLast? = some s := by
        rw [List.getLast?_reverse, h1, List.head?_cons]
      rw [hr1, hr2, getLast?_eq_vlast, vlast_cons₂] at hgl
      exact Option.some.inj hgl
    have hsc2 : sc.segments = path_segs n v
        (s :: (s + ((n - 1 : ℕ) : ZMod n)) :: (run_up n s (n - 2)).reverse) := by
      rw [hsc]
      show path_segs n v ((run_up n s n).reverse) = _
      rw [hr1, hr2]
    exact path_segs_closed hsc2 hvl

theorem step_close {n : ℕ} {v : ZMod n → Pt} {M : FloatModel}
    (hsep : ∀ a b : ZMod n, a ≠ b → ¬ nearPt (v a) (v b)) (hn : 3 ≤ n)
    {P : Finset (ZMod n)} {cs : List (ZMod n × ℕ × Bool)} {subs : List SubContour}
    (hinv : ChainInv n v P cs subs) {k : ZMod n} (hkP : k ∉ P)
    (hfull : ∀ y : ZMod n, y ∈ insert k P)
    {nsc : SubContour} {nb : Bool}
    (hnew : nsc.segments = chain_segs n v k 1 nb) :
    ∃ merged s dd, scan_subs M nsc subs = .ok (.closedC [] merged) ∧
      merged.segments = cyc_segs n v s dd ∧ sc_is_closed M merged = .ok true := by
  have h10 : (1 : ZMod n) ≠ 0 := by
    have h := zmod_natCast_ne_zero (le_refl 1) (show 1 < n by omega)
    rwa [Nat.cast_one] at h
  have hA : k - 1 ∈ P := by
    rcases Finset.mem_insert.mp (hfull (k - 1)) with he | h
    · exact absurd (by linear_combination -he) h10
    · exact h
  have hB : k + 1 ∈ P := by
    rcases Finset.mem_insert.mp (hfull (k + 1)) with he | h
    · exact absurd (by linear_combination he) h10
    · exact h
  rcases inv_find_B hinv hkP hB with ⟨Bc, hBmem, hBk⟩
  have hBlen := hinv.hlen Bc hBmem
  have hBend : Bc.1 + ((Bc.2.1 : ℕ) : ZMod n) = k := by
    rcases Finset.mem_insert.mp (hfull (Bc.1 + ((Bc.2.1 : ℕ) : ZMod n))) with he | h
    · exact he
    · exact absurd h (hinv.hmax Bc hBmem).2
  have hlB : Bc.2.1 = n - 1 := by
    have hcast : ((n - 1 : ℕ) : ZMod n) = -1 := by
      rw [Nat.cast_sub (by omega : 1 ≤ n), Nat.cast_one, ZMod.natCast_self]
      ring
    have h1 : ((Bc.2.1 : ℕ) : ZMod n) = ((n - 1 : ℕ) : ZMod n) := by
      rw [hcast]
      rw [hBk] at hBend
      linear_combination hBend
    exact zmod_natCast_inj (by omega) (by omega) h1
  rcases List.append_of_mem hBmem with ⟨a1, a2, hcseq⟩
  subst hcseq
  have hBnotin : Bc ∉ a1 ++ a2 :=
    (List.nodup_cons.mp (List.nodup_middle.mp (inv_nodup hinv))).1
  have hall : ∀ c ∈ a1 ++ Bc :: a2, c = Bc := by
    intro c hc
    have hc1P : c.1 ∈ P := inv_start_in_P hinv hc
    have hc1k : c.1 ≠ k := fun he => hkP (he ▸ hc1P)
    have hc1arcB : c.1 ∈ arcSet n Bc.1 Bc.2.1 := by
      rw [hBk, hlB]
      exact mem_arcSet_compl hn hc1k
    exact chains_overlap_eq hinv.hdisj hc hBmem
      (@arcSet_start_mem n c.1 c.2.1 (hinv.hlen c hc).1) hc1arcB
  have ha1 : a1 = [] := by
    rcases hx : a1 with _ | ⟨x, xs⟩
    · rfl
    · exfalso
      have hxB : x = Bc := hall x (by rw [hx]; simp)
      apply hBnotin
      rw [hx, ← hxB]
      simp
  have ha2 : a2 = [] := by
    rcases hx : a2 with _ | ⟨x, xs⟩
    · rfl
    · exfalso
      have hxB : x = Bc := hall x (by rw [hx]; simp)
      apply hBnotin
      rw [hx, ← hxB]
      simp
  subst ha1
  subst ha2
  rcases forall₂_split hinv.hmatch with ⟨s1, scC, s2, hseq, hchC, hF1, hF2⟩
  subst hseq
  have hs1 : s1 = [] := by cases hF1; rfl
  have hs2 : s2 = [] := by cases hF2; rfl
  subst hs1
  subst hs2
  have hsc : scC.segments = chain_segs n v Bc.1 (n - 1) Bc.2.2 := by
    have h : scC.segments = chain_segs n v Bc.1 Bc.2.1 Bc.2.2 := hchC
    rwa [hlB] at h
  rcases elong_close hsep hsc hnew hBk.symm hn with ⟨merged, hel, hms⟩
  have hcl : sc_is_closed M merged = .ok true := cyc_closed hn hms
  refine ⟨merged, if Bc.2.2 then k else Bc.1, Bc.2.2, ?_, hms, hcl⟩
  exact scan_close hsep hnew hel hcl ([] : List SubContour) List.Forall₂.nil
    (fun c hc => absurd hc (List.not_mem_nil c))

theorem path_segs_length {n : ℕ} (v : ZMod n → Pt) :
    ∀ l : List (ZMod n), (path_segs n v l).length = l.length - 1 := by
  intro l
  induction l with
  | nil => rfl
  | cons a t ih =>
    cases t with
    | nil => rfl
    | cons b r =>
      rw [path_segs_cons₂, List.length_cons, ih]
      simp

theorem cyc_length {n : ℕ} (v : ZMod n → Pt) (s : ZMod n) (d : Bool) :
    (cyc_segs n v s d).length = n := by
  cases d with
  | true =>
    show (path_segs n v (run_up n s n)).length = n
    rw [path_segs_length, run_up_length]
    omega
  | false =>
    show (path_segs n v ((run_up n s n).reverse)).length = n
    rw [path_segs_length, List.length_reverse, run_up_length]
    omega

theorem undirected_flip (p q : Pt) :
    undirected (.line q p) = undirected (.line p q) := by
  show (if q.1 < p.1 ∨ (q.1 = p.1 ∧ q.2 ≤ p.2) then some (q, p) else some (p, q)) =
    (if p.1 < q.1 ∨ (p.1 = q.1 ∧ p.2 ≤ q.2) then some (p, q) else some (q, p))
  by_cases h1 : p.1 < q.1 ∨ (p.1 = q.1 ∧ p.2 ≤ q.2)
  · rw [if_pos h1]
    by_cases h2 : q.1 < p.1 ∨ (q.1 = p.1 ∧ q.2 ≤ p.2)
    · rw [if_pos h2]
      have ha : p.1 = q.1 := by
        rcases h1 with h1 | ⟨h1a, h1b⟩ <;> rcases h2 with h2 | ⟨h2a, h2b⟩ <;> linarith
      have hb : p.2 = q.2 := by
        rcases h1 with h1 | ⟨h1a, h1b⟩ <;> rcases h2 with h2 | ⟨h2a, h2b⟩ <;> linarith
      have hpq : p = q := Prod.ext_iff.mpr ⟨ha, hb⟩
      rw [hpq]
    · rw [if_neg h2]
  · rw [if_neg h1]
    by_cases h2 : q.1 < p.1 ∨ (q.1 = p.1 ∧ q.2 ≤ p.2)
    · rw [if_pos h2]
    · rw [if_neg h2]
      exfalso
      push_neg at h1 h2
      have ha : p.1 = q.1 := le_antisymm h2.1 h1.1
      have hb1 := h1.2 ha
      have hb2 := h2.2 ha.symm
      linarith

theorem undirected_edge_of {n : ℕ} (v : ZMod n → Pt) (x : ZMod n) (f : Bool) :
    undirected (edge_of n v x f) = undirected (edge_of n v x false) := by
  cases f with
  | false => rfl
  | true => rw [edge_of_true, edge_of_false, undirected_flip]

theorem map_undirected_flip : ∀ {l : List Entity},
    (∀ e ∈ l, ∃ p q, e = Entity.line p q) →
    (l.map flip_line).map undirected = l.map undirected := by
  intro l
  induction l with
  | nil => intro _; rfl
  | cons e t ih =>
    intro hl
    rcases hl e (List.mem_cons_self _ _) with ⟨p, q, rfl⟩
    rw [List.map_cons, List.map_cons, List.map_cons]
    rw [ih (fun e2 he2 => hl e2 (List.mem_cons_of_mem _ he2))]
    congr 1
    show undirected (.line q p) = undirected (.line p q)
    exact undirected_flip p q

theorem path_segs_run_up {n : ℕ} (v : ZMod n → Pt) :
    ∀ (ℓ : ℕ) (i : ZMod n),
    path_segs n v (run_up n i ℓ) =
      (List.range ℓ).map fun t => edge_of n v (i + ((t : ℕ) : ZMod n)) false := by
  intro ℓ
  induction ℓ with
  | zero => intro i; rw [run_up_zero]; rfl
  | succ m ih =>
    intro i
    rw [run_up_cons]
    rcases run_up_head (i + 1) m with ⟨r, hr⟩
    rw [hr, path_segs_cons₂, ← hr, ih (i + 1)]
    rw [List.range_succ_eq_map, List.map_cons, List.map_map]
    congr 1
    · rw [edge_of_false]
      simp
    · refine List.map_congr_left ?_
      intro t _
      simp only [Function.comp_apply]
      congr 1
      push_cast
      ring

theorem cyc_perm {n : ℕ} (v : ZMod n → Pt) (hn : 3 ≤ n) (s : ZMod n) (d : Bool)
    (items : List (ZMod n × Bool))
    (hnd : (items.map Prod.fst).Nodup)
    (hcompl : ∀ x : ZMod n, x ∈ items.map Prod.fst) :
    ((cyc_segs n v s d).map undirected).Perm
      ((items.map fun ib => edge_of n v ib.1 ib.2).map undirected) := by
  haveI : NeZero n := ⟨by omega⟩
  have hrhs : (items.map fun ib => edge_of n v ib.1 ib.2).map undirected =
      (items.map Prod.fst).map fun x => undirected (edge_of n v x false) := by
    rw [List.map_map, List.map_map]
    refine List.map_congr_left ?_
    intro ib _
    simp only [Function.comp_apply]
    exact undirected_edge_of v ib.1 ib.2
  have hfwd : (path_segs n v (run_up n s n)).map undirected =
      ((List.range n).map fun t => s + ((t : ℕ) : ZMod n)).map
        fun x => undirected (edge_of n v x false) := by
    rw [path_segs_run_up, List.map_map, List.map_map]
    rfl
  have hperm : (((List.range n).map fun t => s + ((t : ℕ) : ZMod n)).map
      fun x => undirected (edge_of n v x false)).Perm
      ((items.map Prod.fst).map fun x => undirected (edge_of n v x false)) := by
    refine List.Perm.map _ ?_
    refine (List.perm_ext_iff_of_nodup ?_ hnd).mpr ?_
    · refine List.Nodup.map_on ?_ (List.nodup_range n)
      intro a ha b hb hab
      rw [List.mem_range] at ha hb
      exact zmod_add_natCast_inj s ha hb hab
    · intro x
      constructor
      · intro _
        exact hcompl x
      · intro _
        rw [List.mem_map]
        refine ⟨(x - s).val, ?_, ?_⟩
        · rw [List.mem_range]
          exact ZMod.val_lt (x - s)
        · rw [ZMod.natCast_rightInverse (x - s)]
          ring
  cases d with
  | true =>
    have h1 : (cyc_segs n v s true).map undirected =
        (path_segs n v (run_up n s n)).map undirected := rfl
    rw [h1, hfwd, hrhs]
    exact hperm
  | false =>
    rcases run_up_head s n with ⟨r, hr⟩
    have h1 : (cyc_segs n v s false).map undirected =
        ((path_segs n v (run_up n s n)).map undirected).reverse := by
      show (path_segs n v ((run_up n s n).reverse)).map undirected = _
      rw [hr, path_segs_reverse]
      rw [map_undirected_flip
        (fun e he => path_segs_lines v (s :: r) e (List.mem_reverse.mp he))]
      rw [List.map_reverse]
    rw [h1, hrhs]
    refine (List.reverse_perm ((path_segs n v (run_up n s n)).map undirected)).trans ?_
    rw [hfwd]
    exact hperm

theorem go_step {M : FloatModel} (p q : Pt) (rest : List Entity)
    (contours subs : List SubContour) :
    create_contours_go M (.line p q :: rest) contours subs = (do
      let nsc ← sc_push_back M scEmpty (.line p q)
      match ← scan_subs M nsc subs with
      | .noMatch => create_contours_go M rest contours (subs ++ [nsc])
      | .closedC subs2 c => create_contours_go M rest (contours ++ [c]) subs2
      | .elong pre e2 post => create_contours_go M rest contours (pre ++ e2 :: post)) :=
  rfl

theorem go_step_edge {n : ℕ} (v : ZMod n → Pt) {M : FloatModel} (k : ZMod n) (b : Bool)
    (rest : List Entity) (contours subs : List SubContour) :
    create_contours_go M (edge_of n v k b :: rest) contours subs = (do
      let nsc ← sc_push_back M scEmpty (edge_of n v k b)
      match ← scan_subs M nsc subs with
      | .noMatch => create_contours_go M rest contours (subs ++ [nsc])
      | .closedC subs2 c => create_contours_go M rest (contours ++ [c]) subs2
      | .elong pre e2 post => create_contours_go M rest contours (pre ++ e2 :: post)) := by
  cases b with
  | false =>
    rw [edge_of_false]
    exact go_step (v k) (v (k + 1)) rest contours subs
  | true =>
    rw [edge_of_true]
    exact go_step (v (k + 1)) (v k) rest contours subs


theorem go_complete {n : ℕ} {v : ZMod n → Pt} {M : FloatModel}
    (hsep : ∀ a b : ZMod n, a ≠ b → ¬ nearPt (v a) (v b)) (hn : 3 ≤ n) :
    ∀ (items : List (ZMod n × Bool)) (P : Finset (ZMod n))
      (cs : List (ZMod n × ℕ × Bool)) (subs : List SubContour),
    ChainInv n v P cs subs →
    (items.map Prod.fst).Nodup →
    (∀ x : ZMod n, x ∈ items.map Prod.fst ↔ x ∉ P) →
    items ≠ [] →
    ∃ c s dd,
      create_contours_go M (items.map fun ib => edge_of n v ib.1 ib.2) [] subs =
        .ok [c] ∧ c.segments = cyc_segs n v s dd ∧ sc_is_closed M c = .ok true := by
  intro items
  induction items with
  | nil => intro P cs subs _ _ _ hne; exact absurd rfl hne
  | cons hd rest ih =>
    intro P cs subs hinv hnd hcompl _
    obtain ⟨k, b⟩ := hd
    simp only [List.map_cons] at hnd hcompl
    have hkP : k ∉ P := (hcompl k).mp (List.mem_cons_self _ _)
    rcases pack_entity v M k b with ⟨nsc, hpush, hnsc⟩
    have hnd2 : (rest.map Prod.fst).Nodup := (List.nodup_cons.mp hnd).2
    have hknotin : k ∉ rest.map Prod.fst := (List.nodup_cons.mp hnd).1
    have hcompl2 : ∀ x : ZMod n, x ∈ rest.map Prod.fst ↔ x ∉ insert k P := by
      intro x
      constructor
      · intro hx hmem
        rcases Finset.mem_insert.mp hmem with he | hP
        · exact hknotin (he ▸ hx)
        · exact (hcompl x).mp (List.mem_cons_of_mem _ hx) hP
      · intro hx
        have hxP : x ∉ P := fun h => hx (Finset.mem_insert_of_mem h)
        have hxk : x ≠ k := fun h => hx (h ▸ Finset.mem_insert_self k P)
        rcases List.mem_cons.mp ((hcompl x).mpr hxP) with he | h
        · exact absurd he hxk
        · exact h
    cases rest with
    | nil =>
      have hfull : ∀ y : ZMod n, y ∈ insert k P := by
        intro y
        by_contra hy
        have hyP : y ∉ P := fun h => hy (Finset.mem_insert_of_mem h)
        rcases List.mem_cons.mp ((hcompl y).mpr hyP) with he | h
        · exact hy (he ▸ Finset.mem_insert_self k P)
        · cases h
      rcases step_close hsep hn hinv hkP hfull hnsc with ⟨merged, s, dd, hscan, hms, hcl⟩
      refine ⟨merged, s, dd, ?_, hms, hcl⟩
      show create_contours_go M
        (((k, b) :: []).map fun ib => edge_of n v ib.1 ib.2) [] subs = _
      simp only [List.map_cons, List.map_nil]
      rw [go_step_edge, hpush, except_bind_ok, hscan, except_bind_ok]
      rfl
    | cons r0 r1 =>
      have hP2 : ∃ y : ZMod n, y ∉ insert k P := by
        refine ⟨r0.1, (hcompl2 r0.1).mp ?_⟩
        exact List.mem_map.mpr ⟨r0, List.mem_cons_self _ _, rfl⟩
      by_cases hA : k - 1 ∈ P <;> by_cases hB : k + 1 ∈ P
      · rcases step_AB hsep hn hinv hkP hA hB hP2 hnsc with
          ⟨pre, e2, post, cs2, hscan, hinv2⟩
        rcases ih (insert k P) cs2 (pre ++ e2 :: post) hinv2 hnd2 hcompl2 (by simp)
          with ⟨c, s, dd, hgo, hms, hcl⟩
        refine ⟨c, s, dd, ?_, hms, hcl⟩
        show create_contours_go M
          (((k, b) :: r0 :: r1).map fun ib => edge_of n v ib.1 ib.2) [] subs = _
        simp only [List.map_cons]
        rw [go_step_edge, hpush, except_bind_ok, hscan, except_bind_ok]
        simpa using hgo
      · rcases step_A hsep hn hinv hkP hA hB hP2 hnsc with
          ⟨pre, e2, post, cs2, hscan, hinv2⟩
        rcases ih (insert k P) cs2 (pre ++ e2 :: post) hinv2 hnd2 hcompl2 (by simp)
          with ⟨c, s, dd, hgo, hms, hcl⟩
        refine ⟨c, s, dd, ?_, hms, hcl⟩
        show create_contours_go M
          (((k, b) :: r0 :: r1).map fun ib => edge_of n v ib.1 ib.2) [] subs = _
        simp only [List.map_cons]
        rw [go_step_edge, hpush, except_bind_ok, hscan, except_bind_ok]
        simpa using hgo
      · rcases step_B hsep hn hinv hkP hA hB hP2 hnsc with
          ⟨pre, e2, post, cs2, hscan, hinv2⟩
        rcases ih (insert k P) cs2 (pre ++ e2 :: post) hinv2 hnd2 hcompl2 (by simp)
          with ⟨c, s, dd, hgo, hms, hcl⟩
        refine ⟨c, s, dd, ?_, hms, hcl⟩
        show create_contours_go M
          (((k, b) :: r0 :: r1).map fun ib => edge_of n v ib.1 ib.2) [] subs = _
        simp only [List.map_cons]
        rw [go_step_edge, hpush, except_bind_ok, hscan, except_bind_ok]
        simpa using hgo
      · rcases step_none hsep hn hinv hkP hA hB hnsc with ⟨hscan, hinv2⟩
        rcases ih (insert k P) (cs ++ [(k, 1, !b)]) (subs ++ [nsc]) hinv2 hnd2 hcompl2
          (by simp) with ⟨c, s, dd, hgo, hms, hcl⟩
        refine ⟨c, s, dd, ?_, hms, hcl⟩
        show create_contours_go M
          (((k, b) :: r0 :: r1).map fun ib => edge_of n v ib.1 ib.2) [] subs = _
        simp only [List.map_cons]
        rw [go_step_edge, hpush, except_bind_ok, hscan, except_bind_ok]
        simpa using hgo

/-- C1: `create_contours` is order-tolerant on every well-formed simple
closed polygon given as LINE entities.  General part: for an `n ≥ 3`-gon
whose vertices are pairwise separated beyond the `EPS` matching tolerance,
presenting the `n` edges in ANY order — any rotation or partial reversal of
input order being such an order — with each entity optionally flipped,
yields exactly one Contour, which is closed, has `n` segments, and carries
exactly the input entity set up to orientation.  Square part: each of the
`4!·2⁴ = 384` scrambled, flipped presentations of four unit-length Line
entities forming the unit square yields exactly one closed Contour
containing all 4 entities. -/
theorem claim_C1 :
    (∀ (n : ℕ) (v : ZMod n → Pt) (M : FloatModel), 3 ≤ n →
      (∀ a b : ZMod n, a ≠ b → ¬ nearPt (v a) (v b)) →
      ∀ items : List (ZMod n × Bool),
        (items.map Prod.fst).Nodup →
        (∀ x : ZMod n, x ∈ items.map Prod.fst) →
        ∃ c, create_contours M (items.map fun ib => edge_of n v ib.1 ib.2) =
            .ok [c] ∧
          sc_is_closed M c = .ok true ∧ c.segments.length = n ∧
          (c.segments.map undirected).Perm
            ((items.map fun ib => edge_of n v ib.1 ib.2).map undirected)) ∧
    (∀ M : FloatModel, square_inputs.all (one_closed_square M) = true) := by
  constructor
  · intro n v M hn hsep items hnd hcompl
    have hinv0 : ChainInv n v ∅ [] [] :=
      ⟨List.Forall₂.nil, fun c hc => absurd hc (List.not_mem_nil c),
        fun c hc => absurd hc (List.not_mem_nil c),
        fun x hx => absurd hx (Finset.not_mem_empty x),
        List.Pairwise.nil, fun c hc => absurd hc (List.not_mem_nil c)⟩
    have hne : items ≠ [] := by
      intro he
      have h0 := hcompl 0
      rw [he] at h0
      cases h0
    have hcompl2 : ∀ x : ZMod n, x ∈ items.map Prod.fst ↔
        x ∉ (∅ : Finset (ZMod n)) := by
      intro x
      simp [hcompl x]
    rcases go_complete hsep hn items ∅ [] [] hinv0 hnd hcompl2 hne with
      ⟨c, s, dd, hgo, hms, hcl⟩
    refine ⟨c, hgo, hcl, ?_, ?_⟩
    · rw [hms, cyc_length]
    · rw [hms]
      exact cyc_perm v hn s dd items hnd hcompl
  · exact square_all_orders

/-- A concrete well-separated triangle, for instantiating the general C1
statement. -/
def tri : ZMod 3 → Pt := fun i => if i = 0 then (0, 0) else if i = 1 then (1, 0) else (0, 1)

theorem claim_C1_witness :
    ∃ c, create_contours M0
        (([((0 : ZMod 3), false), (2, true), (1, false)]).map
          fun ib => edge_of 3 tri ib.1 ib.2) = .ok [c] ∧
      sc_is_closed M0 c = .ok true ∧ c.segments.length = 3 ∧
      (c.segments.map undirected).Perm
        ((([((0 : ZMod 3), false), (2, true), (1, false)]).map
          fun ib => edge_of 3 tri ib.1 ib.2).map undirected) :=
  claim_C1.1 3 tri M0 (by omega) (by with_unfolding_all decide)
    [((0 : ZMod 3), false), (2, true), (1, false)]
    (by with_unfolding_all decide) (by with_unfolding_all decide)
